import Mathlib

/-!
# regox: a shallow embedding of the matching engine and the pattern compiler

Go strings are byte sequences, so a string is a list of bytes (`Bytes`), each byte a natural
number below 256.  A Go function either returns, panics at run time (an index or a slice bound
out of range) or never returns; `Run` records which.  A `consumer` is the Go closure type
`func(string) RegResult`.
-/

namespace Regox

/-! ## Go run-time model -/

/-- A Go string: its bytes, in order. -/
abbrev Bytes := List Nat

/-- Outcome of calling a Go function: a returned value, a run-time panic, or no return at all. -/
inductive Run (α : Type) where
  | ok : α → Run α
  | panic : Run α
  | diverge : Run α
  deriving DecidableEq

/-- Sequencing of Go statements: the first panic or divergence ends the evaluation. -/
def Run.bind {α β : Type} : Run α → (α → Run β) → Run β
  | .ok a, f => f a
  | .panic, _ => .panic
  | .diverge, _ => .diverge

instance : Monad Run where
  pure := Run.ok
  bind := Run.bind

/-- Go slice expression `s[lo:hi]` on a string or a slice: it panics unless
`lo <= hi <= len(s)`. -/
def slice {α : Type} (s : List α) (lo hi : Nat) : Run (List α) :=
  if lo ≤ hi ∧ hi ≤ s.length then .ok ((s.take hi).drop lo) else .panic

/-- Go index expression `s[i]`: it panics unless `i < len(s)`. -/
def index {α : Type} (s : List α) (i : Nat) : Run α :=
  match s[i]? with
  | some a => .ok a
  | none => .panic

/-! ## regox.go: results -/

/-- RegResult holds the result of a regex match. -/
structure RegResult where
  Success : Bool
  Captures : List Bytes
  Coverage : Bytes
  deriving DecidableEq

/-- The Go type `consumer`: an expression node of the tree, a function from the input to a
result. -/
abbrev consumer := Bytes → Run RegResult

/-- Regex holds the expression and its tree. -/
structure Regex where
  expression : Bytes
  exprTree : consumer

/-- Source: `result`. -/
def result (success : Bool) (captures : List Bytes) (coverage : Bytes) : RegResult :=
  { Success := success, Captures := captures, Coverage := coverage }

/-- Source: `failure`; the nil capture slice is the empty list. -/
def failure : RegResult := result false [] []

/-! ## parser.go: `strcontains` and the rune model it needs

`for _, a := range s` decodes `s` as UTF-8, one rune at a time; a byte that starts no valid
encoding yields the rune U+FFFD and advances by one byte.  `string(r)` encodes a rune. -/

/-- Continuation byte test of the UTF-8 decoder (`0x80 <= b <= 0xBF`). -/
def isCont (b : Nat) : Bool := 128 ≤ b && b ≤ 191

/-- The rune at the head of a non-empty byte string, with its width in bytes, as Go's
`range` loop decodes it. -/
def decodeRune : Bytes → Nat × Nat
  | [] => (65533, 1)
  | b0 :: rest =>
    if b0 < 128 then (b0, 1)
    else if 192 ≤ b0 ∧ b0 < 224 then
      match rest with
      | b1 :: _ =>
        if isCont b1 then
          let r := (b0 % 32) * 64 + (b1 % 64)
          if 127 < r then (r, 2) else (65533, 1)
        else (65533, 1)
      | _ => (65533, 1)
    else if 224 ≤ b0 ∧ b0 < 240 then
      match rest with
      | b1 :: b2 :: _ =>
        if isCont b1 && isCont b2 then
          let r := (b0 % 16) * 4096 + (b1 % 64) * 64 + (b2 % 64)
          if 2047 < r ∧ ¬ (55296 ≤ r ∧ r ≤ 57343) then (r, 3) else (65533, 1)
        else (65533, 1)
      | _ => (65533, 1)
    else if 240 ≤ b0 ∧ b0 < 248 then
      match rest with
      | b1 :: b2 :: b3 :: _ =>
        if isCont b1 && isCont b2 && isCont b3 then
          let r := (b0 % 8) * 262144 + (b1 % 64) * 4096 + (b2 % 64) * 64 + (b3 % 64)
          if 65535 < r ∧ r ≤ 1114111 then (r, 4) else (65533, 1)
        else (65533, 1)
      | _ => (65533, 1)
    else (65533, 1)

/-- Go conversion `string(r)` of a rune (or of a byte, taken as a code point): its UTF-8
encoding, U+FFFD for a surrogate or a value above U+10FFFF. -/
def encodeRune (r : Nat) : Bytes :=
  if r < 128 then [r]
  else if r < 2048 then [192 + r / 64, 128 + r % 64]
  else if 1114111 < r ∨ (55296 ≤ r ∧ r ≤ 57343) then [239, 191, 189]
  else if r < 65536 then [224 + r / 4096, 128 + (r / 64) % 64, 128 + r % 64]
  else [240 + r / 262144, 128 + (r / 4096) % 64, 128 + (r / 64) % 64, 128 + r % 64]

/-- The pairs (byte offset, rune) that `for i, r := range s` visits, from offset `i` on;
`fuel` bounds the number of runes by the number of bytes. -/
def runesFrom : Nat → Nat → Bytes → List (Nat × Nat)
  | 0, _, _ => []
  | _ + 1, _, [] => []
  | fuel + 1, i, b :: rest =>
    let d := decodeRune (b :: rest)
    (i, d.1) :: runesFrom fuel (i + d.2) ((b :: rest).drop d.2)

/-- The runes of `for _, r := range s`, in order. -/
def runes (s : Bytes) : List Nat := (runesFrom s.length 0 s).map Prod.snd

/-- The bytes of a string literal, UTF-8 encoded. -/
def str (s : String) : Bytes := (s.toList.map fun c => encodeRune c.toNat).flatten

/-- Source: `strcontains`. -/
def strcontains (s : Bytes) (e : Nat) : Bool := (runes s).any fun a => a == e

/-! ## regox.go: atomics -/

/-- Source: `atom`, matching a continuous sequence of explicit characters. -/
def atom (matcher : Bytes) : consumer := fun input =>
  if input.length < matcher.length then pure failure
  else do
    let head ← slice input 0 matcher.length
    if head = matcher then pure (result true [] matcher) else pure failure

/-- Source: `word`; the range is `'A'` (65) to `'z'` (122). -/
def word : consumer := fun input =>
  if input.length = 0 then pure failure
  else do
    let c ← index input 0
    if 65 ≤ c ∧ c ≤ 122 then do
      let cov ← slice input 0 1
      pure (result true [] cov)
    else pure failure

/-- Source: `digit`; the range is `'0'` (48) to `'9'` (57). -/
def digit : consumer := fun input =>
  if input.length = 0 then pure failure
  else do
    let c ← index input 0
    if 48 ≤ c ∧ c ≤ 57 then do
      let cov ← slice input 0 1
      pure (result true [] cov)
    else pure failure

/-- Source: `any`, the wild card. -/
def any : consumer := fun input =>
  if 0 < input.length then do
    let cov ← slice input 0 1
    pure (result true [] cov)
  else pure failure

/-- Source: `backslash`; the backslash is byte 92. -/
def backslash : consumer := fun input =>
  if input = [] then pure failure
  else do
    let c ← index input 0
    if c = 92 then do
      let cov ← slice input 0 1
      pure (result true [] cov)
    else pure failure

/-- Source: `space`; the literal is tab, carriage return, space, newline. -/
def space : consumer := fun input =>
  if input = [] then pure failure
  else do
    let char ← index input 0
    if strcontains [9, 13, 32, 10] char then do
      let cov ← slice input 0 1
      pure (result true [] cov)
    else pure failure

/-- Source: `tab`; there is no test for the empty input before `input[0]`. -/
def tab : consumer := fun input => do
  let char ← index input 0
  if char = 9 then do
    let cov ← slice input 0 1
    pure (result true [] cov)
  else pure failure

/-! ## regox.go: operations -/

/-- Source: `negate`, matching a single character that the contained expression does not
match. -/
def negate (cons : consumer) : consumer := fun input =>
  if input = [] then pure failure
  else do
    let res ← cons input
    if !res.Success then do
      let cov ← slice input 0 1
      pure (result true [] cov)
    else pure failure

/-- The `for _, con := range cons` loop of `set`. -/
def setLoop : List consumer → Bytes → Run RegResult
  | [], _ => pure failure
  | con :: rest, input => do
    let res ← con input
    if res.Success then do
      let cov ← slice input 0 1
      pure (result true [] cov)
    else setLoop rest input

/-- Source: `set`. -/
def set (cons : List consumer) : consumer := fun input =>
  if input = [] then pure failure else setLoop cons input

/-- Source: `inRange`, a character between the lower and the upper byte. -/
def inRange (lower upper : Nat) : consumer := fun input =>
  if input = [] then pure failure
  else do
    let c ← index input 0
    if lower ≤ c ∧ c ≤ upper then do
      let cov ← slice input 0 1
      pure (result true [] cov)
    else pure failure

/-- Source: `option`, zero or one of the internal expression. -/
def option (cons : consumer) : consumer := fun input => do
  let res ← cons input
  if !res.Success then pure (result true [] [])
  else pure (result true res.Captures res.Coverage)

/-- The loop of `repeat`, `reps` iterations left. -/
def repeatLoop (cons : consumer) (input : Bytes) : Nat → Bytes → List Bytes → Run RegResult
  | 0, coverage, captures => pure (result true captures coverage)
  | reps + 1, coverage, captures => do
    let rest ← slice input coverage.length input.length
    let res ← cons rest
    if !res.Success then pure failure
    else repeatLoop cons input reps (coverage ++ res.Coverage) (captures ++ res.Captures)

/-- Source: `repeat` (a reserved word here, hence the underscore); `repetitions` is a Go
`int`, and the loop `for reps := repetitions; reps > 0; reps--` runs `repetitions` times, or
not at all for a negative count. -/
def repeat_ (cons : consumer) (repetitions : Int) : consumer := fun input =>
  repeatLoop cons input repetitions.toNat [] []

/-- The loop of `rangeRepeat`, `reps` iterations left; it returns the coverage, the captures
and `repsComplete` at the `break` or at the end of the loop. -/
def rangeRepeatLoop (cons : consumer) (input : Bytes) :
    Nat → Bytes → List Bytes → Nat → Run (Bytes × List Bytes × Nat)
  | 0, coverage, captures, repsComplete => pure (coverage, captures, repsComplete)
  | reps + 1, coverage, captures, repsComplete => do
    let rest ← slice input coverage.length input.length
    let res ← cons rest
    if !res.Success then pure (coverage, captures, repsComplete)
    else
      rangeRepeatLoop cons input reps (coverage ++ res.Coverage) (captures ++ res.Captures)
        (repsComplete + 1)

/-- Source: `rangeRepeat`; `minReps` and `maxReps` are Go `int`s, `maxReps == -1` stands for
no upper bound. -/
def rangeRepeat (cons : consumer) (minReps maxReps : Int) : consumer := fun input => do
  let reps : Int := if maxReps = -1 then (input.length : Int) else maxReps
  let (coverage, captures, repsComplete) ← rangeRepeatLoop cons input reps.toNat [] [] 0
  if (repsComplete : Int) ≥ minReps ∧ (maxReps = -1 ∨ (repsComplete : Int) ≤ maxReps) then
    pure (result true captures coverage)
  else pure failure

/-- The loop `for index < len(input)` of `star`.  An iteration that stays in the loop adds
the length of the child's coverage to `index`; when that length is zero the iteration
repeats unchanged for ever.  So `len(input) + 1` iterations without leaving the loop mean
that it never ends: `fuel` counts the iterations and its exhaustion is `diverge`. -/
def starLoop (cons : consumer) (input : Bytes) : Nat → Nat → Bytes → Run RegResult
  | 0, _, _ => .diverge
  | fuel + 1, index, coverage =>
    if index < input.length then do
      let rest ← slice input index input.length
      let res ← cons rest
      if res.Success then
        starLoop cons input fuel (index + res.Coverage.length) (coverage ++ res.Coverage)
      else pure (result true [] coverage)
    else pure (result true [] coverage)

/-- Source: `star`, zero or more of the internal expression; `captures` is never appended
to. -/
def star (cons : consumer) : consumer := fun input =>
  starLoop cons input (input.length + 1) 0 []

/-- The loop of `plus`, with the same iteration count as `starLoop`; it returns the number of
instances, the coverage and the captures on leaving the loop. -/
def plusLoop (cons : consumer) (input : Bytes) :
    Nat → Nat → Nat → Bytes → List Bytes → Run (Nat × Bytes × List Bytes)
  | 0, _, _, _, _ => .diverge
  | fuel + 1, instances, index, coverage, captures =>
    if index < input.length then do
      let rest ← slice input index input.length
      let res ← cons rest
      if res.Success then
        plusLoop cons input fuel (instances + 1) (index + res.Coverage.length)
          (coverage ++ res.Coverage) (captures ++ res.Captures)
      else pure (instances, coverage, captures)
    else pure (instances, coverage, captures)

/-- Source: `plus`, one or more of the contained expression. -/
def plus (cons : consumer) : consumer := fun input => do
  let (instances, coverage, captures) ← plusLoop cons input (input.length + 1) 0 0 [] []
  if instances > 0 then pure (result true captures coverage) else pure failure

/-- The `for _, cons := range consumers` loop of `concat`; the slice of `bigstr` is taken
before the success flag is looked at. -/
def concatLoop : List consumer → Bytes → Bytes → List Bytes → Run RegResult
  | [], _, coverage, captures => pure (result true captures coverage)
  | cons :: rest, bigstr, coverage, captures => do
    let res ← cons bigstr
    let bigstr1 ← slice bigstr res.Coverage.length bigstr.length
    if !res.Success then pure failure
    else concatLoop rest bigstr1 (coverage ++ res.Coverage) (captures ++ res.Captures)

/-- Source: `concat`, sequential regular expressions. -/
def concat (consumers : List consumer) : consumer := fun input =>
  if consumers.length = 0 then pure failure else concatLoop consumers input [] []

/-- The `for _, cons := range consumers` loop of `union`. -/
def unionLoop : List consumer → Bytes → Run RegResult
  | [], _ => pure failure
  | cons :: rest, input => do
    let res ← cons input
    if res.Success then pure (result true (res.Captures ++ [res.Coverage]) res.Coverage)
    else unionLoop rest input

/-- Source: `union`; the result is placed in a capture group. -/
def union (consumers : List consumer) : consumer := fun input => unionLoop consumers input

/-- Source: `capture`. -/
def capture (cons : consumer) : consumer := fun input => do
  let res ← cons input
  if !res.Success then pure failure
  else pure (result true ([res.Coverage] ++ res.Captures) res.Coverage)

/-! ## regox.go: the public operations -/

/-- Source: `Regex.Match`; the field `Captures` of the tree's result is replaced, the other
two fields are kept. -/
def Match (regex : Regex) (s : Bytes) : Run RegResult := do
  let captures : List Bytes := [s]
  let res ← regex.exprTree s
  pure { res with Captures := captures ++ res.Captures }

/-- Source: `Regex.Matches`. -/
def Matches (regex : Regex) (s : Bytes) : Run Bool := do
  let res ← regex.exprTree s
  pure res.Success

/-- The loop `for i < len(s)` of `MatchAll`.  A successful iteration adds the length of the
coverage to `i`, a failed one adds one; a success with empty coverage repeats unchanged for
ever, so `len(s) + 1` iterations without leaving the loop mean that it never ends. -/
def MatchAllLoop (regex : Regex) (s : Bytes) : Nat → Nat → List RegResult → Run (List RegResult)
  | 0, _, _ => .diverge
  | fuel + 1, i, found =>
    if i < s.length then do
      let rest ← slice s i s.length
      let res ← regex.exprTree rest
      if res.Success then MatchAllLoop regex s fuel (i + res.Coverage.length) (found ++ [res])
      else MatchAllLoop regex s fuel (i + 1) found
    else pure found

/-- Source: `Regex.MatchAll`, all matches within a given string. -/
def MatchAll (regex : Regex) (s : Bytes) : Run (List RegResult) :=
  MatchAllLoop regex s (s.length + 1) 0 []

/-! ## parser.go: helpers -/

/-- The digit loop of the Go library function `strconv.ParseUint` in base 10 on 64 bits, `n`
being the value read so far: a byte that is no digit is a syntax error (`none`), whatever
follows it; a value that leaves 64 bits is a range error, reported at the digit that
overflows, before the rest of the text is read, with the value `1<<64 - 1`. -/
def ParseUintLoop : Bytes → Nat → Option Nat
  | [], n => some n
  | c :: rest, n =>
    if 48 ≤ c ∧ c ≤ 57 then
      if n ≥ 1844674407370955162 then some (2 ^ 64 - 1)
      else if n * 10 + (c - 48) > 2 ^ 64 - 1 then some (2 ^ 64 - 1)
      else ParseUintLoop rest (n * 10 + (c - 48))
    else none

/-- The Go library function `strconv.ParseUint(s, 10, 64)`, `none` for a syntax error; the
empty string is a syntax error. -/
def ParseUint (s : Bytes) : Option Nat := if s = [] then none else ParseUintLoop s 0

/-- The Go library function `strconv.Atoi` on a 64-bit platform, its error discarded as in
`l, _ := strconv.Atoi(lower)`: an optional sign, then `ParseUint`; `0` on a syntax error, the
nearest bound of `int` on a range error or when the value does not fit `int`. -/
def Atoi (s : Bytes) : Int :=
  let neg : Bool := s.head? = some 45
  let digits : Bytes := if s.head? = some 45 ∨ s.head? = some 43 then s.tail else s
  match ParseUint digits with
  | none => 0
  | some un =>
    if neg then (if un > 2 ^ 63 then -(2 ^ 63 : Int) else -(un : Int))
    else (if un ≥ 2 ^ 63 then (2 ^ 63 - 1 : Int) else (un : Int))

/-- The loop of `deparens`, about to look at `tokens[i - 1]`, from the last token down. -/
def deparensLoop (tokens : List Bytes) (opener closer : Bytes) : Nat → Int → Run (List Bytes)
  | 0, _ => pure tokens
  | i + 1, level => do
    let t ← index tokens i
    let level1 : Int := if t = closer then level + 1 else if t = opener then level - 1 else level
    if level1 = 0 then slice tokens i tokens.length
    else deparensLoop tokens opener closer i level1

/-- Source: `deparens`, the trailing group of `tokens`, or all of `tokens` when the nesting
level never returns to zero. -/
def deparens (tokens : List Bytes) (opener closer : Bytes) : Run (List Bytes) :=
  deparensLoop tokens opener closer tokens.length 0

/-- Source: `separens`, like `deparens` but returning the tokens split in two. -/
def separens (tokens : List Bytes) (opener closer : Bytes) : Run (List Bytes × List Bytes) := do
  let parens ← deparens tokens opener closer
  let body ← slice tokens 0 (tokens.length - parens.length)
  pure (body, parens)

/-- The loop of `strSplit` over the pairs (byte offset, rune) of `s`. -/
def strSplitLoop (s : Bytes) (splitter : Nat) : List (Nat × Nat) → Bytes → Run (Bytes × Bytes)
  | [], buffer => pure (buffer, [])
  | (i, r) :: rest, buffer =>
    if r = splitter then do
      let lower ← slice s 0 i
      let upper ← slice s (i + 1) s.length
      pure (lower, upper)
    else strSplitLoop s splitter rest (buffer ++ encodeRune r)

/-- Source: `strSplit`. -/
def strSplit (s : Bytes) (splitter : Nat) : Run (Bytes × Bytes) :=
  strSplitLoop s splitter (runesFrom s.length 0 s) []

/-- The loop of `parencontains`. -/
def parencontainsLoop (elem : Bytes) : List Bytes → Int → Bool
  | [], _ => false
  | token :: rest, level =>
    if token = str "(" then
      (if level + 1 = 0 then false else parencontainsLoop elem rest (level + 1))
    else if token = str ")" then
      (if level - 1 = 0 then false else parencontainsLoop elem rest (level - 1))
    else if level = 1 ∧ token = elem then true
    else if level = 0 then false
    else parencontainsLoop elem rest level

/-- Source: `parencontains`. -/
def parencontains (tokens : List Bytes) (elem : Bytes) : Bool := parencontainsLoop elem tokens 0

/-- Source: `abbreviate`. -/
def abbreviate (tokens : List Bytes) : Bytes := tokens.foldl (fun out token => out ++ token) []

/-! ## parser.go: the two lexers -/

/-- The variables of the loop of `tokenize`. -/
structure TokState where
  buffer : Bytes
  isEscaping : Bool
  tokens : List Bytes
  deriving DecidableEq

/-- One iteration of the loop of `tokenize`, on the rune `c`. -/
def tokenizeStep (st : TokState) (c : Nat) : TokState :=
  if st.isEscaping then
    { buffer := [], isEscaping := false, tokens := st.tokens ++ [str "\\" ++ encodeRune c] }
  else if c = 92 then
    if st.buffer.length > 0 then
      { buffer := [], isEscaping := true, tokens := st.tokens ++ [st.buffer] }
    else { st with isEscaping := true }
  else if strcontains (str "()[]\x7b\x7d|.+*?") c then
    if st.buffer.length > 0 then
      { st with buffer := [], tokens := st.tokens ++ [st.buffer] ++ [encodeRune c] }
    else { st with tokens := st.tokens ++ [encodeRune c] }
  else { st with buffer := st.buffer ++ encodeRune c }

/-- Source: `tokenize`, splitting a regex into tokens. -/
def tokenize (regex : Bytes) : List Bytes :=
  let st := (runes regex).foldl tokenizeStep { buffer := [], isEscaping := false, tokens := [] }
  if st.buffer.length > 0 then st.tokens ++ [st.buffer] else st.tokens

/-- One iteration of the loop of `setTokenize` on the rune `char`, the state being the buffer
and the tokens; a buffer of three or more bytes is left as it is and the rune is skipped. -/
def setTokenizeStep (st : Bytes × List Bytes) (char : Nat) : Bytes × List Bytes :=
  match st.1 with
  | [] => (encodeRune char, st.2)
  | [first] =>
    if first = 92 then ([], st.2 ++ [[first] ++ encodeRune char])
    else if char ≠ 45 then (encodeRune char, st.2 ++ [[first]])
    else ([first] ++ encodeRune char, st.2)
  | [b0, b1] => ([], st.2 ++ [[b0, b1] ++ encodeRune char])
  | _ => st

/-- Source: `setTokenize`, the tokens of the contents of a set; `s[0]` is read without a
test for the empty string. -/
def setTokenize (s : Bytes) : Run (List Bytes) := do
  let c0 ← index s 0
  let tokens0 : List Bytes := if c0 = 94 then [str "^"] else []
  let s1 ← if c0 = 94 then slice s 1 s.length else pure s
  let st := (runes s1).foldl setTokenizeStep ([], tokens0)
  if st.1.length > 0 then pure (st.2 ++ [st.1]) else pure st.2

/-! ## parser.go: the parser -/

/-- Source: `splitSingular`, parsing an atomic regular expression; `regex[0]` and `regex[1]`
are read without a test of the length, and `string(escChar)` converts a byte. -/
def splitSingular (regex : Bytes) : Run consumer :=
  if regex = str "." then pure any
  else do
    let c0 ← index regex 0
    if c0 = 92 then do
      let escChar ← index regex 1
      if escChar = 100 then pure digit
      else if escChar = 92 then pure backslash
      else if escChar = 115 then pure space
      else if escChar = 116 then pure tab
      else if escChar = 68 then pure (negate digit)
      else if escChar = 84 then pure (negate tab)
      else if escChar = 83 then pure (negate space)
      else if escChar = 119 then pure word
      else if escChar = 87 then pure (negate word)
      else pure (atom (encodeRune escChar))
    else pure (atom regex)

/-- The `for _, token := range regex` loop of `splitSet`. -/
def splitSetLoop : List Bytes → List consumer → Run (List consumer)
  | [], cons => pure cons
  | token :: rest, cons => do
    let con ←
      if token = str "." then pure (atom (str "."))
      else if token.length < 3 then splitSingular token
      else do
        let lower ← index token 0
        let upper ← index token 2
        pure (inRange lower upper)
    splitSetLoop rest (cons ++ [con])

/-- Source: `splitSet`, the consumers of the tokens of a set. -/
def splitSet (regex : List Bytes) : Run (List consumer) := splitSetLoop regex []

/-- The `for _, token := range regex[1 : len(regex)-1]` loop of `splitUnion`, with
`splitConcatenation` as the parameter `sc`; it returns `tokBuffer` and `consumers`. -/
def splitUnionLoop (sc : List Bytes → Run consumer) :
    List Bytes → List Bytes → List consumer → Int → Run (List Bytes × List consumer)
  | [], tokBuffer, consumers, _ => pure (tokBuffer, consumers)
  | token :: rest, tokBuffer, consumers, level =>
    let level1 : Int :=
      if token = str "(" then level + 1 else if token = str ")" then level - 1 else level
    if level1 = 0 ∧ token = str "|" then do
      let c ← sc tokBuffer
      splitUnionLoop sc rest [] (consumers ++ [c]) level1
    else splitUnionLoop sc rest (tokBuffer ++ [token]) consumers level1

mutual

/-- The loop `for len(str) > 0` of `splitConcatenation`. -/
def splitConcatenationLoop : Nat → List Bytes → List consumer → Run (List consumer)
  | 0, _, _ => .diverge
  | fuel + 1, str0, parts =>
    if str0.length > 0 then do
      let (str1, cons) ← splitRegex fuel str0
      splitConcatenationLoop fuel str1 ([cons] ++ parts)
    else pure parts

/-- Source: `splitConcatenation`, a token sequence as a concatenation.  The parser recurses
on ever shorter token sequences; `fuel` bounds the depth of the calls. -/
def splitConcatenation : Nat → List Bytes → Run consumer
  | 0, _ => .diverge
  | fuel + 1, regex =>
    if regex.length = 0 then pure (atom (str ""))
    else do
      let parts ← splitConcatenationLoop fuel regex []
      if parts.length = 1 then index parts 0 else pure (concat parts)

/-- Source: `splitRegex`, a token sequence split into a body and the consumer of its
trailing expression. -/
def splitRegex : Nat → List Bytes → Run (List Bytes × consumer)
  | 0, _ => .diverge
  | fuel + 1, regex => do
    let lastToken ← index regex (regex.length - 1)
    if regex.length = 1 then do
      let t ← index regex 0
      let c ← splitSingular t
      pure ([], c)
    else if lastToken = str ")" then do
      let (body, tail) ← separens regex (str "(") (str ")")
      if parencontains tail (str "|") then do
        let cs ← splitUnion fuel tail
        pure (body, union cs)
      else do
        let inner ← slice tail 1 (tail.length - 1)
        let c ← splitConcatenation fuel inner
        pure (body, capture c)
    else if lastToken = str "\x7d" then do
      let (body, tail) ← separens regex (str "\x7b") (str "\x7d")
      let (nbody, repeater) ← splitRegex fuel body
      let bound ← index tail 1
      if strcontains bound 44 then do
        let (lower, upper) ← strSplit bound 44
        let l := Atoi lower
        let u : Int := if upper = str "" then -1 else Atoi upper
        pure (nbody, rangeRepeat repeater l u)
      else pure (nbody, repeat_ repeater (Atoi bound))
    else if lastToken = str "]" then do
      let (body, tail) ← separens regex (str "[") (str "]")
      let setContents := abbreviate tail
      let inner ← slice setContents 1 (setContents.length - 1)
      let setTokens ← setTokenize inner
      let first ← index setTokens 0
      if first = str "^" then do
        let cs ← splitSet setTokens
        pure (body, negate (set cs))
      else do
        let cs ← splitSet setTokens
        pure (body, set cs)
    else if lastToken = str "*" then do
      let front ← slice regex 0 (regex.length - 1)
      let (body, tail) ← splitRegex fuel front
      pure (body, star tail)
    else if lastToken = str "+" then do
      let front ← slice regex 0 (regex.length - 1)
      let (body, tail) ← splitRegex fuel front
      pure (body, plus tail)
    else if lastToken = str "?" then do
      let front ← slice regex 0 (regex.length - 1)
      let (body, tail) ← splitRegex fuel front
      pure (body, option tail)
    else do
      let front ← slice regex 0 (regex.length - 1)
      let c ← splitSingular lastToken
      pure (front, c)

/-- Source: `splitUnion`, the subexpressions of a group, split by the pipe character. -/
def splitUnion : Nat → List Bytes → Run (List consumer)
  | 0, _ => .diverge
  | fuel + 1, regex => do
    let inner ← slice regex 1 (regex.length - 1)
    let (tokBuffer, consumers) ← splitUnionLoop (splitConcatenation fuel) inner [] [] 0
    let c ← splitConcatenation fuel tokBuffer
    pure (consumers ++ [c])

end

/-- Source: `tparse`.  A call of `splitRegex` on `n` tokens nests at most `2 * n` calls, so
the fuel below is never exhausted (`tparse_fuel`). -/
def tparse (regex : List Bytes) : Run consumer :=
  splitConcatenation (2 * regex.length + 2) regex

/-- Source: `cparse`. -/
def cparse (regex : Bytes) : Run consumer := tparse (tokenize regex)

/-- Source: `Parse`, a string regex parsed into a regex object. -/
def Parse (regex : Bytes) : Run Regex := do
  let tree ← cparse regex
  pure { expression := regex, exprTree := tree }

/-! ## Vocabulary of the specification -/

/-- The root matcher of `Parse(pattern)` evaluated on `text`: the compilation followed by one
evaluation of the tree. -/
def rootOn (pattern text : Bytes) : Run RegResult :=
  (Parse pattern).bind fun regex => regex.exprTree text

/-- The concatenation of the coverages of the results `rs`, in order. -/
def coverages (rs : List RegResult) : Bytes := (rs.map fun r => r.Coverage).flatten

/-- The concatenation of the captures of the results `rs`, in order. -/
def capturesOf (rs : List RegResult) : List Bytes := (rs.map fun r => r.Captures).flatten

/-- The number of bytes the results `rs` cover together. -/
def endOffset (rs : List RegResult) : Nat := (rs.map fun r => r.Coverage.length).sum

/-- The matcher `child`, applied to what is left of `input` at offset `off`, returns a failed
outcome. -/
def FailsAt (child : consumer) (input : Bytes) (off : Nat) : Prop :=
  ∃ r, child (input.drop off) = Run.ok r ∧ r.Success = false

/-- Whether a matcher returns a failed outcome at an offset can be computed. -/
instance decidableFailsAt (child : consumer) (input : Bytes) (off : Nat) :
    Decidable (FailsAt child input off) :=
  match h : child (input.drop off) with
  | Run.ok r =>
    if hs : r.Success = false then isTrue ⟨r, h, hs⟩
    else isFalse (by
      rintro ⟨q, hq, hqs⟩
      rw [h] at hq
      cases hq
      exact hs hqs)
  | Run.panic => isFalse (by
      rintro ⟨q, hq, _⟩
      rw [h] at hq
      cases hq)
  | Run.diverge => isFalse (by
      rintro ⟨q, hq, _⟩
      rw [h] at hq
      cases hq)

/-- The results `rs` are those of consecutive successful applications of `child` to `input`,
the first at offset `off`, each one where the previous one ended. -/
def Applications (child : consumer) (input : Bytes) : Nat → List RegResult → Prop
  | _, [] => True
  | off, r :: rs =>
    child (input.drop off) = Run.ok r ∧ r.Success = true ∧
      Applications child input (off + r.Coverage.length) rs

/-- The results `rs` are the maximal run of consecutive successful applications of `child`
from offset `off` on: every application starts inside the input, where the previous one
ended, and the run stops at the end of the input or at the first failure. -/
def GreedyRun (child : consumer) (input : Bytes) : Nat → List RegResult → Prop
  | off, [] => input.length ≤ off ∨ FailsAt child input off
  | off, r :: rs =>
    off < input.length ∧ child (input.drop off) = Run.ok r ∧ r.Success = true ∧
      GreedyRun child input (off + r.Coverage.length) rs

/-- The results `rs` are those of the matchers `children` applied in turn, each to the input
that remains after the coverages of the ones before it, every one of them successful with a
coverage no longer than the input it was applied to. -/
def InTurn : List consumer → Bytes → List RegResult → Prop
  | [], _, [] => True
  | c :: cs, rest, r :: rs =>
    c rest = Run.ok r ∧ r.Success = true ∧ r.Coverage.length ≤ rest.length ∧
      InTurn cs (rest.drop r.Coverage.length) rs
  | _, _, _ => False

/-- The pairs `ms` (start offset, result) are the matches of the left-to-right scan of `text`
by `root`: each is a successful evaluation of `root` on the text from its offset on, the
offsets increase strictly and no match starts before the previous one ends, and `root` fails
at every offset of the text that lies in no match. -/
def ScanMatches (root : consumer) (text : Bytes) (ms : List (Nat × RegResult)) : Prop :=
  (∀ m ∈ ms, m.1 < text.length ∧ root (text.drop m.1) = Run.ok m.2 ∧ m.2.Success = true) ∧
  ms.Pairwise (fun a b => a.1 < b.1 ∧ a.1 + a.2.Coverage.length ≤ b.1) ∧
  (∀ j, j < text.length → (∀ m ∈ ms, j < m.1 ∨ m.1 + m.2.Coverage.length ≤ j) →
    FailsAt root text j)

/-- An outcome that, when it is a failed one, is exactly the value `failure()`: no coverage
and no captures. -/
def FailsClean (x : Run RegResult) : Prop :=
  ∀ r, x = Run.ok r → r.Success = false → r = failure

/-- The offsets that the loop of `MatchAll` on the text `s` visits: it starts at offset 0,
a successful evaluation of the root moves it on by the length of the coverage and a failed
one by one. -/
inductive Reaches (regex : Regex) (s : Bytes) : Nat → Prop where
  | start : Reaches regex s 0
  | success (i : Nat) (r : RegResult) : Reaches regex s i → i < s.length →
      regex.exprTree (s.drop i) = Run.ok r → r.Success = true →
      Reaches regex s (i + r.Coverage.length)
  | failure (i : Nat) (r : RegResult) : Reaches regex s i → i < s.length →
      regex.exprTree (s.drop i) = Run.ok r → r.Success = false →
      Reaches regex s (i + 1)

/-- The UTF-8 encoding of a sequence of code points. -/
def encodeAll (cs : List Nat) : Bytes := (cs.map encodeRune).flatten

/-- A Unicode scalar value: a code point that UTF-8 encodes. -/
def validRune (r : Nat) : Prop := r < 1114112 ∧ ¬ (55296 ≤ r ∧ r ≤ 57343)

instance decidableValidRune (r : Nat) : Decidable (validRune r) := by
  unfold validRune
  infer_instance

/-- The string is valid UTF-8: decoding it rune by rune and encoding the runes again gives
the string back. -/
def ValidUTF8 (s : Bytes) : Prop := encodeAll (runes s) = s

instance decidableValidUTF8 (s : Bytes) : Decidable (ValidUTF8 s) := by
  unfold ValidUTF8
  infer_instance

/-- The structural characters of the pattern lexer, `( ) [ ] { } | . + * ?`. -/
def structural (c : Nat) : Prop := c ∈ [40, 41, 91, 93, 123, 125, 124, 46, 43, 42, 63]

instance decidableStructural (c : Nat) : Decidable (structural c) := by
  unfold structural
  infer_instance

/-- A plain character of a pattern: neither structural nor the backslash. -/
def plain (c : Nat) : Prop := validRune c ∧ c ≠ 92 ∧ ¬ structural c

instance decidablePlain (c : Nat) : Decidable (plain c) := by
  unfold plain
  infer_instance

/-- A token that is one structural character. -/
def IsStructuralToken (t : Bytes) : Prop := ∃ c, structural c ∧ t = [c]

/-- A token that is an escape: a backslash and the one character after it. -/
def IsEscapeToken (t : Bytes) : Prop := ∃ c, validRune c ∧ t = 92 :: encodeRune c

/-- A token that is a non-empty run of plain characters. -/
def IsLiteralRun (t : Bytes) : Prop :=
  ∃ cs : List Nat, cs ≠ [] ∧ (∀ c ∈ cs, plain c) ∧ t = encodeAll cs

/-- The characters `cs` end in an unterminated escape: the backslashes at their end are odd in
number, so that the last one escapes nothing. -/
def EndsInEscape (cs : List Nat) : Prop :=
  (cs.reverse.takeWhile (fun c => c == 92)).length % 2 = 1

instance decidableEndsInEscape (cs : List Nat) : Decidable (EndsInEscape cs) := by
  unfold EndsInEscape
  infer_instance


/-- The invariant of the loop of `tokenize` once it has read the runes `p`: the tokens, the
buffer and a pending backslash spell `p`; every token is a structural character, an escape or
a literal run; the buffer is empty or a literal run, and empty while escaping; no two literal
runs are adjacent, and the last token is a literal run only while escaping; the loop is
escaping exactly when `p` ends in an unterminated escape. -/
def TokInv (p : List Nat) (st : TokState) : Prop :=
  st.tokens.flatten ++ st.buffer ++ (if st.isEscaping then [92] else []) = encodeAll p ∧
  (∀ t ∈ st.tokens, IsStructuralToken t ∨ IsEscapeToken t ∨ IsLiteralRun t) ∧
  (st.buffer = [] ∨ IsLiteralRun st.buffer) ∧
  (st.isEscaping = true → st.buffer = []) ∧
  List.Chain' (fun a b => ¬ (IsLiteralRun a ∧ IsLiteralRun b)) st.tokens ∧
  (st.isEscaping = false → ∀ t, st.tokens.getLast? = some t → ¬ IsLiteralRun t) ∧
  (st.isEscaping = true ↔ EndsInEscape p)

/-- The digits of `n` in front of `acc`, most significant first; `fuel` bounds their number. -/
def decimalAux : Nat → Nat → Bytes → Bytes
  | 0, _, acc => acc
  | fuel + 1, n, acc =>
    if n < 10 then (48 + n) :: acc else decimalAux fuel (n / 10) ((48 + n % 10) :: acc)

/-- The natural number `n` written in base 10, without sign or leading zeros. -/
def decimal (n : Nat) : Bytes := decimalAux (n + 1) n []

/-- The string `L` repeated `n` times. -/
def repeated (L : Bytes) (n : Nat) : Bytes := (List.replicate n L).flatten

/-- The specification's `FixedRepeat(atom L, n)`: it succeeds iff `L` repeated `n` times is a
prefix of the input, and then covers exactly that. -/
def specFixedRepeat (L : Bytes) (n : Nat) (input : Bytes) : RegResult :=
  if repeated L n <+: input then result true [] (repeated L n) else failure

/-- The number of successful applications of `atom L` that a greedy repetition of at most
`attempts` attempts makes on `input`, stopping at the first failed attempt. -/
def greedyCount (L : Bytes) : Nat → Bytes → Nat
  | 0, _ => 0
  | attempts + 1, input =>
    if L <+: input then greedyCount L attempts (input.drop L.length) + 1 else 0

/-- The specification's `BoundedRepeat(atom L, min, max)`, `max` being `none` when unbounded:
`atom L` is applied greedily up to `max` times (up to the length of the input when
unbounded), stopping at the first failed attempt; it succeeds iff the number of successful
applications is at least `min`, and covers them. -/
def specBoundedRepeat (L : Bytes) (min : Nat) (max : Option Nat) (input : Bytes) : RegResult :=
  let k := greedyCount L (max.getD input.length) input
  if min ≤ k then result true [] (repeated L k) else failure

/-- The matcher consumes at least one byte whenever it succeeds on a non-empty input. -/
def Progresses (child : consumer) : Prop :=
  ∀ s r, s ≠ [] → child s = Run.ok r → r.Success = true → r.Coverage ≠ []

/-- The evaluation of the matcher ends on every input, with an outcome or with a panic. -/
def Terminates (c : consumer) : Prop := ∀ s, c s ≠ Run.diverge

/-- The coverage of every outcome of the matcher, successful or not, is no longer than the
input. -/
def Within (c : consumer) : Prop := ∀ s r, c s = Run.ok r → r.Coverage.length ≤ s.length

/-- The coverage of every successful outcome of the matcher is a prefix of the input. -/
def CoversPrefix (c : consumer) : Prop :=
  ∀ s r, c s = Run.ok r → r.Success = true → r.Coverage <+: s

/-- An outcome whose coverage, when it is a successful one, is a prefix of `input`. -/
def PrefixOutcome (input : Bytes) (x : Run RegResult) : Prop :=
  ∀ r, x = Run.ok r → r.Success = true → r.Coverage <+: input

/-- The tokens of a set content after its negation marker, formed from left to right as the
specification says: a backslash pairs with the next character into a two-character escape
token; any other character followed by `-` and one further character forms a three-character
range token; any other character is a one-character token; what is left in the buffer at the
end of the input (one character, or a character and `-`) is a token as it is. -/
def specSetBody : Bytes → List Bytes
  | [] => []
  | [a] => [[a]]
  | [a, b] => if a = 92 ∨ b = 45 then [[a, b]] else [[a], [b]]
  | a :: b :: c :: rest =>
    if a = 92 then [a, b] :: specSetBody (c :: rest)
    else if b = 45 then [a, b, c] :: specSetBody rest
    else [a] :: specSetBody (b :: c :: rest)

/-- The tokens of a set content as the specification says: a leading `^` is its own first
token, the rest is tokenized by `specSetBody`. -/
def specSetTokens (s : Bytes) : List Bytes :=
  if s.head? = some 94 then [94] :: specSetBody s.tail else specSetBody s

/-- A matcher built from the node constructors of the engine; `childOk` is a condition that
the child of every `star` and of every `plus` has to meet. -/
inductive Built (childOk : consumer → Prop) : consumer → Prop where
  | atom (matcher : Bytes) : Built childOk (atom matcher)
  | word : Built childOk word
  | digit : Built childOk digit
  | any : Built childOk any
  | backslash : Built childOk backslash
  | space : Built childOk space
  | tab : Built childOk tab
  | negate (c : consumer) : Built childOk c → Built childOk (negate c)
  | set (cs : List consumer) : (∀ c ∈ cs, Built childOk c) → Built childOk (set cs)
  | inRange (lower upper : Nat) : Built childOk (inRange lower upper)
  | option (c : consumer) : Built childOk c → Built childOk (option c)
  | repeat_ (c : consumer) (repetitions : Int) : Built childOk c →
      Built childOk (repeat_ c repetitions)
  | rangeRepeat (c : consumer) (minReps maxReps : Int) : Built childOk c →
      Built childOk (rangeRepeat c minReps maxReps)
  | star (c : consumer) : Built childOk c → childOk c → Built childOk (star c)
  | plus (c : consumer) : Built childOk c → childOk c → Built childOk (plus c)
  | concat (cs : List consumer) : (∀ c ∈ cs, Built childOk c) → Built childOk (concat cs)
  | union (cs : List consumer) : (∀ c ∈ cs, Built childOk c) → Built childOk (union cs)
  | capture (c : consumer) : Built childOk c → Built childOk (capture c)

/-- No condition on the children of `star` and `plus`. -/
def AnyChild : consumer → Prop := fun _ => True
/-! ## Evaluation lemmas for the run-time model -/

@[simp] theorem pure_eq_ok {α : Type} (a : α) : (pure a : Run α) = Run.ok a := rfl

@[simp] theorem ok_bind {α β : Type} (a : α) (f : α → Run β) : (Run.ok a >>= f) = f a := rfl

@[simp] theorem panic_bind {α β : Type} (f : α → Run β) : (Run.panic >>= f) = Run.panic := rfl

@[simp] theorem diverge_bind {α β : Type} (f : α → Run β) :
    (Run.diverge >>= f) = Run.diverge := rfl

theorem slice_of_le {α : Type} (s : List α) (lo hi : Nat) (h1 : lo ≤ hi) (h2 : hi ≤ s.length) :
    slice s lo hi = Run.ok ((s.take hi).drop lo) := by
  simp [slice, h1, h2]

theorem slice_to_end {α : Type} (s : List α) (lo : Nat) (h : lo ≤ s.length) :
    slice s lo s.length = Run.ok (s.drop lo) := by
  simp [slice, h]

theorem atom_eq (s input : Bytes) :
    atom s input = Run.ok (if s <+: input then result true [] s else failure) := by
  unfold atom
  by_cases hlen : input.length < s.length
  · have : ¬ s <+: input := fun h => by have := h.length_le; omega
    simp [hlen, this]
  · have hle : s.length ≤ input.length := by omega
    rw [if_neg hlen, slice_of_le _ _ _ (Nat.zero_le _) hle]
    simp only [ok_bind, List.drop_zero]
    by_cases hp : s <+: input
    · have := List.prefix_iff_eq_take.mp hp
      simp [hp, ← this]
    · have : ¬ List.take s.length input = s := fun h => hp (List.prefix_iff_eq_take.mpr h.symm)
      simp [hp, this]

/-! ## The public operations -/

/-- C1. `Match` returns the `Success` and the `Coverage` of the root matcher on the whole text
unchanged and prefixes its captures with the text itself, so that `Captures[0]` is the whole
subject text; `Matches` is the `Success` of `Match`, also when the root panics or does not
return. -/
theorem Match_prefixes_text (regex : Regex) (s : Bytes) :
    (∀ res, regex.exprTree s = Run.ok res →
      Match regex s = Run.ok
        { Success := res.Success, Captures := s :: res.Captures, Coverage := res.Coverage } ∧
      Matches regex s = Run.ok res.Success) ∧
    (∀ r, Match regex s = Run.ok r → r.Captures[0]? = some s) ∧
    Matches regex s = (Match regex s).bind (fun r => Run.ok r.Success) := by
  unfold Match Matches
  cases h : regex.exprTree s <;> simp [Run.bind]

/-- C1, at a concrete input: the matcher of `(a)` on the text `ab`. -/
theorem Match_prefixes_text_witness :
    Match { expression := str "(a)", exprTree := capture (atom (str "a")) } (str "ab") =
      Run.ok { Success := true, Captures := [str "ab", str "a"], Coverage := str "a" } ∧
    Matches { expression := str "(a)", exprTree := capture (atom (str "a")) } (str "ab") =
      Run.ok true :=
  (Match_prefixes_text { expression := str "(a)", exprTree := capture (atom (str "a")) }
    (str "ab")).1 (result true [str "a"] (str "a")) (by decide)

/-! ## The iteration bounds of the loops

The loops of `star`, `plus` and `MatchAll` are run for `len + 1` iterations.  More iterations
never change the outcome: an iteration that stays in the loop either moves the offset forward
or, on a success with empty coverage, repeats unchanged for ever. -/

theorem starLoop_stuck (child : consumer) (input : Bytes) (index : Nat) (r : RegResult)
    (hi : index < input.length) (hr : child (input.drop index) = Run.ok r)
    (hs : r.Success = true) (hc : r.Coverage = []) :
    ∀ (fuel : Nat) (coverage : Bytes),
      starLoop child input fuel index coverage = Run.diverge := by
  intro fuel
  induction fuel with
  | zero => intro _; rfl
  | succ fuel ih =>
    intro coverage
    simp [starLoop, hi, slice_to_end _ _ (Nat.le_of_lt hi), hr, hs, hc, ih]

theorem starLoop_fuel (child : consumer) (input : Bytes) (k : Nat) :
    ∀ (fuel index : Nat) (coverage : Bytes), input.length - index < fuel →
      starLoop child input (fuel + k) index coverage =
        starLoop child input fuel index coverage := by
  intro fuel
  induction fuel with
  | zero => intro index coverage h; omega
  | succ fuel ih =>
    intro index coverage h
    have e : fuel + 1 + k = (fuel + k) + 1 := by omega
    rw [e]
    by_cases hi : index < input.length
    · simp only [starLoop, hi, if_true, slice_to_end _ _ (Nat.le_of_lt hi), ok_bind]
      cases hr : child (input.drop index) with
      | ok r =>
        simp only [ok_bind]
        by_cases hs : r.Success = true
        · simp only [hs, if_true]
          by_cases hc : r.Coverage = []
          · have h1 := starLoop_stuck child input index r hi hr hs hc
            simp [hc, h1]
          · have : r.Coverage.length ≠ 0 := fun h0 => hc (List.length_eq_zero.mp h0)
            exact ih _ _ (by omega)
        · simp [hs]
      | panic => rfl
      | diverge => rfl
    · simp [starLoop, hi]

theorem plusLoop_stuck (child : consumer) (input : Bytes) (index : Nat) (r : RegResult)
    (hi : index < input.length) (hr : child (input.drop index) = Run.ok r)
    (hs : r.Success = true) (hc : r.Coverage = []) :
    ∀ (fuel instances : Nat) (coverage : Bytes) (captures : List Bytes),
      plusLoop child input fuel instances index coverage captures = Run.diverge := by
  intro fuel
  induction fuel with
  | zero => intro _ _ _; rfl
  | succ fuel ih =>
    intro instances coverage captures
    simp [plusLoop, hi, slice_to_end _ _ (Nat.le_of_lt hi), hr, hs, hc, ih]

theorem plusLoop_fuel (child : consumer) (input : Bytes) (k : Nat) :
    ∀ (fuel instances index : Nat) (coverage : Bytes) (captures : List Bytes),
      input.length - index < fuel →
      plusLoop child input (fuel + k) instances index coverage captures =
        plusLoop child input fuel instances index coverage captures := by
  intro fuel
  induction fuel with
  | zero => intro instances index coverage captures h; omega
  | succ fuel ih =>
    intro instances index coverage captures h
    have e : fuel + 1 + k = (fuel + k) + 1 := by omega
    rw [e]
    by_cases hi : index < input.length
    · simp only [plusLoop, hi, if_true, slice_to_end _ _ (Nat.le_of_lt hi), ok_bind]
      cases hr : child (input.drop index) with
      | ok r =>
        simp only [ok_bind]
        by_cases hs : r.Success = true
        · simp only [hs, if_true]
          by_cases hc : r.Coverage = []
          · have h1 := plusLoop_stuck child input index r hi hr hs hc
            simp [hc, h1]
          · have : r.Coverage.length ≠ 0 := fun h0 => hc (List.length_eq_zero.mp h0)
            exact ih _ _ _ _ (by omega)
        · simp [hs]
      | panic => rfl
      | diverge => rfl
    · simp [plusLoop, hi]

theorem MatchAllLoop_stuck (regex : Regex) (s : Bytes) (i : Nat) (r : RegResult)
    (hi : i < s.length) (hr : regex.exprTree (s.drop i) = Run.ok r)
    (hs : r.Success = true) (hc : r.Coverage = []) :
    ∀ (fuel : Nat) (found : List RegResult),
      MatchAllLoop regex s fuel i found = Run.diverge := by
  intro fuel
  induction fuel with
  | zero => intro _; rfl
  | succ fuel ih =>
    intro found
    simp [MatchAllLoop, hi, slice_to_end _ _ (Nat.le_of_lt hi), hr, hs, hc, ih]

theorem MatchAllLoop_fuel (regex : Regex) (s : Bytes) (k : Nat) :
    ∀ (fuel i : Nat) (found : List RegResult), s.length - i < fuel →
      MatchAllLoop regex s (fuel + k) i found = MatchAllLoop regex s fuel i found := by
  intro fuel
  induction fuel with
  | zero => intro i found h; omega
  | succ fuel ih =>
    intro i found h
    have e : fuel + 1 + k = (fuel + k) + 1 := by omega
    rw [e]
    by_cases hi : i < s.length
    · simp only [MatchAllLoop, hi, if_true, slice_to_end _ _ (Nat.le_of_lt hi), ok_bind]
      cases hr : regex.exprTree (s.drop i) with
      | ok r =>
        simp only [ok_bind]
        by_cases hs : r.Success = true
        · simp only [hs, if_true]
          by_cases hc : r.Coverage = []
          · have h1 := MatchAllLoop_stuck regex s i r hi hr hs hc
            simp [hc, h1]
          · have : r.Coverage.length ≠ 0 := fun h0 => hc (List.length_eq_zero.mp h0)
            exact ih _ _ (by omega)
        · simp only [hs, Bool.false_eq_true, if_false]
          exact ih _ _ (by omega)
      | panic => rfl
      | diverge => rfl
    · simp [MatchAllLoop, hi]

/-- The outcome of `star` does not depend on the iteration bound: every larger bound gives
the same outcome, so `diverge` is returned only when the loop never ends. -/
theorem star_fuel (child : consumer) (input : Bytes) (k : Nat) :
    starLoop child input (input.length + 1 + k) 0 [] = star child input :=
  starLoop_fuel child input k (input.length + 1) 0 [] (by omega)

/-- The outcome of the loop of `plus` does not depend on the iteration bound. -/
theorem plus_fuel (child : consumer) (input : Bytes) (k : Nat) :
    plusLoop child input (input.length + 1 + k) 0 0 [] [] =
      plusLoop child input (input.length + 1) 0 0 [] [] :=
  plusLoop_fuel child input k (input.length + 1) 0 0 [] [] (by omega)

/-- The outcome of `MatchAll` does not depend on the iteration bound. -/
theorem MatchAll_fuel (regex : Regex) (s : Bytes) (k : Nat) :
    MatchAllLoop regex s (s.length + 1 + k) 0 [] = MatchAll regex s :=
  MatchAllLoop_fuel regex s k (s.length + 1) 0 [] (by omega)

/-! ## The parser never exhausts its fuel -/

theorem index_of_lt {α : Type} (s : List α) (i : Nat) (h : i < s.length) :
    index s i = Run.ok (s.get ⟨i, h⟩) := by
  simp [index, List.getElem?_eq_getElem h]

theorem index_panic {α : Type} (s : List α) (i : Nat) (h : s.length ≤ i) :
    index s i = Run.panic := by
  simp [index, List.getElem?_eq_none h]

theorem index_ne_diverge {α : Type} (s : List α) (i : Nat) : index s i ≠ Run.diverge := by
  unfold index
  cases s[i]? <;> simp

theorem slice_ne_diverge {α : Type} (s : List α) (lo hi : Nat) :
    slice s lo hi ≠ Run.diverge := by
  unfold slice
  split <;> simp

theorem slice_length {α : Type} (s t : List α) (lo hi : Nat) (h : slice s lo hi = Run.ok t) :
    t.length = hi - lo ∧ lo ≤ hi ∧ hi ≤ s.length := by
  unfold slice at h
  split at h
  · rename_i hc
    cases h
    simp [List.length_take, Nat.min_eq_left hc.2, hc.1, hc.2]
  · cases h

theorem deparensLoop_spec (tokens : List Bytes) (opener closer : Bytes) :
    ∀ (i : Nat) (level : Int), i ≤ tokens.length →
      ∃ p, deparensLoop tokens opener closer i level = Run.ok p ∧
        p.length ≤ tokens.length ∧ (tokens ≠ [] → p ≠ []) := by
  intro i
  induction i with
  | zero => intro level _; exact ⟨tokens, rfl, Nat.le_refl _, id⟩
  | succ i ih =>
    intro level hi
    have hlt : i < tokens.length := hi
    have key : ∀ level1 : Int, ∃ p,
        (if level1 = 0 then slice tokens i tokens.length
          else deparensLoop tokens opener closer i level1) = Run.ok p ∧
        p.length ≤ tokens.length ∧ (tokens ≠ [] → p ≠ []) := by
      intro level1
      by_cases h0 : level1 = 0
      · rw [if_pos h0]
        refine ⟨tokens.drop i, slice_to_end _ _ (Nat.le_of_lt hlt), by simp, ?_⟩
        intro _ hnil
        have := congrArg List.length hnil
        simp at this
        omega
      · rw [if_neg h0]
        exact ih _ (Nat.le_of_lt hlt)
    simp only [deparensLoop, index_of_lt tokens i hlt, ok_bind]
    exact key _

theorem separens_spec (tokens : List Bytes) (opener closer : Bytes) :
    ∃ body tail, separens tokens opener closer = Run.ok (body, tail) ∧
      body.length + tail.length = tokens.length ∧ (tokens ≠ [] → tail ≠ []) := by
  obtain ⟨p, hp, hlen, hne⟩ := deparensLoop_spec tokens opener closer tokens.length 0
    (Nat.le_refl _)
  refine ⟨(tokens.take (tokens.length - p.length)).drop 0, p, ?_, ?_, hne⟩
  · simp only [separens, deparens, hp, ok_bind]
    rw [slice_of_le _ _ _ (Nat.zero_le _) (Nat.sub_le _ _)]
    rfl
  · simp [List.length_take]
    omega

theorem splitUnionLoop_agree (sc1 sc2 : List Bytes → Run consumer) (n : Nat)
    (hagree : ∀ buf, buf.length ≤ n → sc2 buf = sc1 buf) :
    ∀ (tokens tokBuffer : List Bytes) (consumers : List consumer) (level : Int),
      tokBuffer.length + tokens.length ≤ n →
      splitUnionLoop sc2 tokens tokBuffer consumers level =
        splitUnionLoop sc1 tokens tokBuffer consumers level := by
  intro tokens
  induction tokens with
  | nil => intro _ _ _ _; rfl
  | cons token rest ih =>
    intro tokBuffer consumers level h
    simp only [List.length_cons] at h
    have key : ∀ level1 : Int,
        (if level1 = 0 ∧ token = str "|" then do
            let c ← sc2 tokBuffer
            splitUnionLoop sc2 rest [] (consumers ++ [c]) level1
          else splitUnionLoop sc2 rest (tokBuffer ++ [token]) consumers level1) =
        (if level1 = 0 ∧ token = str "|" then do
            let c ← sc1 tokBuffer
            splitUnionLoop sc1 rest [] (consumers ++ [c]) level1
          else splitUnionLoop sc1 rest (tokBuffer ++ [token]) consumers level1) := by
      intro level1
      by_cases hc : level1 = 0 ∧ token = str "|"
      · rw [if_pos hc, if_pos hc, hagree tokBuffer (by omega)]
        cases sc1 tokBuffer with
        | ok c => exact ih _ _ _ (by simp; omega)
        | panic => rfl
        | diverge => rfl
      · rw [if_neg hc, if_neg hc]
        exact ih _ _ _ (by simp; omega)
    simp only [splitUnionLoop]
    exact key _

theorem splitUnionLoop_returns (sc : List Bytes → Run consumer) (n : Nat)
    (hret : ∀ buf, buf.length ≤ n → sc buf ≠ Run.diverge) :
    ∀ (tokens tokBuffer : List Bytes) (consumers : List consumer) (level : Int),
      tokBuffer.length + tokens.length ≤ n →
      splitUnionLoop sc tokens tokBuffer consumers level ≠ Run.diverge ∧
      ∀ buf cs, splitUnionLoop sc tokens tokBuffer consumers level = Run.ok (buf, cs) →
        buf.length ≤ tokBuffer.length + tokens.length := by
  intro tokens
  induction tokens with
  | nil =>
    intro tokBuffer consumers level _
    refine ⟨by simp [splitUnionLoop], ?_⟩
    intro buf cs h
    simp [splitUnionLoop] at h
    simp [← h.1]
  | cons token rest ih =>
    intro tokBuffer consumers level h
    simp only [List.length_cons] at h
    have key : ∀ level1 : Int,
        (if level1 = 0 ∧ token = str "|" then do
            let c ← sc tokBuffer
            splitUnionLoop sc rest [] (consumers ++ [c]) level1
          else splitUnionLoop sc rest (tokBuffer ++ [token]) consumers level1) ≠ Run.diverge ∧
        ∀ buf cs,
          (if level1 = 0 ∧ token = str "|" then do
              let c ← sc tokBuffer
              splitUnionLoop sc rest [] (consumers ++ [c]) level1
            else splitUnionLoop sc rest (tokBuffer ++ [token]) consumers level1) =
            Run.ok (buf, cs) →
          buf.length ≤ tokBuffer.length + (rest.length + 1) := by
      intro level1
      by_cases hc : level1 = 0 ∧ token = str "|"
      · rw [if_pos hc]
        have h1 := hret tokBuffer (by omega)
        cases hsc : sc tokBuffer with
        | ok c =>
          obtain ⟨h2, h3⟩ := ih [] (consumers ++ [c]) level1 (by simp; omega)
          refine ⟨h2, ?_⟩
          intro buf cs hb
          have := h3 buf cs hb
          simp at this
          omega
        | panic =>
          refine ⟨by simp, ?_⟩
          intro buf cs hb
          simp at hb
        | diverge => exact absurd hsc h1
      · rw [if_neg hc]
        obtain ⟨h2, h3⟩ := ih (tokBuffer ++ [token]) consumers level1 (by simp; omega)
        refine ⟨h2, ?_⟩
        intro buf cs hb
        have := h3 buf cs hb
        simp at this
        omega
    simp only [splitUnionLoop]
    exact key _

theorem ok_ne_diverge {α : Type} (a : α) : (Run.ok a : Run α) ≠ Run.diverge := by
  intro h; cases h

theorem pure_ne_diverge {α : Type} (a : α) : (pure a : Run α) ≠ Run.diverge := by
  intro h; cases h

theorem panic_ne_diverge {α : Type} : (Run.panic : Run α) ≠ Run.diverge := by
  intro h; cases h

theorem bind_ne_diverge {α β : Type} (x : Run α) (g : α → Run β)
    (hx : x ≠ Run.diverge) (hg : ∀ a, g a ≠ Run.diverge) : (x >>= g) ≠ Run.diverge := by
  cases x with
  | ok a => exact hg a
  | panic => exact panic_ne_diverge
  | diverge => exact absurd rfl hx

theorem ite_ne_diverge {α : Type} {c : Prop} [Decidable c] (a b : Run α)
    (ha : a ≠ Run.diverge) (hb : b ≠ Run.diverge) : (if c then a else b) ≠ Run.diverge := by
  split <;> assumption

theorem splitSingular_ne_diverge (regex : Bytes) : splitSingular regex ≠ Run.diverge := by
  unfold splitSingular
  repeat' (first
    | exact pure_ne_diverge _
    | exact index_ne_diverge _ _
    | refine ite_ne_diverge _ _ ?_ ?_
    | refine bind_ne_diverge _ _ ?_ ?_
    | intro _)

theorem splitSetLoop_ne_diverge :
    ∀ (regex : List Bytes) (cons : List consumer), splitSetLoop regex cons ≠ Run.diverge := by
  intro regex
  induction regex with
  | nil => intro cons; exact pure_ne_diverge _
  | cons token rest ih =>
    intro cons
    simp only [splitSetLoop]
    repeat' (first
      | exact pure_ne_diverge _
      | exact index_ne_diverge _ _
      | exact splitSingular_ne_diverge _
      | exact ih _
      | refine ite_ne_diverge _ _ ?_ ?_
      | refine bind_ne_diverge _ _ ?_ ?_
      | intro _)

theorem setTokenize_ne_diverge (s : Bytes) : setTokenize s ≠ Run.diverge := by
  unfold setTokenize
  refine bind_ne_diverge _ _ (index_ne_diverge _ _) ?_
  intro c0
  simp only []
  repeat' (first
    | exact pure_ne_diverge _
    | exact slice_ne_diverge _ _ _
    | refine ite_ne_diverge _ _ ?_ ?_
    | refine bind_ne_diverge _ _ ?_ ?_
    | intro _)

theorem strSplitLoop_ne_diverge (s : Bytes) (splitter : Nat) :
    ∀ (l : List (Nat × Nat)) (buffer : Bytes),
      strSplitLoop s splitter l buffer ≠ Run.diverge := by
  intro l
  induction l with
  | nil => intro buffer; exact pure_ne_diverge _
  | cons p rest ih =>
    intro buffer
    obtain ⟨i, r⟩ := p
    simp only [strSplitLoop]
    repeat' (first
      | exact pure_ne_diverge _
      | exact slice_ne_diverge _ _ _
      | exact ih _
      | refine ite_ne_diverge _ _ ?_ ?_
      | refine bind_ne_diverge _ _ ?_ ?_
      | intro _)

theorem strSplit_ne_diverge (s : Bytes) (splitter : Nat) :
    strSplit s splitter ≠ Run.diverge :=
  strSplitLoop_ne_diverge s splitter _ _

theorem bind_ok_elim {α β : Type} {x : Run α} {g : α → Run β} {b : β}
    (h : (x >>= g) = Run.ok b) : ∃ a, x = Run.ok a ∧ g a = Run.ok b := by
  cases x with
  | ok a => exact ⟨a, rfl, h⟩
  | panic => cases h
  | diverge => cases h

theorem splitConcatenationLoop_step (fuel : Nat)
    (ihR : ∀ regex : List Bytes, 1 ≤ fuel → 2 * regex.length ≤ fuel →
      (∀ k, splitRegex (fuel + k) regex = splitRegex fuel regex) ∧
      splitRegex fuel regex ≠ Run.diverge ∧
      ∀ body c, splitRegex fuel regex = Run.ok (body, c) → body.length < regex.length)
    (ihL : ∀ (str0 : List Bytes) (parts : List consumer), 2 * str0.length + 1 ≤ fuel →
      (∀ k, splitConcatenationLoop (fuel + k) str0 parts =
        splitConcatenationLoop fuel str0 parts) ∧
      splitConcatenationLoop fuel str0 parts ≠ Run.diverge)
    (str0 : List Bytes) (parts : List consumer) (h : 2 * str0.length + 1 ≤ fuel + 1) :
    (∀ k, splitConcatenationLoop (fuel + 1 + k) str0 parts =
      splitConcatenationLoop (fuel + 1) str0 parts) ∧
    splitConcatenationLoop (fuel + 1) str0 parts ≠ Run.diverge := by
  have e : ∀ k, fuel + 1 + k = (fuel + k) + 1 := fun k => by omega
  by_cases hpos : str0.length > 0
  · obtain ⟨hReq, hRne, hRlen⟩ := ihR str0 (by omega) (by omega)
    have hu : ∀ f, splitConcatenationLoop (f + 1) str0 parts =
        (do
          let (str1, cons) ← splitRegex f str0
          splitConcatenationLoop f str1 ([cons] ++ parts)) := by
      intro f
      rw [splitConcatenationLoop]
      simp only [hpos, if_true]
    cases hv : splitRegex fuel str0 with
    | ok x =>
      obtain ⟨str1, cons⟩ := x
      have hlen := hRlen str1 cons hv
      obtain ⟨hLeq, hLne⟩ := ihL str1 ([cons] ++ parts) (by omega)
      constructor
      · intro k
        rw [e k, hu, hu, hReq k, hv]
        exact hLeq k
      · rw [hu, hv]
        exact hLne
    | panic =>
      constructor
      · intro k
        rw [e k, hu, hu, hReq k, hv]
        rfl
      · rw [hu, hv]
        exact panic_ne_diverge
    | diverge => exact absurd hv hRne
  · have hu : ∀ f, splitConcatenationLoop (f + 1) str0 parts = pure parts := by
      intro f
      rw [splitConcatenationLoop]
      simp only [hpos, if_false]
    exact ⟨fun k => by rw [e k, hu, hu], by rw [hu]; exact pure_ne_diverge _⟩

theorem splitConcatenation_step (fuel : Nat)
    (ihL : ∀ (str0 : List Bytes) (parts : List consumer), 2 * str0.length + 1 ≤ fuel →
      (∀ k, splitConcatenationLoop (fuel + k) str0 parts =
        splitConcatenationLoop fuel str0 parts) ∧
      splitConcatenationLoop fuel str0 parts ≠ Run.diverge)
    (regex : List Bytes) (h : 2 * regex.length + 2 ≤ fuel + 1) :
    (∀ k, splitConcatenation (fuel + 1 + k) regex = splitConcatenation (fuel + 1) regex) ∧
    splitConcatenation (fuel + 1) regex ≠ Run.diverge := by
  have e : ∀ k, fuel + 1 + k = (fuel + k) + 1 := fun k => by omega
  by_cases h0 : regex.length = 0
  · have hu : ∀ f, splitConcatenation (f + 1) regex = pure (atom (str "")) := by
      intro f
      rw [splitConcatenation]
      simp only [h0, if_true]
    exact ⟨fun k => by rw [e k, hu, hu], by rw [hu]; exact pure_ne_diverge _⟩
  · obtain ⟨hLeq, hLne⟩ := ihL regex [] (by omega)
    have hu : ∀ f, splitConcatenation (f + 1) regex =
        (do
          let parts ← splitConcatenationLoop f regex []
          if parts.length = 1 then index parts 0 else pure (concat parts)) := by
      intro f
      rw [splitConcatenation]
      simp only [h0, if_false]
    constructor
    · intro k
      rw [e k, hu, hu, hLeq k]
    · rw [hu]
      refine bind_ne_diverge _ _ hLne ?_
      intro parts
      exact ite_ne_diverge _ _ (index_ne_diverge _ _) (pure_ne_diverge _)

theorem splitUnion_step (fuel : Nat)
    (ihC : ∀ regex : List Bytes, 2 * regex.length + 2 ≤ fuel →
      (∀ k, splitConcatenation (fuel + k) regex = splitConcatenation fuel regex) ∧
      splitConcatenation fuel regex ≠ Run.diverge)
    (regex : List Bytes) (h : 2 * regex.length ≤ fuel + 2) :
    (∀ k, splitUnion (fuel + 1 + k) regex = splitUnion (fuel + 1) regex) ∧
    splitUnion (fuel + 1) regex ≠ Run.diverge := by
  have e : ∀ k, fuel + 1 + k = (fuel + k) + 1 := fun k => by omega
  have hu : ∀ f, splitUnion (f + 1) regex =
      (do
        let inner ← slice regex 1 (regex.length - 1)
        let (tokBuffer, consumers) ← splitUnionLoop (splitConcatenation f) inner [] [] 0
        let c ← splitConcatenation f tokBuffer
        pure (consumers ++ [c])) := by
    intro f
    rw [splitUnion]
  cases hsl : slice regex 1 (regex.length - 1) with
  | ok inner =>
    obtain ⟨hl1, hl2, _⟩ := slice_length _ _ _ _ hsl
    have hsmall : ∀ buf : List Bytes, buf.length ≤ inner.length →
        2 * buf.length + 2 ≤ fuel := by
      intro buf hb
      omega
    have hagree : ∀ k, ∀ buf : List Bytes, buf.length ≤ inner.length →
        splitConcatenation (fuel + k) buf = splitConcatenation fuel buf :=
      fun k buf hb => (ihC buf (hsmall buf hb)).1 k
    have hret : ∀ buf : List Bytes, buf.length ≤ inner.length →
        splitConcatenation fuel buf ≠ Run.diverge :=
      fun buf hb => (ihC buf (hsmall buf hb)).2
    have hloop : ∀ k, splitUnionLoop (splitConcatenation (fuel + k)) inner [] [] 0 =
        splitUnionLoop (splitConcatenation fuel) inner [] [] 0 :=
      fun k => splitUnionLoop_agree _ _ inner.length (hagree k) inner [] [] 0 (by simp)
    obtain ⟨hLne, hLlen⟩ := splitUnionLoop_returns _ inner.length hret inner [] [] 0 (by simp)
    cases hv : splitUnionLoop (splitConcatenation fuel) inner [] [] 0 with
    | ok x =>
      obtain ⟨tokBuffer, consumers⟩ := x
      have hb := hLlen tokBuffer consumers hv
      simp only [List.length_nil, Nat.zero_add] at hb
      constructor
      · intro k
        rw [e k, hu, hu, hsl]
        simp only [ok_bind, hloop k, hv, hagree k tokBuffer hb]
      · rw [hu, hsl]
        simp only [ok_bind, hv]
        exact bind_ne_diverge _ _ (hret tokBuffer hb) (fun c => pure_ne_diverge _)
    | panic =>
      constructor
      · intro k
        rw [e k, hu, hu, hsl]
        simp only [ok_bind, panic_bind, hloop k, hv]
      · rw [hu, hsl]
        simp only [ok_bind, hv]
        exact panic_ne_diverge
    | diverge => exact absurd hv hLne
  | panic =>
    constructor
    · intro k
      rw [e k, hu, hu, hsl]
      rfl
    · rw [hu, hsl]
      exact panic_ne_diverge
  | diverge => exact absurd hsl (slice_ne_diverge _ _ _)

theorem splitRegex_flat_branch (fuel : Nat) (regex : List Bytes)
    (v : Run (List Bytes × consumer))
    (hu : ∀ f, splitRegex (f + 1) regex = v) (hv : v ≠ Run.diverge)
    (hlen : ∀ body c, v = Run.ok (body, c) → body.length < regex.length) :
    (∀ k, splitRegex (fuel + 1 + k) regex = splitRegex (fuel + 1) regex) ∧
    splitRegex (fuel + 1) regex ≠ Run.diverge ∧
    ∀ body c, splitRegex (fuel + 1) regex = Run.ok (body, c) → body.length < regex.length := by
  have e : ∀ k, fuel + 1 + k = (fuel + k) + 1 := fun k => by omega
  refine ⟨fun k => by rw [e k, hu, hu], by rw [hu]; exact hv, ?_⟩
  intro body c hb
  rw [hu] at hb
  exact hlen body c hb

theorem splitRegex_rec_branch (fuel : Nat) (regex arg : List Bytes)
    (g : List Bytes × consumer → Run (List Bytes × consumer))
    (hu : ∀ f, splitRegex (f + 1) regex = splitRegex f arg >>= g)
    (hg : ∀ a, g a ≠ Run.diverge)
    (hg1 : ∀ a body c, g a = Run.ok (body, c) → body = a.1)
    (hR : (∀ k, splitRegex (fuel + k) arg = splitRegex fuel arg) ∧
      splitRegex fuel arg ≠ Run.diverge ∧
      ∀ body c, splitRegex fuel arg = Run.ok (body, c) → body.length < arg.length)
    (harg : arg.length ≤ regex.length) :
    (∀ k, splitRegex (fuel + 1 + k) regex = splitRegex (fuel + 1) regex) ∧
    splitRegex (fuel + 1) regex ≠ Run.diverge ∧
    ∀ body c, splitRegex (fuel + 1) regex = Run.ok (body, c) → body.length < regex.length := by
  have e : ∀ k, fuel + 1 + k = (fuel + k) + 1 := fun k => by omega
  obtain ⟨hReq, hRne, hRlen⟩ := hR
  refine ⟨fun k => by rw [e k, hu, hu, hReq k], ?_, ?_⟩
  · rw [hu]
    exact bind_ne_diverge _ _ hRne hg
  · intro body c hb
    rw [hu] at hb
    cases hv : splitRegex fuel arg with
    | ok a =>
      rw [hv] at hb
      have h1 := hg1 a body c hb
      have h2 := hRlen a.1 a.2 hv
      rw [h1]
      omega
    | panic => rw [hv] at hb; cases hb
    | diverge => exact absurd hv hRne

theorem splitRegex_step (fuel : Nat)
    (ihR : ∀ regex : List Bytes, 1 ≤ fuel → 2 * regex.length ≤ fuel →
      (∀ k, splitRegex (fuel + k) regex = splitRegex fuel regex) ∧
      splitRegex fuel regex ≠ Run.diverge ∧
      ∀ body c, splitRegex fuel regex = Run.ok (body, c) → body.length < regex.length)
    (ihC : ∀ regex : List Bytes, 2 * regex.length + 2 ≤ fuel →
      (∀ k, splitConcatenation (fuel + k) regex = splitConcatenation fuel regex) ∧
      splitConcatenation fuel regex ≠ Run.diverge)
    (ihU : ∀ regex : List Bytes, 1 ≤ fuel → 2 * regex.length ≤ fuel + 1 →
      (∀ k, splitUnion (fuel + k) regex = splitUnion fuel regex) ∧
      splitUnion fuel regex ≠ Run.diverge)
    (regex : List Bytes) (h : 2 * regex.length ≤ fuel + 1) :
    (∀ k, splitRegex (fuel + 1 + k) regex = splitRegex (fuel + 1) regex) ∧
    splitRegex (fuel + 1) regex ≠ Run.diverge ∧
    ∀ body c, splitRegex (fuel + 1) regex = Run.ok (body, c) → body.length < regex.length := by
  have e : ∀ k, fuel + 1 + k = (fuel + k) + 1 := fun k => by omega
  by_cases hn0 : regex.length = 0
  · refine splitRegex_flat_branch fuel regex Run.panic ?_ panic_ne_diverge
      (by intro _ _ hb; cases hb)
    intro f
    rw [splitRegex, index_panic _ _ (by omega)]
    rfl
  have hlt : regex.length - 1 < regex.length := by omega
  have hidx := index_of_lt regex (regex.length - 1) hlt
  generalize regex.get ⟨regex.length - 1, hlt⟩ = lastToken at hidx
  by_cases hn1 : regex.length = 1
  · refine splitRegex_flat_branch fuel regex
      (do
        let t ← index regex 0
        let c ← splitSingular t
        pure ([], c)) ?_ ?_ ?_
    · intro f
      rw [splitRegex, hidx]
      simp only [ok_bind, hn1, if_true]
    · repeat' (first
        | exact pure_ne_diverge _
        | exact index_ne_diverge _ _
        | exact splitSingular_ne_diverge _
        | refine bind_ne_diverge _ _ ?_ ?_
        | intro _)
    · intro body c hb
      cases h1 : index regex 0 with
      | ok t =>
        cases h2 : splitSingular t with
        | ok c1 =>
          simp only [h1, h2, ok_bind, pure_eq_ok, Run.ok.injEq, Prod.mk.injEq] at hb
          rw [← hb.1]
          simp
          omega
        | panic => simp only [h1, h2, ok_bind, panic_bind] at hb; cases hb
        | diverge => simp only [h1, h2, ok_bind, diverge_bind] at hb; cases hb
      | panic => simp only [h1, panic_bind] at hb; cases hb
      | diverge => simp only [h1, diverge_bind] at hb; cases hb
  have hreg : regex ≠ [] := fun h0 => hn0 (by simp [h0])
  by_cases h1 : lastToken = str ")"
  · obtain ⟨body, tail, hsep, hlen, hne⟩ := separens_spec regex (str "(") (str ")")
    have htail : 1 ≤ tail.length := List.length_pos.mpr (hne hreg)
    by_cases hpc : parencontains tail (str "|") = true
    · have hu : ∀ f, splitRegex (f + 1) regex =
          (do
            let cs ← splitUnion f tail
            pure (body, union cs)) := by
        intro f
        rw [splitRegex, hidx]
        simp only [ok_bind, hn1, if_false, h1, if_true, hsep, hpc]
      obtain ⟨hUeq, hUne⟩ := ihU tail (by omega) (by omega)
      refine ⟨fun k => by rw [e k, hu, hu, hUeq k], ?_, ?_⟩
      · rw [hu]
        exact bind_ne_diverge _ _ hUne (fun _ => pure_ne_diverge _)
      · intro b c hb
        rw [hu] at hb
        obtain ⟨cs, _, hb⟩ := bind_ok_elim hb
        cases hb
        omega
    · have hu : ∀ f, splitRegex (f + 1) regex =
          (do
            let inner ← slice tail 1 (tail.length - 1)
            let c ← splitConcatenation f inner
            pure (body, capture c)) := by
        intro f
        rw [splitRegex, hidx]
        simp only [ok_bind, hn1, if_false, h1, if_true, hsep, hpc, Bool.false_eq_true]
      cases hsl : slice tail 1 (tail.length - 1) with
      | ok inner =>
        obtain ⟨hl1, hl2, _⟩ := slice_length _ _ _ _ hsl
        obtain ⟨hCeq, hCne⟩ := ihC inner (by omega)
        refine ⟨fun k => by rw [e k, hu, hu, hsl]; simp only [ok_bind, hCeq k], ?_, ?_⟩
        · rw [hu, hsl]
          simp only [ok_bind]
          exact bind_ne_diverge _ _ hCne (fun _ => pure_ne_diverge _)
        · intro b c hb
          rw [hu, hsl] at hb
          simp only [ok_bind] at hb
          obtain ⟨c1, _, hb⟩ := bind_ok_elim hb
          cases hb
          omega
      | panic =>
        refine splitRegex_flat_branch fuel regex Run.panic ?_ panic_ne_diverge
          (by intro _ _ hb; cases hb)
        intro f
        rw [hu, hsl]
        rfl
      | diverge => exact absurd hsl (slice_ne_diverge _ _ _)
  by_cases h2 : lastToken = str "\x7d"
  · obtain ⟨body, tail, hsep, hlen, hne⟩ := separens_spec regex (str "\x7b") (str "\x7d")
    have htail : 1 ≤ tail.length := List.length_pos.mpr (hne hreg)
    have hu : ∀ f, splitRegex (f + 1) regex =
        (do
          let (nbody, repeater) ← splitRegex f body
          let bound ← index tail 1
          if strcontains bound 44 then do
            let (lower, upper) ← strSplit bound 44
            let l := Atoi lower
            let u : Int := if upper = str "" then -1 else Atoi upper
            pure (nbody, rangeRepeat repeater l u)
          else pure (nbody, repeat_ repeater (Atoi bound))) := by
      intro f
      rw [splitRegex, hidx]
      simp only [ok_bind]
      rw [if_neg hn1, if_neg h1, if_pos h2, hsep]
      simp only [ok_bind]
    refine splitRegex_rec_branch fuel regex body _ hu ?_ ?_ (ihR body (by omega) (by omega))
      (by omega)
    · rintro ⟨nbody, repeater⟩
      repeat' (first
        | exact pure_ne_diverge _
        | exact index_ne_diverge _ _
        | exact strSplit_ne_diverge _ _
        | refine ite_ne_diverge _ _ ?_ ?_
        | refine bind_ne_diverge _ _ ?_ ?_
        | rintro ⟨_, _⟩)
    · rintro ⟨nbody, repeater⟩ b c hb
      obtain ⟨bound, _, hb⟩ := bind_ok_elim hb
      by_cases hsc : strcontains bound 44 = true
      · rw [if_pos hsc] at hb
        obtain ⟨⟨lower, upper⟩, _, hb⟩ := bind_ok_elim hb
        cases hb
        rfl
      · rw [if_neg hsc] at hb
        cases hb
        rfl
  by_cases h3 : lastToken = str "]"
  · obtain ⟨body, tail, hsep, hlen, hne⟩ := separens_spec regex (str "[") (str "]")
    have htail : 1 ≤ tail.length := List.length_pos.mpr (hne hreg)
    refine splitRegex_flat_branch fuel regex
      (do
        let inner ← slice (abbreviate tail) 1 ((abbreviate tail).length - 1)
        let setTokens ← setTokenize inner
        let first ← index setTokens 0
        if first = str "^" then do
          let cs ← splitSet setTokens
          pure (body, negate (set cs))
        else do
          let cs ← splitSet setTokens
          pure (body, set cs)) ?_ ?_ ?_
    · intro f
      rw [splitRegex, hidx]
      simp only [ok_bind]
      rw [if_neg hn1, if_neg h1, if_neg h2, if_pos h3, hsep]
      simp only [ok_bind]
    · repeat' (first
        | exact pure_ne_diverge _
        | exact index_ne_diverge _ _
        | exact slice_ne_diverge _ _ _
        | exact setTokenize_ne_diverge _
        | exact splitSetLoop_ne_diverge _ _
        | refine ite_ne_diverge _ _ ?_ ?_
        | refine bind_ne_diverge _ _ ?_ ?_
        | intro _)
    · intro b c hb
      obtain ⟨inner, _, hb⟩ := bind_ok_elim hb
      obtain ⟨setTokens, _, hb⟩ := bind_ok_elim hb
      obtain ⟨first, _, hb⟩ := bind_ok_elim hb
      by_cases hf : first = str "^"
      · rw [if_pos hf] at hb
        obtain ⟨cs, _, hb⟩ := bind_ok_elim hb
        cases hb
        omega
      · rw [if_neg hf] at hb
        obtain ⟨cs, _, hb⟩ := bind_ok_elim hb
        cases hb
        omega
  have hfront : slice regex 0 (regex.length - 1) =
      Run.ok ((regex.take (regex.length - 1)).drop 0) :=
    slice_of_le _ _ _ (Nat.zero_le _) (Nat.sub_le _ _)
  generalize hfd : (regex.take (regex.length - 1)).drop 0 = front at hfront
  have hflen : front.length = regex.length - 1 := by
    rw [← hfd]
    simp [List.length_take]
  by_cases h4 : lastToken = str "*"
  · have hu : ∀ f, splitRegex (f + 1) regex =
        (do
          let (body, tail) ← splitRegex f front
          pure (body, star tail)) := by
      intro f
      rw [splitRegex, hidx]
      simp only [ok_bind]
      rw [if_neg hn1, if_neg h1, if_neg h2, if_neg h3, if_pos h4, hfront]
      simp only [ok_bind]
    refine splitRegex_rec_branch fuel regex front _ hu ?_ ?_ (ihR front (by omega) (by omega))
      (by omega)
    · rintro ⟨body, tail⟩
      exact pure_ne_diverge _
    · rintro ⟨body, tail⟩ b c hb
      cases hb
      rfl
  by_cases h5 : lastToken = str "+"
  · have hu : ∀ f, splitRegex (f + 1) regex =
        (do
          let (body, tail) ← splitRegex f front
          pure (body, plus tail)) := by
      intro f
      rw [splitRegex, hidx]
      simp only [ok_bind]
      rw [if_neg hn1, if_neg h1, if_neg h2, if_neg h3, if_neg h4, if_pos h5, hfront]
      simp only [ok_bind]
    refine splitRegex_rec_branch fuel regex front _ hu ?_ ?_ (ihR front (by omega) (by omega))
      (by omega)
    · rintro ⟨body, tail⟩
      exact pure_ne_diverge _
    · rintro ⟨body, tail⟩ b c hb
      cases hb
      rfl
  by_cases h6 : lastToken = str "?"
  · have hu : ∀ f, splitRegex (f + 1) regex =
        (do
          let (body, tail) ← splitRegex f front
          pure (body, option tail)) := by
      intro f
      rw [splitRegex, hidx]
      simp only [ok_bind]
      rw [if_neg hn1, if_neg h1, if_neg h2, if_neg h3, if_neg h4, if_neg h5, if_pos h6, hfront]
      simp only [ok_bind]
    refine splitRegex_rec_branch fuel regex front _ hu ?_ ?_ (ihR front (by omega) (by omega))
      (by omega)
    · rintro ⟨body, tail⟩
      exact pure_ne_diverge _
    · rintro ⟨body, tail⟩ b c hb
      cases hb
      rfl
  refine splitRegex_flat_branch fuel regex
    (do
      let c ← splitSingular lastToken
      pure (front, c)) ?_ ?_ ?_
  · intro f
    rw [splitRegex, hidx]
    simp only [ok_bind]
    rw [if_neg hn1, if_neg h1, if_neg h2, if_neg h3, if_neg h4, if_neg h5, if_neg h6, hfront]
    simp only [ok_bind]
  · exact bind_ne_diverge _ _ (splitSingular_ne_diverge _) (fun _ => pure_ne_diverge _)
  · intro b c hb
    obtain ⟨c1, _, hb⟩ := bind_ok_elim hb
    cases hb
    omega

/-- The calls of the parser on a token sequence nest to a depth that its length bounds: with
that much fuel no function of the parser exhausts it, and more fuel gives the same outcome. -/
theorem parser_fuel : ∀ fuel : Nat,
    (∀ regex : List Bytes, 1 ≤ fuel → 2 * regex.length ≤ fuel →
      (∀ k, splitRegex (fuel + k) regex = splitRegex fuel regex) ∧
      splitRegex fuel regex ≠ Run.diverge ∧
      ∀ body c, splitRegex fuel regex = Run.ok (body, c) → body.length < regex.length) ∧
    (∀ (str0 : List Bytes) (parts : List consumer), 2 * str0.length + 1 ≤ fuel →
      (∀ k, splitConcatenationLoop (fuel + k) str0 parts =
        splitConcatenationLoop fuel str0 parts) ∧
      splitConcatenationLoop fuel str0 parts ≠ Run.diverge) ∧
    (∀ regex : List Bytes, 2 * regex.length + 2 ≤ fuel →
      (∀ k, splitConcatenation (fuel + k) regex = splitConcatenation fuel regex) ∧
      splitConcatenation fuel regex ≠ Run.diverge) ∧
    (∀ regex : List Bytes, 1 ≤ fuel → 2 * regex.length ≤ fuel + 1 →
      (∀ k, splitUnion (fuel + k) regex = splitUnion fuel regex) ∧
      splitUnion fuel regex ≠ Run.diverge) := by
  intro fuel
  induction fuel with
  | zero =>
    exact ⟨fun _ h => absurd h (by omega), fun _ _ h => absurd h (by omega),
      fun _ h => absurd h (by omega), fun _ h => absurd h (by omega)⟩
  | succ fuel ih =>
    obtain ⟨ihR, ihL, ihC, ihU⟩ := ih
    exact ⟨fun regex _ h => splitRegex_step fuel ihR ihC ihU regex h,
      fun str0 parts h => splitConcatenationLoop_step fuel ihR ihL str0 parts h,
      fun regex h => splitConcatenation_step fuel ihL regex h,
      fun regex _ h => splitUnion_step fuel ihC regex (by omega)⟩

/-- The fuel of `tparse` is never exhausted, and any larger amount gives the same tree. -/
theorem tparse_fuel (regex : List Bytes) :
    tparse regex ≠ Run.diverge ∧
    ∀ k, splitConcatenation (2 * regex.length + 2 + k) regex = tparse regex :=
  ⟨((parser_fuel (2 * regex.length + 2)).2.2.1 regex (Nat.le_refl _)).2,
    ((parser_fuel (2 * regex.length + 2)).2.2.1 regex (Nat.le_refl _)).1⟩

/-- Compilation always ends: `Parse` returns a `Regex` or panics. -/
theorem Parse_ne_diverge (regex : Bytes) : Parse regex ≠ Run.diverge := by
  unfold Parse cparse
  exact bind_ne_diverge _ _ (tparse_fuel _).1 (fun _ => pure_ne_diverge _)

/-! ## Capture and union -/

/-- C3. `capture(child)` fails when the child fails; when the child succeeds it succeeds with
the child's coverage unchanged and with the child's coverage placed before the child's own
captures.  So the pattern `(a)(b)` on `ab` captures `a`, `b`, the pattern `((a)b)` on `ab`
captures `ab`, `a`, and `capture(concat(atom a, option(capture(atom bc))))` on `abc` captures
`abc`, `bc`. -/
theorem capture_spec :
    (∀ (child : consumer) (input : Bytes) (res : RegResult), child input = Run.ok res →
      (res.Success = false → capture child input = Run.ok failure) ∧
      (res.Success = true → capture child input =
        Run.ok (result true (res.Coverage :: res.Captures) res.Coverage))) ∧
    rootOn (str "(a)(b)") (str "ab") = Run.ok (result true [str "a", str "b"] (str "ab")) ∧
    rootOn (str "((a)b)") (str "ab") = Run.ok (result true [str "ab", str "a"] (str "ab")) ∧
    capture (concat [atom (str "a"), option (capture (atom (str "bc")))]) (str "abc") =
      Run.ok (result true [str "abc", str "bc"] (str "abc")) := by
  refine ⟨?_, by decide, by decide, by decide⟩
  intro child input res h
  unfold capture
  constructor <;> intro hs <;> simp [h, hs]

/-- C3, at a concrete input: the child `atom a` succeeds on `ab`. -/
theorem capture_spec_witness :
    capture (atom (str "a")) (str "ab") = Run.ok (result true [str "a"] (str "a")) :=
  (capture_spec.1 (atom (str "a")) (str "ab") (result true [] (str "a")) (by decide)).2 rfl

theorem unionLoop_first (input : Bytes) (c : consumer) (post : List consumer) (r : RegResult)
    (hc : c input = Run.ok r) (hs : r.Success = true) :
    ∀ pre : List consumer, (∀ p ∈ pre, ∃ rp, p input = Run.ok rp ∧ rp.Success = false) →
      unionLoop (pre ++ c :: post) input =
        Run.ok (result true (r.Captures ++ [r.Coverage]) r.Coverage) := by
  intro pre
  induction pre with
  | nil => intro _; simp [unionLoop, hc, hs]
  | cons p pre ih =>
    intro h
    obtain ⟨rp, hp, hps⟩ := h p (List.mem_cons_self _ _)
    have := ih (fun q hq => h q (List.mem_cons_of_mem _ hq))
    simp [unionLoop, hp, hps, this]

theorem unionLoop_none (input : Bytes) :
    ∀ children : List consumer,
      (∀ p ∈ children, ∃ rp, p input = Run.ok rp ∧ rp.Success = false) →
      unionLoop children input = Run.ok failure := by
  intro children
  induction children with
  | nil => intro _; rfl
  | cons p rest ih =>
    intro h
    obtain ⟨rp, hp, hps⟩ := h p (List.mem_cons_self _ _)
    have := ih (fun q hq => h q (List.mem_cons_of_mem _ hq))
    simp [unionLoop, hp, hps, this]

theorem unionLoop_success (input : Bytes) :
    ∀ (children : List consumer) (r : RegResult),
      unionLoop children input = Run.ok r → r.Success = true →
      ∃ pre c post rc, children = pre ++ c :: post ∧
        (∀ p ∈ pre, ∃ rp, p input = Run.ok rp ∧ rp.Success = false) ∧
        c input = Run.ok rc ∧ rc.Success = true := by
  intro children
  induction children with
  | nil =>
    intro r h hs
    simp [unionLoop, failure, result] at h
    rw [← h] at hs
    simp at hs
  | cons p rest ih =>
    intro r h hs
    cases hp : p input with
    | ok rp =>
      by_cases hps : rp.Success = true
      · exact ⟨[], p, rest, rp, rfl, by simp, hp, hps⟩
      · simp [unionLoop, hp, hps] at h
        obtain ⟨pre, c, post, rc, he, hpre, hc, hcs⟩ := ih r h hs
        refine ⟨p :: pre, c, post, rc, by simp [he], ?_, hc, hcs⟩
        intro q hq
        rcases List.mem_cons.mp hq with rfl | hq
        · exact ⟨rp, hp, by simpa using hps⟩
        · exact hpre q hq
    | panic => simp [unionLoop, hp] at h
    | diverge => simp [unionLoop, hp] at h

theorem unionLoop_some (input : Bytes) :
    ∀ l : List consumer, (∀ p ∈ l, ∃ rp, p input = Run.ok rp) →
      (∃ c ∈ l, ∃ rc, c input = Run.ok rc ∧ rc.Success = true) →
      ∃ r, unionLoop l input = Run.ok r ∧ r.Success = true := by
  intro l
  induction l with
  | nil => intro _ h; simp at h
  | cons p rest ih =>
    intro hr hex
    obtain ⟨rp, hp⟩ := hr p (List.mem_cons_self _ _)
    by_cases hps : rp.Success = true
    · exact ⟨result true (rp.Captures ++ [rp.Coverage]) rp.Coverage,
        by simp [unionLoop, hp, hps], rfl⟩
    · obtain ⟨c, hmem, rc, hc, hcs⟩ := hex
      have hrest : ∃ c ∈ rest, ∃ rc, c input = Run.ok rc ∧ rc.Success = true := by
        rcases List.mem_cons.mp hmem with rfl | hmem
        · rw [hp] at hc
          cases hc
          exact absurd hcs hps
        · exact ⟨c, hmem, rc, hc, hcs⟩
      obtain ⟨r, h, hs⟩ := ih (fun q hq => hr q (List.mem_cons_of_mem _ hq)) hrest
      exact ⟨r, by simp [unionLoop, hp, hps, h], hs⟩

/-- C4. When the children before `c` all fail on the input and `c` succeeds, `union` returns
the coverage of `c` and the captures of `c` followed by that coverage, whatever the later
children would do; when all children fail, `union` fails.  A success of `union` is always the
success of one of its children, and when every child returns an outcome on the input, `union`
succeeds exactly when some child does.  So `union(atom gaben, atom heidi)` on `gabenheidi`
covers `gaben`, and `Match` of `[Gg]ab(e|riel)` on `Gabriel` has `riel` as `Captures[1]`.
A child that panics before the first success makes `union` panic: the pattern `(\t|a*)`
compiles to `union(tab, star(atom a))`, whose second child succeeds on the empty input, and
its evaluation on the empty input panics in `tab`, which reads `input[0]`. -/
theorem union_first_success :
    (∀ (pre : List consumer) (c : consumer) (post : List consumer) (input : Bytes)
        (r : RegResult),
      (∀ p ∈ pre, ∃ rp, p input = Run.ok rp ∧ rp.Success = false) →
      c input = Run.ok r → r.Success = true →
      union (pre ++ c :: post) input =
        Run.ok (result true (r.Captures ++ [r.Coverage]) r.Coverage)) ∧
    (∀ (children : List consumer) (input : Bytes),
      (∀ p ∈ children, ∃ rp, p input = Run.ok rp ∧ rp.Success = false) →
      union children input = Run.ok failure) ∧
    (∀ (children : List consumer) (input : Bytes) (r : RegResult),
      union children input = Run.ok r → r.Success = true →
      ∃ c ∈ children, ∃ rc, c input = Run.ok rc ∧ rc.Success = true) ∧
    (∀ (children : List consumer) (input : Bytes),
      (∀ p ∈ children, ∃ rp, p input = Run.ok rp) →
      ((∃ r, union children input = Run.ok r ∧ r.Success = true) ↔
        ∃ c ∈ children, ∃ rc, c input = Run.ok rc ∧ rc.Success = true)) ∧
    union [atom (str "gaben"), atom (str "heidi")] (str "gabenheidi") =
      Run.ok (result true [str "gaben"] (str "gaben")) ∧
    (Parse (str "[Gg]ab(e|riel)")).bind (fun regex => Match regex (str "Gabriel")) =
      Run.ok (result true [str "Gabriel", str "riel"] (str "Gabriel")) ∧
    cparse (str "(\\t|a*)") = Run.ok (union [tab, star (atom (str "a"))]) ∧
    star (atom (str "a")) (str "") = Run.ok (result true [] []) ∧
    tab (str "") = Run.panic ∧
    rootOn (str "(\\t|a*)") (str "") = Run.panic := by
  have hsucc : ∀ (children : List consumer) (input : Bytes) (r : RegResult),
      union children input = Run.ok r → r.Success = true →
      ∃ c ∈ children, ∃ rc, c input = Run.ok rc ∧ rc.Success = true := by
    intro children input r h hs
    obtain ⟨pre, c, post, rc, he, _, hc, hcs⟩ := unionLoop_success input children r h hs
    exact ⟨c, by simp [he], rc, hc, hcs⟩
  refine ⟨?_, ?_, hsucc, ?_, by decide, by decide, rfl, by decide, by decide, by decide⟩
  · intro pre c post input r hpre hc hs
    exact unionLoop_first input c post r hc hs pre hpre
  · intro children input h
    exact unionLoop_none input children h
  · intro children input hret
    constructor
    · rintro ⟨r, h, hs⟩
      exact hsucc children input r h hs
    · intro hex
      exact unionLoop_some input children hret hex

/-- C4, at a concrete input: the first alternative fails and the second succeeds. -/
theorem union_first_success_witness :
    union ([atom (str "e")] ++ atom (str "riel") :: [atom (str "r")]) (str "riel") =
      Run.ok (result true [str "riel"] (str "riel")) :=
  union_first_success.1 [atom (str "e")] (atom (str "riel")) [atom (str "r")] (str "riel")
    (result true [] (str "riel"))
    (by intro p hp; rw [List.mem_singleton.mp hp]; exact ⟨failure, by decide, rfl⟩)
    (by decide) rfl

/-! ## Atoms and the character classes -/

/-- C9. `atom(s)` succeeds exactly when `s` is a prefix of the input, that is when the input is
at least as long as `s` and its first `len(s)` bytes are `s`; the coverage is then `s` and
there are no captures.  `atom("")` succeeds on every input and consumes nothing; `atom("asdf")`
fails on `asd` and on the empty input and succeeds on `asdfa`. -/
theorem atom_spec :
    (∀ s input : Bytes,
      atom s input = Run.ok (if s <+: input then result true [] s else failure)) ∧
    (∀ s input : Bytes,
      s <+: input ↔ (s.length ≤ input.length ∧ input.take s.length = s)) ∧
    (∀ input : Bytes, atom (str "") input = Run.ok (result true [] [])) ∧
    atom (str "asdf") (str "asd") = Run.ok failure ∧
    atom (str "asdf") (str "") = Run.ok failure ∧
    atom (str "asdf") (str "asdfa") = Run.ok (result true [] (str "asdf")) := by
  refine ⟨atom_eq, ?_, ?_, by decide, by decide, by decide⟩
  · intro s input
    constructor
    · intro h
      exact ⟨h.length_le, (List.prefix_iff_eq_take.mp h).symm⟩
    · intro h
      exact List.prefix_iff_eq_take.mpr h.2.symm
  · intro input
    rw [atom_eq]
    simp [str, result]

/-- C10. On the empty input `digit`, `word`, `space`, `backslash` and `any` return the failed
outcome, while `tab` reads `input[0]` with no test of the length and panics; the panic is
reached through `Parse` and `Match` with the pattern `\t` and the empty text. -/
theorem class_matchers_on_empty :
    digit [] = Run.ok failure ∧ word [] = Run.ok failure ∧ space [] = Run.ok failure ∧
    backslash [] = Run.ok failure ∧ any [] = Run.ok failure ∧
    tab [] = Run.panic ∧
    (Parse (str "\\t")).bind (fun regex => Match regex (str "")) = Run.panic := by
  decide

/-! ## Concatenation -/

@[simp] theorem coverages_nil : coverages [] = [] := rfl

@[simp] theorem coverages_cons (r : RegResult) (rs : List RegResult) :
    coverages (r :: rs) = r.Coverage ++ coverages rs := rfl

@[simp] theorem capturesOf_nil : capturesOf [] = [] := rfl

@[simp] theorem capturesOf_cons (r : RegResult) (rs : List RegResult) :
    capturesOf (r :: rs) = r.Captures ++ capturesOf rs := rfl

@[simp] theorem endOffset_nil : endOffset [] = 0 := rfl

@[simp] theorem endOffset_cons (r : RegResult) (rs : List RegResult) :
    endOffset (r :: rs) = r.Coverage.length + endOffset rs := rfl

theorem length_coverages (rs : List RegResult) : (coverages rs).length = endOffset rs := by
  induction rs with
  | nil => rfl
  | cons r rs ih => simp [ih]

theorem concatLoop_inTurn :
    ∀ (children : List consumer) (rest : Bytes) (rs : List RegResult)
      (coverage : Bytes) (captures : List Bytes),
      InTurn children rest rs →
      concatLoop children rest coverage captures =
        Run.ok (result true (captures ++ capturesOf rs) (coverage ++ coverages rs)) := by
  intro children
  induction children with
  | nil =>
    intro rest rs coverage captures h
    cases rs with
    | nil => simp [concatLoop]
    | cons r rs => simp [InTurn] at h
  | cons c cs ih =>
    intro rest rs coverage captures h
    cases rs with
    | nil => simp [InTurn] at h
    | cons r rs =>
      obtain ⟨hc, hs, hlen, hrest⟩ := h
      simp [concatLoop, hc, hs, slice_to_end _ _ hlen, ih _ _ _ _ hrest]

theorem concatLoop_fail (c : consumer) (post : List consumer) (r : RegResult)
    (hs : r.Success = false) :
    ∀ (pre : List consumer) (rest : Bytes) (rs : List RegResult)
      (coverage : Bytes) (captures : List Bytes),
      InTurn pre rest rs → c (rest.drop (endOffset rs)) = Run.ok r →
      r.Coverage.length ≤ rest.length - endOffset rs →
      concatLoop (pre ++ c :: post) rest coverage captures = Run.ok failure := by
  intro pre
  induction pre with
  | nil =>
    intro rest rs coverage captures h hc hlen
    cases rs with
    | nil =>
      simp at hc hlen
      simp [concatLoop, hc, hs, slice_to_end _ _ hlen]
    | cons r rs => simp [InTurn] at h
  | cons p pre ih =>
    intro rest rs coverage captures h hc hlen
    cases rs with
    | nil => simp [InTurn] at h
    | cons q rs =>
      obtain ⟨hp, hps, hplen, hrest⟩ := h
      have hc2 : c (List.drop (endOffset rs) (List.drop q.Coverage.length rest)) = Run.ok r := by
        rw [List.drop_drop]
        simpa [Nat.add_comm] using hc
      have hlen2 : r.Coverage.length ≤ (List.drop q.Coverage.length rest).length - endOffset rs := by
        simp at hlen ⊢
        omega
      simp [concatLoop, hp, hps, slice_to_end _ _ hplen, ih _ _ _ _ hrest hc2 hlen2]

theorem concatLoop_success :
    ∀ (children : List consumer) (rest : Bytes) (coverage : Bytes) (captures : List Bytes)
      (r : RegResult),
      concatLoop children rest coverage captures = Run.ok r → r.Success = true →
      ∃ rs, InTurn children rest rs := by
  intro children
  induction children with
  | nil => intro _ _ _ _ _ _; exact ⟨[], trivial⟩
  | cons c cs ih =>
    intro rest coverage captures r h hs
    cases hc : c rest with
    | ok rc =>
      by_cases hlen : rc.Coverage.length ≤ rest.length
      · by_cases hcs : rc.Success = true
        · simp [concatLoop, hc, hcs, slice_to_end _ _ hlen] at h
          obtain ⟨rs, hrs⟩ := ih _ _ _ _ h hs
          exact ⟨rc :: rs, hc, hcs, hlen, hrs⟩
        · simp [concatLoop, hc, hcs, slice_to_end _ _ hlen] at h
          rw [← h] at hs
          simp [failure, result] at hs
      · have : slice rest rc.Coverage.length rest.length = Run.panic := by
          simp [slice]; omega
        simp [concatLoop, hc, this] at h
    | panic => simp [concatLoop, hc] at h
    | diverge => simp [concatLoop, hc] at h

theorem concat_atoms (s1 s2 input : Bytes) :
    concat [atom s1, atom s2] input = atom (s1 ++ s2) input := by
  simp only [concat, concatLoop, atom_eq, List.length_cons, List.length_nil]
  by_cases h1 : s1 <+: input
  · obtain ⟨t, rfl⟩ := h1
    have hiff : (s1 ++ s2 <+: s1 ++ t) ↔ s2 <+: t := List.prefix_append_right_inj s1
    have hp : s1 <+: s1 ++ t := List.prefix_append s1 t
    have hs1 : slice (s1 ++ t) s1.length (s1 ++ t).length = Run.ok t := by
      rw [slice_to_end _ _ (by simp)]; simp
    by_cases h2 : s2 <+: t
    · have hs2 : slice t s2.length t.length = Run.ok (t.drop s2.length) :=
        slice_to_end _ _ h2.length_le
      simp only [if_pos hp, if_pos h2, if_pos (hiff.mpr h2), result, ok_bind, pure_eq_ok, hs1,
        hs2]
      simp
    · have hs2 : slice t 0 t.length = Run.ok t := by
        rw [slice_to_end _ _ (Nat.zero_le _)]; simp
      simp only [if_pos hp, if_neg h2, if_neg (fun h => h2 (hiff.mp h)), result, failure,
        ok_bind, pure_eq_ok, hs1, List.length_nil, hs2]
      simp
  · have hn : ¬ (s1 ++ s2 <+: input) := fun h => h1 ((List.prefix_append s1 s2).trans h)
    have hs0 : slice input 0 input.length = Run.ok input := by
      rw [slice_to_end _ _ (Nat.zero_le _)]; simp
    simp only [if_neg h1, if_neg hn, result, failure, ok_bind, pure_eq_ok, List.length_nil, hs0]
    simp

/-- C8. `concat` of no children fails on every input.  When the children succeed in turn, each
on the input that remains after the coverages of the ones before it, `concat` succeeds with the
in-order concatenation of their coverages and of their captures, and it succeeds in no other
case; it fails at the first child that fails.  `concat(atom s1, atom s2)` has on every input the
outcome of `atom(s1 ++ s2)`, so it succeeds exactly when `s1` followed by `s2` is a prefix of
the input. -/
theorem concat_spec :
    (∀ input : Bytes, concat [] input = Run.ok failure) ∧
    (∀ (children : List consumer) (input : Bytes) (rs : List RegResult),
      children ≠ [] → InTurn children input rs →
      concat children input = Run.ok (result true (capturesOf rs) (coverages rs))) ∧
    (∀ (children : List consumer) (input : Bytes),
      (∃ r, concat children input = Run.ok r ∧ r.Success = true) ↔
        (children ≠ [] ∧ ∃ rs, InTurn children input rs)) ∧
    (∀ (pre : List consumer) (c : consumer) (post : List consumer) (input : Bytes)
        (rs : List RegResult) (r : RegResult),
      InTurn pre input rs → c (input.drop (endOffset rs)) = Run.ok r → r.Success = false →
      r.Coverage.length ≤ input.length - endOffset rs →
      concat (pre ++ c :: post) input = Run.ok failure) ∧
    (∀ s1 s2 input : Bytes, concat [atom s1, atom s2] input = atom (s1 ++ s2) input) ∧
    (∀ s1 s2 input : Bytes,
      (∃ r, concat [atom s1, atom s2] input = Run.ok r ∧ r.Success = true) ↔
        s1 ++ s2 <+: input) := by
  refine ⟨fun _ => rfl, ?_, ?_, ?_, concat_atoms, ?_⟩
  · intro children input rs hne h
    have hlen : ¬ children.length = 0 := by
      intro h0; exact hne (List.length_eq_zero.mp h0)
    simp [concat, hlen, concatLoop_inTurn children input rs [] [] h]
  · intro children input
    constructor
    · rintro ⟨r, h, hs⟩
      by_cases hlen : children.length = 0
      · simp [concat, hlen] at h
        rw [← h] at hs
        simp [failure, result] at hs
      · simp only [concat, hlen, if_false] at h
        refine ⟨fun h0 => hlen (by simp [h0]), concatLoop_success _ _ _ _ _ h hs⟩
    · rintro ⟨hne, rs, h⟩
      have hlen : ¬ children.length = 0 := by
        intro h0; exact hne (List.length_eq_zero.mp h0)
      exact ⟨_, by simp only [concat, hlen, if_false]; exact concatLoop_inTurn _ _ _ [] [] h, rfl⟩
  · intro pre c post input rs r h hc hs hlen
    have : ¬ (pre ++ c :: post).length = 0 := by simp
    simp only [concat, this, if_false]
    exact concatLoop_fail c post r hs pre input rs [] [] h hc hlen
  · intro s1 s2 input
    rw [concat_atoms, atom_eq]
    by_cases h : s1 ++ s2 <+: input
    · simp [h, result]
    · simp [h, failure, result]

/-- C8, at a concrete input: two atoms that succeed in turn on `asdfjkl`. -/
theorem concat_spec_witness :
    concat [atom (str "asdf"), atom (str "jkl")] (str "asdfjkl") =
      Run.ok (result true [] (str "asdfjkl")) :=
  concat_spec.2.1 [atom (str "asdf"), atom (str "jkl")] (str "asdfjkl")
    [result true [] (str "asdf"), result true [] (str "jkl")] (by simp)
    ⟨by decide, rfl, by decide, by decide, rfl, by decide, trivial⟩

/-! ## A matcher that panics: `tab` after an atom -/

theorem atom_tab_eq (s : Bytes) :
    concat [atom (str "a"), tab] s =
      match s with
      | [] => Run.ok failure
      | [b] => if b = 97 then Run.panic else Run.ok failure
      | b :: c :: _ =>
        if b = 97 ∧ c = 9 then Run.ok (result true [] [97, 9]) else Run.ok failure := by
  have ha : str "a" = [97] := by decide
  rw [ha]
  match s with
  | [] => rfl
  | [b] =>
    by_cases hb : b = 97
    · subst hb
      rfl
    · simp [concat, concatLoop, atom, slice, hb, failure, result]
  | b :: c :: rest =>
    by_cases hb : b = 97
    · subst hb
      by_cases hc : c = 9
      · subst hc
        simp [concat, concatLoop, atom, tab, slice, index, result]
      · simp [concat, concatLoop, atom, tab, slice, index, result, hc, failure]
    · simp [concat, concatLoop, atom, slice, hb, failure, result]

theorem atom_tab_success (s : Bytes) (r : RegResult)
    (h : concat [atom (str "a"), tab] s = Run.ok r) (hs : r.Success = true) :
    r = result true [] [97, 9] := by
  rw [atom_tab_eq] at h
  match s, h with
  | [], h =>
    cases h
    simp [failure, result] at hs
  | [b], h =>
    simp only at h
    split_ifs at h
    cases h
    simp [failure, result] at hs
  | b :: c :: rest, h =>
    simp only at h
    split_ifs at h
    · cases h
      rfl
    · cases h
      simp [failure, result] at hs

theorem atom_tab_progresses : Progresses (concat [atom (str "a"), tab]) := by
  intro s r _ h hs
  rw [atom_tab_success s r h hs]
  simp [result]

theorem capture_atom_tab_progresses :
    Progresses (capture (concat [atom (str "a"), tab])) := by
  intro s r _ h hs
  unfold capture at h
  obtain ⟨res, h1, h2⟩ := bind_ok_elim h
  by_cases hsucc : res.Success = true
  · simp only [hsucc, Bool.not_true, Bool.false_eq_true, if_false] at h2
    cases h2
    rw [atom_tab_success s res h1 hsucc]
    simp [result]
  · simp only [hsucc, Bool.not_false, if_true] at h2
    cases h2
    simp [failure, result] at hs

theorem atom_tab_within : Within (concat [atom (str "a"), tab]) := by
  intro s r h
  rw [atom_tab_eq] at h
  match s, h with
  | [], h =>
    cases h
    simp [failure, result]
  | [b], h =>
    simp only at h
    split_ifs at h
    cases h
    simp [failure, result]
  | b :: c :: rest, h =>
    simp only at h
    split_ifs at h
    · cases h
      simp [result]
    · cases h
      simp [failure, result]

theorem capture_atom_tab_within :
    Within (capture (concat [atom (str "a"), tab])) := by
  intro s r h
  unfold capture at h
  obtain ⟨res, h1, h2⟩ := bind_ok_elim h
  by_cases hsucc : res.Success = true
  · simp only [hsucc, Bool.not_true, Bool.false_eq_true, if_false] at h2
    cases h2
    exact atom_tab_within s res h1
  · simp only [hsucc, Bool.not_false, if_true] at h2
    cases h2
    simp [failure, result]

/-! ## Star and plus -/

theorem greedyRun_exists (child : consumer) (input : Bytes)
    (hret : ∀ s, s ≠ [] → ∃ r, child s = Run.ok r)
    (hprog : ∀ s r, s ≠ [] → child s = Run.ok r → r.Success = true → r.Coverage ≠ []) :
    ∀ (n off : Nat), input.length - off ≤ n → ∃ rs, GreedyRun child input off rs := by
  intro n
  induction n with
  | zero =>
    intro off h
    exact ⟨[], Or.inl (by omega)⟩
  | succ n ih =>
    intro off h
    by_cases hoff : input.length ≤ off
    · exact ⟨[], Or.inl hoff⟩
    · have hne : input.drop off ≠ [] := by
        intro h0
        have := congrArg List.length h0
        simp at this
        omega
      obtain ⟨r, hr⟩ := hret _ hne
      by_cases hs : r.Success = true
      · have hc : r.Coverage.length ≠ 0 := fun h0 =>
          hprog _ r hne hr hs (List.length_eq_zero.mp h0)
        obtain ⟨rs, hrs⟩ := ih (off + r.Coverage.length) (by omega)
        exact ⟨r :: rs, by omega, hr, hs, hrs⟩
      · exact ⟨[], Or.inr ⟨r, hr, by simpa using hs⟩⟩

theorem greedyRun_length (child : consumer) (input : Bytes)
    (hprog : ∀ s r, s ≠ [] → child s = Run.ok r → r.Success = true → r.Coverage ≠ []) :
    ∀ (rs : List RegResult) (off : Nat), GreedyRun child input off rs →
      rs.length ≤ input.length - off := by
  intro rs
  induction rs with
  | nil => intro off _; simp
  | cons r rs ih =>
    intro off h
    obtain ⟨hoff, hr, hs, hrest⟩ := h
    have hne : input.drop off ≠ [] := by
      intro h0
      have := congrArg List.length h0
      simp at this
      omega
    have hc : r.Coverage.length ≠ 0 := fun h0 =>
      hprog _ r hne hr hs (List.length_eq_zero.mp h0)
    have := ih _ hrest
    simp only [List.length_cons]
    omega

theorem starLoop_greedy (child : consumer) (input : Bytes) :
    ∀ (rs : List RegResult) (fuel off : Nat) (coverage : Bytes),
      GreedyRun child input off rs → rs.length < fuel →
      starLoop child input fuel off coverage =
        Run.ok (result true [] (coverage ++ coverages rs)) := by
  intro rs
  induction rs with
  | nil =>
    intro fuel off coverage h hf
    obtain ⟨f, rfl⟩ : ∃ f, fuel = f + 1 := ⟨fuel - 1, by simp at hf; omega⟩
    by_cases hoff : off < input.length
    · rcases h with h | ⟨r, hr, hs⟩
      · omega
      · simp [starLoop, hoff, slice_to_end _ _ (Nat.le_of_lt hoff), hr, hs]
    · simp [starLoop, hoff]
  | cons r rs ih =>
    intro fuel off coverage h hf
    obtain ⟨f, rfl⟩ : ∃ f, fuel = f + 1 := ⟨fuel - 1, by simp at hf; omega⟩
    obtain ⟨hoff, hr, hs, hrest⟩ := h
    have hf2 : rs.length < f := by simp at hf; omega
    simp [starLoop, hoff, slice_to_end _ _ (Nat.le_of_lt hoff), hr, hs, ih _ _ _ hrest hf2]

theorem plusLoop_greedy (child : consumer) (input : Bytes) :
    ∀ (rs : List RegResult) (fuel instances off : Nat) (coverage : Bytes)
      (captures : List Bytes),
      GreedyRun child input off rs → rs.length < fuel →
      plusLoop child input fuel instances off coverage captures =
        Run.ok (instances + rs.length, coverage ++ coverages rs, captures ++ capturesOf rs) := by
  intro rs
  induction rs with
  | nil =>
    intro fuel instances off coverage captures h hf
    obtain ⟨f, rfl⟩ : ∃ f, fuel = f + 1 := ⟨fuel - 1, by simp at hf; omega⟩
    by_cases hoff : off < input.length
    · rcases h with h | ⟨r, hr, hs⟩
      · omega
      · simp [plusLoop, hoff, slice_to_end _ _ (Nat.le_of_lt hoff), hr, hs]
    · simp [plusLoop, hoff]
  | cons r rs ih =>
    intro fuel instances off coverage captures h hf
    obtain ⟨f, rfl⟩ : ∃ f, fuel = f + 1 := ⟨fuel - 1, by simp at hf; omega⟩
    obtain ⟨hoff, hr, hs, hrest⟩ := h
    have hf2 : rs.length < f := by simp at hf; omega
    simp [plusLoop, hoff, slice_to_end _ _ (Nat.le_of_lt hoff), hr, hs,
      ih _ _ _ _ _ hrest hf2]
    omega

theorem star_of_greedyRun (child : consumer) (input : Bytes) (rs : List RegResult)
    (hprog : ∀ s r, s ≠ [] → child s = Run.ok r → r.Success = true → r.Coverage ≠ [])
    (h : GreedyRun child input 0 rs) :
    star child input = Run.ok (result true [] (coverages rs)) := by
  have hlen := greedyRun_length child input hprog rs 0 h
  have := starLoop_greedy child input rs (input.length + 1) 0 [] h (by omega)
  simpa [star] using this

theorem plus_of_greedyRun (child : consumer) (input : Bytes) (rs : List RegResult)
    (hprog : ∀ s r, s ≠ [] → child s = Run.ok r → r.Success = true → r.Coverage ≠ [])
    (h : GreedyRun child input 0 rs) :
    plus child input =
      Run.ok (if rs = [] then failure else result true (capturesOf rs) (coverages rs)) := by
  have hlen := greedyRun_length child input hprog rs 0 h
  have := plusLoop_greedy child input rs (input.length + 1) 0 0 [] [] h (by omega)
  cases rs with
  | nil => simp [plus, this]
  | cons r rs => simp [plus, this]

/-- C5. For a child that consumes at least one byte whenever it succeeds on a non-empty
input: whenever `rs` is the maximal run of consecutive successful applications of the child,
each where the previous one ended, stopped by the first failure or by the end of the input,
`star(child)` succeeds with the concatenation of the coverages of the run and with no
captures, whatever captures the applications produced; and such a run exists when the child
returns an outcome on every non-empty input.  `star` succeeds on the empty input for every
child; `star(atom a)` on `aaa` covers `aaa`, `concat(atom asdf, star(atom jkl))` on
`asdfjkljklyayaya` covers `asdfjkljkl`, and the captures of `star(capture(atom a))` on `aa`
are empty.  A child that panics makes `star` panic instead of succeeding: the pattern
`(a\t)*` compiles to `star` of the group `a\t`, a child that consumes two bytes whenever it
succeeds, and its evaluation on `a` panics in `tab`, which reads `input[0]` of the empty rest
of the input. -/
theorem star_greedy :
    (∀ (child : consumer) (input : Bytes),
      (∀ s r, s ≠ [] → child s = Run.ok r → r.Success = true → r.Coverage ≠ []) →
      ∀ rs, GreedyRun child input 0 rs →
        star child input = Run.ok (result true [] (coverages rs))) ∧
    (∀ (child : consumer) (input : Bytes),
      (∀ s r, s ≠ [] → child s = Run.ok r → r.Success = true → r.Coverage ≠ []) →
      (∀ s, s ≠ [] → ∃ r, child s = Run.ok r) →
      ∃ rs, GreedyRun child input 0 rs) ∧
    (∀ child : consumer, star child [] = Run.ok (result true [] [])) ∧
    star (atom (str "a")) (str "aaa") = Run.ok (result true [] (str "aaa")) ∧
    concat [atom (str "asdf"), star (atom (str "jkl"))] (str "asdfjkljklyayaya") =
      Run.ok (result true [] (str "asdfjkljkl")) ∧
    star (capture (atom (str "a"))) (str "aa") = Run.ok (result true [] (str "aa")) ∧
    cparse (str "(a\\t)*") = Run.ok (star (capture (concat [atom (str "a"), tab]))) ∧
    Progresses (capture (concat [atom (str "a"), tab])) ∧
    star (capture (concat [atom (str "a"), tab])) (str "a") = Run.panic ∧
    rootOn (str "(a\\t)*") (str "a") = Run.panic := by
  refine ⟨?_, ?_, fun _ => rfl, by decide, by decide, by decide, rfl,
    capture_atom_tab_progresses, by decide, by decide⟩
  · intro child input hprog rs h
    exact star_of_greedyRun child input rs hprog h
  · intro child input hprog hret
    exact greedyRun_exists child input hret hprog _ 0 (Nat.le_refl _)

theorem atom_progress (m : Bytes) (hm : m ≠ []) :
    ∀ (s : Bytes) (r : RegResult), s ≠ [] → atom m s = Run.ok r → r.Success = true →
      r.Coverage ≠ [] := by
  intro s r _ h hs
  rw [atom_eq] at h
  by_cases hp : m <+: s
  · simp [hp] at h
    rw [← h]
    simpa [result] using hm
  · simp [hp] at h
    rw [← h] at hs
    simp [failure, result] at hs

/-- C5, at a concrete input: the child `atom ab` on `ababa`, whose greedy run has two
applications. -/
theorem star_greedy_witness :
    star (atom (str "ab")) (str "ababa") = Run.ok (result true [] (str "abab")) :=
  star_greedy.1 (atom (str "ab")) (str "ababa") (atom_progress _ (by decide))
    [result true [] (str "ab"), result true [] (str "ab")]
    ⟨by decide, by decide, rfl, by decide, by decide, rfl, Or.inr ⟨failure, by decide, rfl⟩⟩

theorem plus_success_first (child : consumer) (input : Bytes) (r : RegResult)
    (h : plus child input = Run.ok r) (hs : r.Success = true) :
    input ≠ [] ∧ ∃ rc, child input = Run.ok rc ∧ rc.Success = true := by
  by_cases hin : input = []
  · subst hin
    simp [plus, plusLoop] at h
    rw [← h] at hs
    simp [failure, result] at hs
  · refine ⟨hin, ?_⟩
    have hpos : 0 < input.length := List.length_pos.mpr hin
    have hsl : slice input 0 input.length = Run.ok input := by
      rw [slice_to_end _ _ (Nat.zero_le _)]; simp
    cases hc : child input with
    | ok rc =>
      by_cases hcs : rc.Success = true
      · exact ⟨rc, rfl, hcs⟩
      · simp [plus, plusLoop, hpos, hsl, hc, hcs] at h
        rw [← h] at hs
        simp [failure, result] at hs
    | panic => simp [plus, plusLoop, hpos, hsl, hc] at h
    | diverge => simp [plus, plusLoop, hpos, hsl, hc] at h

/-- C6. For a child that consumes at least one byte whenever it succeeds on a non-empty
input: with `rs` the maximal run of consecutive successful applications that gives `star` its
coverage, `plus(child)` fails when the run is empty and otherwise succeeds with the same
coverage and with the captures of all applications of the run, in order; such a run exists
when the child returns an outcome on every non-empty input, and then `plus` succeeds exactly
when the input is not empty and the child succeeds on it at offset 0 (a success of `plus`
always implies both).  `plus` fails on the empty input for every child; `plus(atom asdf)`
covers `asdf` on `asdf`, `concat(atom asdf, plus(atom jkl))` fails on `asdf` and covers
`asdfjkljkl` on `asdfjkljklyayaya`, and `plus(capture(atom a))` on `aa` captures `a`, `a`.
A child that panics makes `plus` panic: the pattern `(a\t)+` compiles to `plus` of the group
`a\t`, a child that consumes two bytes whenever it succeeds and that succeeds on `a\ta` at
offset 0, and its evaluation on `a\ta` panics in `tab`, which reads `input[0]` of the empty
rest of the input, instead of succeeding with the coverage `a\t`. -/
theorem plus_greedy :
    (∀ (child : consumer) (input : Bytes),
      (∀ s r, s ≠ [] → child s = Run.ok r → r.Success = true → r.Coverage ≠ []) →
      ∀ rs, GreedyRun child input 0 rs →
        star child input = Run.ok (result true [] (coverages rs)) ∧
        plus child input =
          Run.ok (if rs = [] then failure else result true (capturesOf rs) (coverages rs))) ∧
    (∀ (child : consumer) (input : Bytes),
      (∀ s r, s ≠ [] → child s = Run.ok r → r.Success = true → r.Coverage ≠ []) →
      (∀ s, s ≠ [] → ∃ r, child s = Run.ok r) →
      (∃ rs, GreedyRun child input 0 rs) ∧
      ((∃ r, plus child input = Run.ok r ∧ r.Success = true) ↔
        (input ≠ [] ∧ ∃ rc, child input = Run.ok rc ∧ rc.Success = true))) ∧
    (∀ (child : consumer) (input : Bytes) (r : RegResult),
      plus child input = Run.ok r → r.Success = true →
      input ≠ [] ∧ ∃ rc, child input = Run.ok rc ∧ rc.Success = true) ∧
    (∀ child : consumer, plus child [] = Run.ok failure) ∧
    plus (atom (str "asdf")) (str "asdf") = Run.ok (result true [] (str "asdf")) ∧
    concat [atom (str "asdf"), plus (atom (str "jkl"))] (str "asdf") = Run.ok failure ∧
    concat [atom (str "asdf"), plus (atom (str "jkl"))] (str "asdfjkljklyayaya") =
      Run.ok (result true [] (str "asdfjkljkl")) ∧
    plus (capture (atom (str "a"))) (str "aa") =
      Run.ok (result true [str "a", str "a"] (str "aa")) ∧
    cparse (str "(a\\t)+") = Run.ok (plus (capture (concat [atom (str "a"), tab]))) ∧
    Progresses (capture (concat [atom (str "a"), tab])) ∧
    capture (concat [atom (str "a"), tab]) (str "a\ta") =
      Run.ok (result true [str "a\t"] (str "a\t")) ∧
    plus (capture (concat [atom (str "a"), tab])) (str "a\ta") = Run.panic ∧
    rootOn (str "(a\\t)+") (str "a\ta") = Run.panic := by
  refine ⟨?_, ?_, plus_success_first, fun _ => rfl, by decide, by decide, by decide,
    by decide, rfl, capture_atom_tab_progresses, by decide, by decide, by decide⟩
  · intro child input hprog rs h
    exact ⟨star_of_greedyRun child input rs hprog h, plus_of_greedyRun child input rs hprog h⟩
  · intro child input hprog hret
    obtain ⟨rs, hrs⟩ := greedyRun_exists child input hret hprog _ 0 (Nat.le_refl _)
    refine ⟨⟨rs, hrs⟩, ?_, ?_⟩
    · rintro ⟨r, h, hs⟩
      exact plus_success_first child input r h hs
    · rintro ⟨hin, rc, hc, hcs⟩
      have hp := plus_of_greedyRun child input rs hprog hrs
      cases rs with
      | nil =>
        rcases hrs with hlen | ⟨rf, hf, hfs⟩
        · exact absurd (List.length_eq_zero.mp (Nat.le_zero.mp hlen)) hin
        · simp only [List.drop_zero] at hf
          rw [hc] at hf
          cases hf
          simp [hcs] at hfs
      | cons r rs => exact ⟨_, hp, by simp [result]⟩

theorem capture_atom_progress (m : Bytes) (hm : m ≠ []) :
    ∀ (s : Bytes) (r : RegResult), s ≠ [] → capture (atom m) s = Run.ok r →
      r.Success = true → r.Coverage ≠ [] := by
  intro s r _ h hs
  unfold capture at h
  rw [atom_eq] at h
  by_cases hp : m <+: s
  · simp [hp, result] at h
    rw [← h]
    simpa using hm
  · simp [hp, failure, result] at h
    rw [← h] at hs
    simp at hs

/-- C6, at a concrete input: the child `capture(atom a)` on `aab`, whose greedy run has two
applications. -/
theorem plus_greedy_witness :
    plus (capture (atom (str "a"))) (str "aab") =
      Run.ok (result true [str "a", str "a"] (str "aa")) :=
  (plus_greedy.1 (capture (atom (str "a"))) (str "aab")
    (capture_atom_progress _ (by decide))
    [result true [str "a"] (str "a"), result true [str "a"] (str "a")]
    ⟨by decide, by decide, rfl, by decide, by decide, rfl,
      Or.inr ⟨failure, by decide, rfl⟩⟩).2

/-! ## Bounded repetition -/

theorem rangeRepeatLoop_run (child : consumer) (input : Bytes)
    (hret : ∀ s, ∃ r, child s = Run.ok r)
    (hcov : ∀ s r, child s = Run.ok r → r.Success = true → r.Coverage.length ≤ s.length) :
    ∀ (reps : Nat) (coverage : Bytes) (captures : List Bytes) (done : Nat),
      coverage.length ≤ input.length →
      ∃ rs, Applications child input coverage.length rs ∧ rs.length ≤ reps ∧
        (rs.length = reps ∨ FailsAt child input (coverage.length + endOffset rs)) ∧
        coverage.length + endOffset rs ≤ input.length ∧
        rangeRepeatLoop child input reps coverage captures done =
          Run.ok (coverage ++ coverages rs, captures ++ capturesOf rs, done + rs.length) := by
  intro reps
  induction reps with
  | zero =>
    intro coverage captures done hlen
    exact ⟨[], trivial, Nat.le_refl _, Or.inl rfl, by simpa using hlen, by simp [rangeRepeatLoop]⟩
  | succ reps ih =>
    intro coverage captures done hlen
    obtain ⟨r, hr⟩ := hret (input.drop coverage.length)
    by_cases hs : r.Success = true
    · have hc := hcov _ r hr hs
      simp only [List.length_drop] at hc
      have hlen2 : (coverage ++ r.Coverage).length ≤ input.length := by
        simp only [List.length_append]; omega
      obtain ⟨rs, happ, hle, hstop, hend, hloop⟩ :=
        ih (coverage ++ r.Coverage) (captures ++ r.Captures) (done + 1) hlen2
      simp only [List.length_append] at happ hstop hend
      refine ⟨r :: rs, ⟨hr, hs, happ⟩, by simp only [List.length_cons]; omega, ?_, ?_, ?_⟩
      · rcases hstop with h | h
        · exact Or.inl (by simp only [List.length_cons]; omega)
        · exact Or.inr (by simpa [Nat.add_assoc] using h)
      · simp only [endOffset_cons]; omega
      · simp [rangeRepeatLoop, slice_to_end _ _ hlen, hr, hs, hloop]
        omega
    · refine ⟨[], trivial, Nat.zero_le _, Or.inr ⟨r, by simpa using hr, by simpa using hs⟩,
        by simpa using hlen, ?_⟩
      simp [rangeRepeatLoop, slice_to_end _ _ hlen, hr, hs]

theorem rangeRepeatLoop_of_run (child : consumer) (input : Bytes)
    (hcov : ∀ s r, child s = Run.ok r → r.Success = true → r.Coverage.length ≤ s.length) :
    ∀ (rs : List RegResult) (reps : Nat) (coverage : Bytes) (captures : List Bytes)
      (done : Nat),
      coverage.length ≤ input.length → Applications child input coverage.length rs →
      rs.length ≤ reps →
      (rs.length = reps ∨ FailsAt child input (coverage.length + endOffset rs)) →
      rangeRepeatLoop child input reps coverage captures done =
        Run.ok (coverage ++ coverages rs, captures ++ capturesOf rs, done + rs.length) := by
  intro rs
  induction rs with
  | nil =>
    intro reps coverage captures done hlen _ _ hstop
    cases reps with
    | zero => simp [rangeRepeatLoop]
    | succ reps =>
      rcases hstop with h | ⟨r, hr, hs⟩
      · simp at h
      · simp only [endOffset_nil, Nat.add_zero] at hr
        simp [rangeRepeatLoop, slice_to_end _ _ hlen, hr, hs]
  | cons r rs ih =>
    intro reps coverage captures done hlen happ hle hstop
    obtain ⟨hr, hs, hrest⟩ := happ
    cases reps with
    | zero => simp at hle
    | succ reps =>
      have hc := hcov _ r hr hs
      simp only [List.length_drop] at hc
      have hlen2 : (coverage ++ r.Coverage).length ≤ input.length := by
        simp only [List.length_append]; omega
      have := ih reps (coverage ++ r.Coverage) (captures ++ r.Captures) (done + 1) hlen2
        (by simpa using hrest) (by simp at hle; omega)
        (by
          rcases hstop with h | h
          · exact Or.inl (by simp at h; omega)
          · exact Or.inr (by simpa [Nat.add_assoc] using h))
      simp [rangeRepeatLoop, slice_to_end _ _ hlen, hr, hs, this]
      omega

theorem rangeRepeatLoop_letters (n : Nat) :
    ∀ (reps j : Nat), j ≤ n →
      rangeRepeatLoop (atom [97]) (List.replicate n 97) reps (List.replicate j 97) [] j =
        Run.ok (List.replicate (min n (j + reps)) 97, [], min n (j + reps)) := by
  intro reps
  induction reps with
  | zero =>
    intro j hj
    simp [rangeRepeatLoop, Nat.min_eq_right hj]
  | succ reps ih =>
    intro j hj
    have hsl : slice (List.replicate n 97) (List.replicate j 97).length
        (List.replicate n 97).length = Run.ok (List.replicate (n - j) 97) := by
      rw [slice_to_end _ _ (by simpa using hj)]
      simp
    by_cases hlt : j < n
    · have hp : [97] <+: List.replicate (n - j) 97 := by
        obtain ⟨k, hk⟩ : ∃ k, n - j = k + 1 := ⟨n - j - 1, by omega⟩
        rw [hk, List.replicate_succ]
        exact ⟨List.replicate k 97, rfl⟩
      have hcat : List.replicate j 97 ++ [97] = List.replicate (j + 1) 97 := by
        rw [List.replicate_succ']
      have := ih (j + 1) (by omega)
      simp only [rangeRepeatLoop, hsl, ok_bind, atom_eq, if_pos hp]
      simp only [result, Bool.not_true, Bool.false_eq_true, if_false, hcat, List.append_nil, this]
      have e : j + 1 + reps = j + (reps + 1) := by omega
      rw [e]
    · have hjn : j = n := by omega
      subst hjn
      have hp : ¬ [97] <+: List.replicate (j - j) 97 := by
        simp
      simp only [rangeRepeatLoop, hsl, ok_bind, atom_eq, if_neg hp]
      simp [failure, result]

theorem rangeRepeat_letters (n lo hi : Nat) (h : lo ≤ hi) :
    rangeRepeat (atom [97]) lo hi (List.replicate n 97) =
      Run.ok (if lo ≤ n then result true [] (List.replicate (min n hi) 97) else failure) := by
  have hloop := rangeRepeatLoop_letters n hi 0 (Nat.zero_le _)
  simp only [List.replicate_zero, Nat.zero_add] at hloop
  have hne : ¬ ((hi : Int) = -1) := by omega
  simp only [rangeRepeat, hne, if_false, Int.toNat_ofNat, hloop, ok_bind, false_or]
  by_cases hle : lo ≤ n
  · have : ((min n hi : Nat) : Int) ≥ (lo : Int) ∧ ((min n hi : Nat) : Int) ≤ (hi : Int) := by
      omega
    rw [if_pos this, if_pos hle]
    rfl
  · have : ¬ (((min n hi : Nat) : Int) ≥ (lo : Int) ∧ ((min n hi : Nat) : Int) ≤ (hi : Int)) := by
      omega
    rw [if_neg this, if_neg hle]
    rfl

/-- C7. For a child whose coverage is no longer than its input when it succeeds, and for
bounds `0 <= minReps`, `0 <= maxReps`: `rangeRepeat` applies the child where the previous
application ended, at most `maxReps` times, and stops at the first failure.  Whenever `rs`
are the results of those consecutive successful applications (there are `maxReps` of them, or
fewer and the child fails after the last), `rangeRepeat` succeeds exactly when there are at
least `minReps` of them, and then its coverage and captures are the in-order concatenation
over them; such applications exist when the child returns an outcome on every input.  For the
child `atom a`, bounds `lo <= hi` and an input of `n` letters `a` it succeeds exactly when
`lo <= n` and covers `min(n, hi)` letters; `rangeRepeat(atom a, 2, 4)` covers `aaaa` on
`aaaaa` and fails on `a` and on `aba`.  A child that panics makes `rangeRepeat` panic: the
pattern `(a\t){0,3}` compiles to `rangeRepeat` of the group `a\t` with the bounds 0 and 3, and
its evaluation on `a` panics in `tab`, which reads `input[0]` of the empty rest of the input,
instead of succeeding with no application. -/
theorem rangeRepeat_greedy :
    (∀ (child : consumer) (minReps maxReps : Int) (input : Bytes) (rs : List RegResult),
      0 ≤ minReps → 0 ≤ maxReps →
      (∀ s r, child s = Run.ok r → r.Success = true → r.Coverage.length ≤ s.length) →
      Applications child input 0 rs → (rs.length : Int) ≤ maxReps →
      ((rs.length : Int) = maxReps ∨ FailsAt child input (endOffset rs)) →
      rangeRepeat child minReps maxReps input =
        Run.ok (if minReps ≤ (rs.length : Int)
          then result true (capturesOf rs) (coverages rs) else failure)) ∧
    (∀ (child : consumer) (maxReps : Int) (input : Bytes), 0 ≤ maxReps →
      (∀ s r, child s = Run.ok r → r.Success = true → r.Coverage.length ≤ s.length) →
      (∀ s, ∃ r, child s = Run.ok r) →
      ∃ rs, Applications child input 0 rs ∧ (rs.length : Int) ≤ maxReps ∧
        ((rs.length : Int) = maxReps ∨ FailsAt child input (endOffset rs))) ∧
    (∀ n lo hi : Nat, lo ≤ hi →
      rangeRepeat (atom (str "a")) lo hi (List.replicate n 97) =
        Run.ok (if lo ≤ n then result true [] (List.replicate (min n hi) 97) else failure)) ∧
    rangeRepeat (atom (str "a")) 2 4 (str "aaaaa") = Run.ok (result true [] (str "aaaa")) ∧
    rangeRepeat (atom (str "a")) 2 4 (str "a") = Run.ok failure ∧
    rangeRepeat (atom (str "a")) 2 4 (str "aba") = Run.ok failure ∧
    cparse (str "(a\\t)\x7b0,3\x7d") =
      Run.ok (rangeRepeat (capture (concat [atom (str "a"), tab])) 0 3) ∧
    Within (capture (concat [atom (str "a"), tab])) ∧
    rangeRepeat (capture (concat [atom (str "a"), tab])) 0 3 (str "a") = Run.panic ∧
    rootOn (str "(a\\t)\x7b0,3\x7d") (str "a") = Run.panic := by
  refine ⟨?_, ?_, fun n lo hi h => rangeRepeat_letters n lo hi h, by decide, by decide,
    by decide, rfl, capture_atom_tab_within, by decide, by decide⟩
  · intro child minReps maxReps input rs hmin hmax hcov happ hle hstop
    have hloop := rangeRepeatLoop_of_run child input hcov rs maxReps.toNat [] [] 0
      (Nat.zero_le _) happ (by omega)
      (by
        rcases hstop with h | h
        · exact Or.inl (by omega)
        · exact Or.inr (by simpa using h))
    simp only [List.nil_append, Nat.zero_add] at hloop
    have hne : ¬ (maxReps = -1) := by omega
    simp only [rangeRepeat, hne, if_false, hloop, ok_bind, false_or]
    by_cases hm : minReps ≤ (rs.length : Int)
    · simp [hm, hle]
    · simp [hm]
  · intro child maxReps input hmax hcov hret
    obtain ⟨rs, happ, hle, hstop, _, _⟩ :=
      rangeRepeatLoop_run child input hret hcov maxReps.toNat [] [] 0 (Nat.zero_le _)
    simp only [List.length_nil, Nat.zero_add] at happ hstop
    refine ⟨rs, happ, by omega, ?_⟩
    rcases hstop with h | h
    · exact Or.inl (by omega)
    · exact Or.inr h

theorem atom_coverage_le (m : Bytes) :
    ∀ (s : Bytes) (r : RegResult), atom m s = Run.ok r → r.Success = true →
      r.Coverage.length ≤ s.length := by
  intro s r h hs
  rw [atom_eq] at h
  by_cases hp : m <+: s
  · simp [hp] at h
    rw [← h]
    exact hp.length_le
  · simp [hp] at h
    rw [← h] at hs
    simp [failure, result] at hs

/-- C7, at a concrete input: the child `atom a` with bounds 2 and 4 on `aaab`, where three
applications succeed and the fourth fails. -/
theorem rangeRepeat_greedy_witness :
    rangeRepeat (atom (str "a")) 2 4 (str "aaab") = Run.ok (result true [] (str "aaa")) :=
  rangeRepeat_greedy.1 (atom (str "a")) 2 4 (str "aaab")
    [result true [] (str "a"), result true [] (str "a"), result true [] (str "a")]
    (by decide) (by decide) (atom_coverage_le _)
    ⟨by decide, rfl, by decide, rfl, by decide, rfl, trivial⟩ (by decide)
    (Or.inr ⟨failure, by decide, rfl⟩)

/-! ## MatchAll -/

theorem MatchAllLoop_scan (regex : Regex) (text : Bytes)
    (hret : ∀ s, s ≠ [] → ∃ r, regex.exprTree s = Run.ok r)
    (hne : ∀ s r, s ≠ [] → regex.exprTree s = Run.ok r → r.Success = true → r.Coverage ≠ []) :
    ∀ (fuel i : Nat) (found : List RegResult), text.length - i < fuel →
      ∃ ms : List (Nat × RegResult),
        (∀ m ∈ ms, i ≤ m.1 ∧ m.1 < text.length ∧
          regex.exprTree (text.drop m.1) = Run.ok m.2 ∧ m.2.Success = true) ∧
        ms.Pairwise (fun a b => a.1 < b.1 ∧ a.1 + a.2.Coverage.length ≤ b.1) ∧
        (∀ j, i ≤ j → j < text.length →
          (∀ m ∈ ms, j < m.1 ∨ m.1 + m.2.Coverage.length ≤ j) →
          FailsAt regex.exprTree text j) ∧
        MatchAllLoop regex text fuel i found = Run.ok (found ++ ms.map Prod.snd) := by
  intro fuel
  induction fuel with
  | zero => intro i found h; omega
  | succ fuel ih =>
    intro i found h
    by_cases hi : i < text.length
    · have hnil : text.drop i ≠ [] := by
        intro h0
        have := congrArg List.length h0
        simp at this
        omega
      obtain ⟨r, hr⟩ := hret _ hnil
      by_cases hs : r.Success = true
      · have hc : r.Coverage.length ≠ 0 := fun h0 =>
          hne _ r hnil hr hs (List.length_eq_zero.mp h0)
        obtain ⟨ms, hmem, hpair, hfail, hloop⟩ :=
          ih (i + r.Coverage.length) (found ++ [r]) (by omega)
        refine ⟨(i, r) :: ms, ?_, ?_, ?_, ?_⟩
        · intro m hm
          rcases List.mem_cons.mp hm with rfl | hm
          · exact ⟨Nat.le_refl _, hi, hr, hs⟩
          · obtain ⟨h1, h2, h3, h4⟩ := hmem m hm
            exact ⟨by omega, h2, h3, h4⟩
        · refine List.pairwise_cons.mpr ⟨?_, hpair⟩
          intro m hm
          have := (hmem m hm).1
          exact ⟨by simp only; omega, by simp only; omega⟩
        · intro j hij hj hcov
          have h0 := hcov (i, r) (List.mem_cons_self _ _)
          simp only at h0
          exact hfail j (by omega) hj (fun m hm => hcov m (List.mem_cons_of_mem _ hm))
        · simp [MatchAllLoop, hi, slice_to_end _ _ (Nat.le_of_lt hi), hr, hs, hloop]
      · obtain ⟨ms, hmem, hpair, hfail, hloop⟩ := ih (i + 1) found (by omega)
        refine ⟨ms, ?_, hpair, ?_, ?_⟩
        · intro m hm
          obtain ⟨h1, h2, h3, h4⟩ := hmem m hm
          exact ⟨by omega, h2, h3, h4⟩
        · intro j hij hj hcov
          by_cases hji : j = i
          · subst hji
            exact ⟨r, hr, by simpa using hs⟩
          · exact hfail j (by omega) hj hcov
        · simp [MatchAllLoop, hi, slice_to_end _ _ (Nat.le_of_lt hi), hr, hs, hloop]
    · refine ⟨[], by simp, List.Pairwise.nil, ?_, by simp [MatchAllLoop, hi]⟩
      intro j hij hj _
      omega

theorem MatchAllLoop_of_scan (regex : Regex) (text : Bytes)
    (hne : ∀ s r, s ≠ [] → regex.exprTree s = Run.ok r → r.Success = true → r.Coverage ≠ []) :
    ∀ (fuel i : Nat) (found : List RegResult) (ms : List (Nat × RegResult)),
      text.length - i < fuel →
      (∀ m ∈ ms, i ≤ m.1 ∧ m.1 < text.length ∧
        regex.exprTree (text.drop m.1) = Run.ok m.2 ∧ m.2.Success = true) →
      ms.Pairwise (fun a b => a.1 < b.1 ∧ a.1 + a.2.Coverage.length ≤ b.1) →
      (∀ j, i ≤ j → j < text.length →
        (∀ m ∈ ms, j < m.1 ∨ m.1 + m.2.Coverage.length ≤ j) →
        FailsAt regex.exprTree text j) →
      MatchAllLoop regex text fuel i found = Run.ok (found ++ ms.map Prod.snd) := by
  intro fuel
  induction fuel with
  | zero => intro i found ms h; omega
  | succ fuel ih =>
    intro i found ms h hmem hpair hfail
    by_cases hi : i < text.length
    · have hnil : text.drop i ≠ [] := by
        intro h0
        have := congrArg List.length h0
        simp at this
        omega
      have hstep : ∀ r0, regex.exprTree (text.drop i) = Run.ok r0 → r0.Success = false →
          (∀ m ∈ ms, i + 1 ≤ m.1) →
          MatchAllLoop regex text (fuel + 1) i found = Run.ok (found ++ ms.map Prod.snd) := by
        intro r0 hr0 hs0 hlt
        have := ih (i + 1) found ms (by omega)
          (fun m hm => ⟨hlt m hm, (hmem m hm).2⟩) hpair
          (fun j hij hj hcov => hfail j (by omega) hj hcov)
        simp [MatchAllLoop, hi, slice_to_end _ _ (Nat.le_of_lt hi), hr0, hs0, this]
      cases ms with
      | nil =>
        obtain ⟨r0, hr0, hs0⟩ := hfail i (Nat.le_refl _) hi (by simp)
        exact hstep r0 hr0 hs0 (by simp)
      | cons m ms =>
        obtain ⟨hle, _, hr, hs⟩ := hmem m (List.mem_cons_self _ _)
        obtain ⟨hhead, htail⟩ := List.pairwise_cons.mp hpair
        by_cases ho : m.1 = i
        · rw [ho] at hr
          have hc : m.2.Coverage.length ≠ 0 := fun h0 =>
            hne _ m.2 hnil hr hs (List.length_eq_zero.mp h0)
          have := ih (i + m.2.Coverage.length) (found ++ [m.2]) ms (by omega)
            (fun q hq => ⟨by have := (hhead q hq).2; omega, (hmem q (List.mem_cons_of_mem _ hq)).2⟩)
            htail
            (fun j hij hj hcov => hfail j (by omega) hj (by
              intro q hq
              rcases List.mem_cons.mp hq with rfl | hq
              · exact Or.inr (by omega)
              · exact hcov q hq))
          simp [MatchAllLoop, hi, slice_to_end _ _ (Nat.le_of_lt hi), hr, hs, this]
        · have hlt : i < m.1 := by omega
          obtain ⟨r0, hr0, hs0⟩ := hfail i (Nat.le_refl _) hi (by
            intro q hq
            rcases List.mem_cons.mp hq with rfl | hq
            · exact Or.inl hlt
            · exact Or.inl (by have := (hhead q hq).1; omega))
          refine hstep r0 hr0 hs0 ?_
          intro q hq
          rcases List.mem_cons.mp hq with rfl | hq
          · omega
          · have := (hhead q hq).1
            omega
    · have : ms = [] := by
        cases ms with
        | nil => rfl
        | cons m ms =>
          have := hmem m (List.mem_cons_self _ _)
          omega
      subst this
      simp [MatchAllLoop, hi]

set_option maxRecDepth 100000 in
/-- C2. For a root matcher that never succeeds with empty coverage on a non-empty input:
whenever `ms` are the matches of the left-to-right scan of the text (start offsets strictly
increasing, each result the successful evaluation of the root on the text from its offset on,
no match starting before the previous one ends, the root failing at every offset of the text
that lies in no match), `MatchAll` returns exactly the results of `ms`, in order; and such
matches exist when the root returns an outcome on every non-empty input.  For the pattern
`[Gg]ab(e|riel)` on `Gabe gabriel Gabriel` these are three matches, at the offsets 0, 5 and
13, with the coverages `Gabe`, `gabriel` and `Gabriel`.  A root that panics makes `MatchAll`
panic: the root of the pattern `a\t` is `concat(atom a, tab)`, which never succeeds with empty
coverage and succeeds on `a\ta` at offset 0, and `MatchAll` on `a\ta` panics when the scan
reaches offset 2, where `tab` reads `input[0]` of the empty rest of the input, instead of
returning the one match. -/
theorem MatchAll_scan :
    (∀ (regex : Regex) (text : Bytes),
      (∀ s r, s ≠ [] → regex.exprTree s = Run.ok r → r.Success = true → r.Coverage ≠ []) →
      ∀ ms : List (Nat × RegResult), ScanMatches regex.exprTree text ms →
        MatchAll regex text = Run.ok (ms.map Prod.snd)) ∧
    (∀ (regex : Regex) (text : Bytes),
      (∀ s r, s ≠ [] → regex.exprTree s = Run.ok r → r.Success = true → r.Coverage ≠ []) →
      (∀ s, s ≠ [] → ∃ r, regex.exprTree s = Run.ok r) →
      ∃ ms : List (Nat × RegResult), ScanMatches regex.exprTree text ms) ∧
    (∃ regex : Regex, Parse (str "[Gg]ab(e|riel)") = Run.ok regex ∧
      MatchAll regex (str "Gabe gabriel Gabriel") =
        Run.ok [result true [str "e"] (str "Gabe"), result true [str "riel"] (str "gabriel"),
          result true [str "riel"] (str "Gabriel")] ∧
      ScanMatches regex.exprTree (str "Gabe gabriel Gabriel")
        [(0, result true [str "e"] (str "Gabe")), (5, result true [str "riel"] (str "gabriel")),
          (13, result true [str "riel"] (str "Gabriel"))]) ∧
    (∃ regex : Regex, Parse (str "a\\t") = Run.ok regex ∧
      regex.exprTree = concat [atom (str "a"), tab] ∧
      (∀ s r, regex.exprTree s = Run.ok r → r.Success = true → r.Coverage ≠ []) ∧
      regex.exprTree (str "a\ta") = Run.ok (result true [] (str "a\t")) ∧
      regex.exprTree (str "a") = Run.panic ∧
      MatchAll regex (str "a\ta") = Run.panic) := by
  refine ⟨?_, ?_, ?_, ?_⟩
  rotate_left 3
  · refine ⟨Regex.mk (str "a\\t") (concat [atom (str "a"), tab]), rfl, rfl, ?_, by decide,
      by decide, by decide⟩
    intro s r h hs
    rw [atom_tab_success s r h hs]
    simp [result]
  · intro regex text hne ms hms
    obtain ⟨hmem, hpair, hfail⟩ := hms
    have := MatchAllLoop_of_scan regex text hne (text.length + 1) 0 [] ms (by omega)
      (fun m hm => ⟨Nat.zero_le _, hmem m hm⟩) hpair (fun j _ hj hcov => hfail j hj hcov)
    simpa [MatchAll] using this
  · intro regex text hne hret
    obtain ⟨ms, hmem, hpair, hfail, _⟩ :=
      MatchAllLoop_scan regex text hret hne (text.length + 1) 0 [] (by omega)
    exact ⟨ms, fun m hm => (hmem m hm).2, hpair, fun j hj hcov => hfail j (Nat.zero_le _) hj hcov⟩
  · refine ⟨Regex.mk (str "[Gg]ab(e|riel)")
      (concat [set [atom (str "G"), atom (str "g")], atom (str "ab"),
        union [atom (str "e"), atom (str "riel")]]), rfl, by decide, ?_, ?_, ?_⟩
    · decide
    · decide
    · decide

/-- C2, at a concrete input: the root `atom ab` on the text `xabab`, with its two matches at
the offsets 1 and 3. -/
theorem MatchAll_scan_witness :
    ScanMatches (atom (str "ab")) (str "xabab")
      [(1, result true [] (str "ab")), (3, result true [] (str "ab"))] ∧
    MatchAll (Regex.mk (str "ab") (atom (str "ab"))) (str "xabab") =
      Run.ok [result true [] (str "ab"), result true [] (str "ab")] :=
  ⟨⟨by decide, by decide, by decide⟩,
    MatchAll_scan.1 (Regex.mk (str "ab") (atom (str "ab"))) (str "xabab")
      (atom_progress _ (by decide))
      [(1, result true [] (str "ab")), (3, result true [] (str "ab"))]
      ⟨by decide, by decide, by decide⟩⟩

/-! ## The word class -/

/-- C11. On a non-empty input `word` succeeds exactly when the first byte `b` satisfies
`'A' <= b <= 'z'` (65 to 122), and then consumes that one byte with no captures; so it
accepts the six characters from `[` (91) to the backquote (96) that lie between `Z` and `a`,
and it rejects every decimal digit (48 to 57). -/
theorem word_range :
    (∀ (b : Nat) (rest : Bytes),
      word (b :: rest) =
        Run.ok (if 65 ≤ b ∧ b ≤ 122 then result true [] [b] else failure)) ∧
    (∀ (b : Nat) (rest : Bytes), 91 ≤ b → b ≤ 96 →
      word (b :: rest) = Run.ok (result true [] [b])) ∧
    (∀ (b : Nat) (rest : Bytes), 48 ≤ b → b ≤ 57 → word (b :: rest) = Run.ok failure) := by
  have key : ∀ (b : Nat) (rest : Bytes),
      word (b :: rest) =
        Run.ok (if 65 ≤ b ∧ b ≤ 122 then result true [] [b] else failure) := by
    intro b rest
    by_cases h : 65 ≤ b ∧ b ≤ 122
    · simp [word, index, slice, h]
    · simp [word, index, h]
  refine ⟨key, ?_, ?_⟩
  · intro b rest h1 h2
    rw [key, if_pos ⟨by omega, by omega⟩]
  · intro b rest h1 h2
    rw [key, if_neg (by omega)]

/-- C11, at a concrete input: the circumflex (94) is accepted. -/
theorem word_range_witness : word (str "^a") = Run.ok (result true [] (str "^")) :=
  word_range.2.1 94 (str "a") (by decide) (by decide)

/-! ## Negated sets -/

set_option maxRecDepth 100000 in
/-- C14. The pattern `[^a-c]` compiles to `negate(set(...))` over all the set tokens, the
marker `^` included as the literal `atom ^`: it matches `d` and rejects `c`, and it rejects
`^` as well, although `^` is not in `a-c`. -/
theorem negated_set_keeps_marker :
    Parse (str "[^a-c]") =
      Run.ok (Regex.mk (str "[^a-c]") (negate (set [atom (str "^"), inRange 97 99]))) ∧
    rootOn (str "[^a-c]") (str "d") = Run.ok (result true [] (str "d")) ∧
    rootOn (str "[^a-c]") (str "c") = Run.ok failure ∧
    rootOn (str "[^a-c]") (str "^") = Run.ok failure ∧
    negate (set [inRange 97 99]) (str "^") = Run.ok (result true [] (str "^")) :=
  ⟨rfl, by decide, by decide, by decide, by decide⟩

/-! ## Failed outcomes of the matchers -/

theorem failsClean_failure : FailsClean (pure failure) := by
  intro r h _
  cases h
  rfl

theorem failsClean_success (captures : List Bytes) (coverage : Bytes) :
    FailsClean (pure (result true captures coverage)) := by
  intro r h hs
  cases h
  simp [result] at hs

theorem failsClean_bind {α : Type} (x : Run α) (g : α → Run RegResult)
    (hg : ∀ a, FailsClean (g a)) : FailsClean (x >>= g) := by
  intro r h hs
  obtain ⟨a, _, ha⟩ := bind_ok_elim h
  exact hg a r ha hs

theorem failsClean_ite {c : Prop} [Decidable c] (a b : Run RegResult)
    (ha : FailsClean a) (hb : FailsClean b) : FailsClean (if c then a else b) := by
  split <;> assumption

theorem failsClean_atom (s input : Bytes) : FailsClean (atom s input) := by
  unfold atom
  repeat' (first
    | exact failsClean_failure
    | exact failsClean_success _ _
    | refine failsClean_ite _ _ ?_ ?_
    | refine failsClean_bind _ _ ?_
    | intro _)

theorem failsClean_word (input : Bytes) : FailsClean (word input) := by
  unfold word
  repeat' (first
    | exact failsClean_failure
    | exact failsClean_success _ _
    | refine failsClean_ite _ _ ?_ ?_
    | refine failsClean_bind _ _ ?_
    | intro _)

theorem failsClean_digit (input : Bytes) : FailsClean (digit input) := by
  unfold digit
  repeat' (first
    | exact failsClean_failure
    | exact failsClean_success _ _
    | refine failsClean_ite _ _ ?_ ?_
    | refine failsClean_bind _ _ ?_
    | intro _)

theorem failsClean_any (input : Bytes) : FailsClean (any input) := by
  unfold any
  repeat' (first
    | exact failsClean_failure
    | exact failsClean_success _ _
    | refine failsClean_ite _ _ ?_ ?_
    | refine failsClean_bind _ _ ?_
    | intro _)

theorem failsClean_backslash (input : Bytes) : FailsClean (backslash input) := by
  unfold backslash
  repeat' (first
    | exact failsClean_failure
    | exact failsClean_success _ _
    | refine failsClean_ite _ _ ?_ ?_
    | refine failsClean_bind _ _ ?_
    | intro _)

theorem failsClean_space (input : Bytes) : FailsClean (space input) := by
  unfold space
  repeat' (first
    | exact failsClean_failure
    | exact failsClean_success _ _
    | refine failsClean_ite _ _ ?_ ?_
    | refine failsClean_bind _ _ ?_
    | intro _)

theorem failsClean_tab (input : Bytes) : FailsClean (tab input) := by
  unfold tab
  repeat' (first
    | exact failsClean_failure
    | exact failsClean_success _ _
    | refine failsClean_ite _ _ ?_ ?_
    | refine failsClean_bind _ _ ?_
    | intro _)

theorem failsClean_inRange (lower upper : Nat) (input : Bytes) :
    FailsClean (inRange lower upper input) := by
  unfold inRange
  repeat' (first
    | exact failsClean_failure
    | exact failsClean_success _ _
    | refine failsClean_ite _ _ ?_ ?_
    | refine failsClean_bind _ _ ?_
    | intro _)

theorem failsClean_negate (cons : consumer) (input : Bytes) :
    FailsClean (negate cons input) := by
  unfold negate
  repeat' (first
    | exact failsClean_failure
    | exact failsClean_success _ _
    | refine failsClean_ite _ _ ?_ ?_
    | refine failsClean_bind _ _ ?_
    | intro _)

theorem failsClean_option (cons : consumer) (input : Bytes) :
    FailsClean (option cons input) := by
  unfold option
  repeat' (first
    | exact failsClean_failure
    | exact failsClean_success _ _
    | refine failsClean_ite _ _ ?_ ?_
    | refine failsClean_bind _ _ ?_
    | intro _)

theorem failsClean_capture (cons : consumer) (input : Bytes) :
    FailsClean (capture cons input) := by
  unfold capture
  repeat' (first
    | exact failsClean_failure
    | exact failsClean_success _ _
    | refine failsClean_ite _ _ ?_ ?_
    | refine failsClean_bind _ _ ?_
    | intro _)

theorem failsClean_setLoop (input : Bytes) :
    ∀ cons : List consumer, FailsClean (setLoop cons input) := by
  intro cons
  induction cons with
  | nil => exact failsClean_failure
  | cons c rest ih =>
    simp only [setLoop]
    repeat' (first
      | exact failsClean_failure
      | exact failsClean_success _ _
      | exact ih
      | refine failsClean_ite _ _ ?_ ?_
      | refine failsClean_bind _ _ ?_
      | intro _)

theorem failsClean_set (cons : List consumer) (input : Bytes) :
    FailsClean (set cons input) := by
  unfold set
  exact failsClean_ite _ _ failsClean_failure (failsClean_setLoop input cons)

theorem failsClean_unionLoop (input : Bytes) :
    ∀ cons : List consumer, FailsClean (unionLoop cons input) := by
  intro cons
  induction cons with
  | nil => exact failsClean_failure
  | cons c rest ih =>
    simp only [unionLoop]
    repeat' (first
      | exact failsClean_failure
      | exact failsClean_success _ _
      | exact ih
      | refine failsClean_ite _ _ ?_ ?_
      | refine failsClean_bind _ _ ?_
      | intro _)

theorem failsClean_union (cons : List consumer) (input : Bytes) :
    FailsClean (union cons input) :=
  failsClean_unionLoop input cons

theorem failsClean_concatLoop :
    ∀ (cons : List consumer) (bigstr coverage : Bytes) (captures : List Bytes),
      FailsClean (concatLoop cons bigstr coverage captures) := by
  intro cons
  induction cons with
  | nil => intro _ _ _; exact failsClean_success _ _
  | cons c rest ih =>
    intro bigstr coverage captures
    simp only [concatLoop]
    repeat' (first
      | exact failsClean_failure
      | exact ih _ _ _
      | refine failsClean_ite _ _ ?_ ?_
      | refine failsClean_bind _ _ ?_
      | intro _)

theorem failsClean_concat (cons : List consumer) (input : Bytes) :
    FailsClean (concat cons input) := by
  unfold concat
  exact failsClean_ite _ _ failsClean_failure (failsClean_concatLoop _ _ _ _)

theorem failsClean_repeatLoop (cons : consumer) (input : Bytes) :
    ∀ (reps : Nat) (coverage : Bytes) (captures : List Bytes),
      FailsClean (repeatLoop cons input reps coverage captures) := by
  intro reps
  induction reps with
  | zero => intro _ _; exact failsClean_success _ _
  | succ reps ih =>
    intro coverage captures
    simp only [repeatLoop]
    repeat' (first
      | exact failsClean_failure
      | exact ih _ _
      | refine failsClean_ite _ _ ?_ ?_
      | refine failsClean_bind _ _ ?_
      | intro _)

theorem failsClean_repeat (cons : consumer) (repetitions : Int) (input : Bytes) :
    FailsClean (repeat_ cons repetitions input) :=
  failsClean_repeatLoop cons input _ _ _

theorem failsClean_rangeRepeat (cons : consumer) (minReps maxReps : Int) (input : Bytes) :
    FailsClean (rangeRepeat cons minReps maxReps input) := by
  unfold rangeRepeat
  simp only []
  refine failsClean_bind _ _ ?_
  rintro ⟨coverage, captures, repsComplete⟩
  exact failsClean_ite _ _ (failsClean_success _ _) failsClean_failure

theorem failsClean_star (cons : consumer) (input : Bytes) :
    FailsClean (star cons input) := by
  have key : ∀ (fuel index : Nat) (coverage : Bytes),
      FailsClean (starLoop cons input fuel index coverage) := by
    intro fuel
    induction fuel with
    | zero => intro _ _ r h _; cases h
    | succ fuel ih =>
      intro index coverage
      simp only [starLoop]
      repeat' (first
        | exact failsClean_success _ _
        | exact ih _ _
        | refine failsClean_ite _ _ ?_ ?_
        | refine failsClean_bind _ _ ?_
        | intro _)
  exact key _ _ _

theorem failsClean_plus (cons : consumer) (input : Bytes) :
    FailsClean (plus cons input) := by
  unfold plus
  refine failsClean_bind _ _ ?_
  rintro ⟨instances, coverage, captures⟩
  exact failsClean_ite _ _ (failsClean_success _ _) failsClean_failure

theorem clean_pure (c : consumer) (hc : ∀ input, FailsClean (c input)) :
    ∀ c1, (pure c : Run consumer) = Run.ok c1 → ∀ input, FailsClean (c1 input) := by
  intro c1 h
  cases h
  exact hc

theorem clean_bind {α : Type} (x : Run α) (g : α → Run consumer)
    (hg : ∀ a, ∀ c1, g a = Run.ok c1 → ∀ input, FailsClean (c1 input)) :
    ∀ c1, (x >>= g) = Run.ok c1 → ∀ input, FailsClean (c1 input) := by
  intro c1 h
  obtain ⟨a, _, ha⟩ := bind_ok_elim h
  exact hg a c1 ha

theorem clean_ite {p : Prop} [Decidable p] (a b : Run consumer)
    (ha : ∀ c1, a = Run.ok c1 → ∀ input, FailsClean (c1 input))
    (hb : ∀ c1, b = Run.ok c1 → ∀ input, FailsClean (c1 input)) :
    ∀ c1, (if p then a else b) = Run.ok c1 → ∀ input, FailsClean (c1 input) := by
  split <;> assumption

theorem splitSingular_clean (regex : Bytes) :
    ∀ c1, splitSingular regex = Run.ok c1 → ∀ input, FailsClean (c1 input) := by
  unfold splitSingular
  repeat' (first
    | exact clean_pure _ failsClean_any
    | exact clean_pure _ failsClean_digit
    | exact clean_pure _ failsClean_backslash
    | exact clean_pure _ failsClean_space
    | exact clean_pure _ failsClean_tab
    | exact clean_pure _ failsClean_word
    | exact clean_pure _ (failsClean_negate _)
    | exact clean_pure _ (failsClean_atom _)
    | refine clean_ite _ _ ?_ ?_
    | refine clean_bind _ _ ?_
    | intro _)

theorem cleanR_pure (b : List Bytes) (c : consumer) (hc : ∀ input, FailsClean (c input)) :
    ∀ b1 c1, (pure (b, c) : Run (List Bytes × consumer)) = Run.ok (b1, c1) →
      ∀ input, FailsClean (c1 input) := by
  intro b1 c1 h
  cases h
  exact hc

theorem cleanR_bind {α : Type} (x : Run α) (g : α → Run (List Bytes × consumer))
    (hg : ∀ a, ∀ b1 c1, g a = Run.ok (b1, c1) → ∀ input, FailsClean (c1 input)) :
    ∀ b1 c1, (x >>= g) = Run.ok (b1, c1) → ∀ input, FailsClean (c1 input) := by
  intro b1 c1 h
  obtain ⟨a, _, ha⟩ := bind_ok_elim h
  exact hg a b1 c1 ha

theorem cleanR_bind_singular (t : Bytes) (g : consumer → Run (List Bytes × consumer))
    (hg : ∀ c, (∀ input, FailsClean (c input)) →
      ∀ b1 c1, g c = Run.ok (b1, c1) → ∀ input, FailsClean (c1 input)) :
    ∀ b1 c1, (splitSingular t >>= g) = Run.ok (b1, c1) → ∀ input, FailsClean (c1 input) := by
  intro b1 c1 h
  obtain ⟨a, ha1, ha⟩ := bind_ok_elim h
  exact hg a (splitSingular_clean t a ha1) b1 c1 ha

theorem cleanR_ite {p : Prop} [Decidable p] (a b : Run (List Bytes × consumer))
    (ha : ∀ b1 c1, a = Run.ok (b1, c1) → ∀ input, FailsClean (c1 input))
    (hb : ∀ b1 c1, b = Run.ok (b1, c1) → ∀ input, FailsClean (c1 input)) :
    ∀ b1 c1, (if p then a else b) = Run.ok (b1, c1) → ∀ input, FailsClean (c1 input) := by
  split <;> assumption

theorem splitRegex_clean (fuel : Nat) (regex : List Bytes) :
    ∀ b1 c1, splitRegex fuel regex = Run.ok (b1, c1) → ∀ input, FailsClean (c1 input) := by
  cases fuel with
  | zero => intro b1 c1 h; cases h
  | succ fuel =>
    rw [splitRegex]
    repeat' (first
      | exact cleanR_pure _ _ (failsClean_union _)
      | exact cleanR_pure _ _ (failsClean_capture _)
      | exact cleanR_pure _ _ (failsClean_rangeRepeat _ _ _)
      | exact cleanR_pure _ _ (failsClean_repeat _ _)
      | exact cleanR_pure _ _ (failsClean_negate _)
      | exact cleanR_pure _ _ (failsClean_set _)
      | exact cleanR_pure _ _ (failsClean_star _)
      | exact cleanR_pure _ _ (failsClean_plus _)
      | exact cleanR_pure _ _ (failsClean_option _)
      | exact cleanR_pure _ _ (by assumption)
      | refine cleanR_ite _ _ ?_ ?_
      | refine cleanR_bind_singular _ _ ?_
      | refine cleanR_bind _ _ ?_
      | rintro ⟨_, _⟩
      | intro _)

theorem splitConcatenationLoop_clean :
    ∀ (fuel : Nat) (str0 : List Bytes) (parts parts1 : List consumer),
      splitConcatenationLoop fuel str0 parts = Run.ok parts1 →
      (∀ c ∈ parts, ∀ input, FailsClean (c input)) →
      ∀ c ∈ parts1, ∀ input, FailsClean (c input) := by
  intro fuel
  induction fuel with
  | zero => intro _ _ _ h; cases h
  | succ fuel ih =>
    intro str0 parts parts1 h hparts
    rw [splitConcatenationLoop] at h
    by_cases hpos : str0.length > 0
    · rw [if_pos hpos] at h
      obtain ⟨⟨str1, cons⟩, h1, h2⟩ := bind_ok_elim h
      refine ih str1 ([cons] ++ parts) parts1 h2 ?_
      intro c hc
      rcases List.mem_append.mp hc with hc | hc
      · rw [List.mem_singleton.mp hc]
        exact splitRegex_clean fuel str0 str1 cons h1
      · exact hparts c hc
    · rw [if_neg hpos] at h
      cases h
      exact hparts

theorem splitConcatenation_clean (fuel : Nat) (regex : List Bytes) (c : consumer)
    (h : splitConcatenation fuel regex = Run.ok c) : ∀ input, FailsClean (c input) := by
  cases fuel with
  | zero => cases h
  | succ fuel =>
    rw [splitConcatenation] at h
    by_cases h0 : regex.length = 0
    · rw [if_pos h0] at h
      cases h
      exact failsClean_atom _
    · rw [if_neg h0] at h
      obtain ⟨parts, h1, h2⟩ := bind_ok_elim h
      have hparts := splitConcatenationLoop_clean fuel regex [] parts h1 (by simp)
      by_cases hl : parts.length = 1
      · rw [if_pos hl] at h2
        unfold index at h2
        cases hg : parts[0]? with
        | none => rw [hg] at h2; cases h2
        | some a =>
          rw [hg] at h2
          cases h2
          exact hparts c (List.getElem?_mem hg)
      · rw [if_neg hl] at h2
        cases h2
        exact failsClean_concat _

theorem Parse_clean (pattern : Bytes) (regex : Regex) (h : Parse pattern = Run.ok regex) :
    ∀ input, FailsClean (regex.exprTree input) := by
  unfold Parse at h
  obtain ⟨tree, h1, h2⟩ := bind_ok_elim h
  cases h2
  exact splitConcatenation_clean _ _ tree h1

/-! ## Match on a text that does not match -/

/-- C19. When `Match` of a compiled pattern does not succeed, the root matcher has returned the
value `failure()`, with no coverage and no captures, and `Match` returns success = false, an
empty coverage and a capture list that holds exactly the subject text, its implicit capture at
index 0. -/
theorem Match_failure_keeps_text :
    ∀ (pattern : Bytes) (regex : Regex) (text : Bytes) (r : RegResult),
      Parse pattern = Run.ok regex → Match regex text = Run.ok r → r.Success = false →
      regex.exprTree text = Run.ok failure ∧
      r = { Success := false, Captures := [text], Coverage := [] } := by
  intro pattern regex text r hp hm hs
  have hclean := Parse_clean pattern regex hp text
  unfold Match at hm
  obtain ⟨res, h1, h2⟩ := bind_ok_elim hm
  cases h2
  have hres := hclean res h1 hs
  subst hres
  exact ⟨h1, rfl⟩

/-- C19, the claim as stated fails: `Match` of the pattern `a` on the text `b` fails with the
one capture `b`. -/
theorem Match_failure_has_capture :
    (Parse (str "a")).bind (fun regex => Match regex (str "b")) =
      Run.ok { Success := false, Captures := [str "b"], Coverage := [] } ∧
    [str "b"] ≠ ([] : List Bytes) := by
  decide

/-- C19, at a concrete input: the pattern `a+` on the text `b`. -/
theorem Match_failure_keeps_text_witness :
    plus (atom (str "a")) (str "b") = Run.ok failure ∧
    ({ Success := false, Captures := [str "b"], Coverage := [] } : RegResult) =
      { Success := false, Captures := [str "b"], Coverage := [] } :=
  Match_failure_keeps_text (str "a+") (Regex.mk (str "a+") (plus (atom (str "a")))) (str "b")
    { Success := false, Captures := [str "b"], Coverage := [] } rfl (by decide) rfl

/-! ## MatchAll on a zero-length match -/

theorem MatchAllLoop_back (regex : Regex) (s : Bytes) (i : Nat) (h : Reaches regex s i) :
    (∀ (fuel : Nat) (found : List RegResult),
      MatchAllLoop regex s fuel i found = Run.diverge) →
    ∀ (fuel : Nat) (found : List RegResult),
      MatchAllLoop regex s fuel 0 found = Run.diverge := by
  induction h with
  | start => exact id
  | success i r _ hi hr hs ih =>
    intro hd
    apply ih
    intro fuel found
    cases fuel with
    | zero => rfl
    | succ fuel =>
      simp [MatchAllLoop, hi, slice_to_end _ _ (Nat.le_of_lt hi), hr, hs, hd]
  | failure i r _ hi hr hs ih =>
    intro hd
    apply ih
    intro fuel found
    cases fuel with
    | zero => rfl
    | succ fuel =>
      simp [MatchAllLoop, hi, slice_to_end _ _ (Nat.le_of_lt hi), hr, hs, hd]

/-- C20. When the loop of `MatchAll` visits an offset `i < len(text)` at which the root
matcher succeeds with empty coverage, the iteration at `i` appends the result and leaves the
offset at `i`; the loop then returns after no number of iterations, and `MatchAll` does not
terminate.  So it is for the pattern `a*` on the text `b`, where the root succeeds with empty
coverage at offset 0. -/
theorem MatchAll_zero_length_loops :
    (∀ (regex : Regex) (s : Bytes) (i : Nat) (r : RegResult),
      Reaches regex s i → i < s.length → regex.exprTree (s.drop i) = Run.ok r →
      r.Success = true → r.Coverage = [] →
      (∀ (fuel : Nat) (found : List RegResult),
        MatchAllLoop regex s (fuel + 1) i found =
          MatchAllLoop regex s fuel i (found ++ [r])) ∧
      (∀ fuel : Nat, MatchAllLoop regex s fuel 0 [] = Run.diverge) ∧
      MatchAll regex s = Run.diverge) ∧
    rootOn (str "a*") (str "b") = Run.ok (result true [] []) ∧
    (Parse (str "a*")).bind (fun regex => MatchAll regex (str "b")) = Run.diverge := by
  refine ⟨?_, by decide, by decide⟩
  intro regex s i r hreach hi hr hs hc
  have hstuck := MatchAllLoop_stuck regex s i r hi hr hs hc
  have hall := MatchAllLoop_back regex s i hreach hstuck
  refine ⟨?_, fun fuel => hall fuel [], hall _ []⟩
  intro fuel found
  simp [MatchAllLoop, hi, slice_to_end _ _ (Nat.le_of_lt hi), hr, hs, hc]

/-- C20, at a concrete input: the tree of `a*` on the text `b`, stuck at offset 0. -/
theorem MatchAll_zero_length_loops_witness :
    MatchAll (Regex.mk (str "a*") (star (atom (str "a")))) (str "b") = Run.diverge :=
  (MatchAll_zero_length_loops.1 (Regex.mk (str "a*") (star (atom (str "a")))) (str "b") 0
    (result true [] []) Reaches.start (by decide) (by decide) rfl rfl).2.2

/-! ## Singular units -/

theorem splitSingular_literal (t : Bytes) (b0 : Nat) (rest : Bytes) (ht : t = b0 :: rest)
    (hdot : t ≠ str ".") (hb : b0 ≠ 92) : splitSingular t = Run.ok (atom t) := by
  subst ht
  simp [splitSingular, hdot, index, hb]

theorem splitSingular_escape (x : Nat) (rest : Bytes)
    (hx : x ∉ [100, 92, 115, 116, 68, 84, 83, 119, 87]) :
    splitSingular (92 :: x :: rest) = Run.ok (atom (encodeRune x)) := by
  have hdot : (92 :: x :: rest) ≠ str "." := by
    intro h
    have := congrArg List.length h
    simp [str, encodeRune] at this
  simp only [List.mem_cons, List.mem_singleton, not_or, List.not_mem_nil, or_false] at hx
  obtain ⟨h1, h2, h3, h4, h5, h6, h7, h8, h9⟩ := hx
  simp [splitSingular, hdot, index, h1, h2, h3, h4, h5, h6, h7, h8, h9]

/-- C12. `splitSingular` follows the table of singular units: `.` gives `any`; `\d`, `\\`,
`\s`, `\t`, `\D`, `\T`, `\S`, `\w`, `\W` give `digit`, `backslash`, `space`, `tab`,
`negate(digit)`, `negate(tab)`, `negate(space)`, `word`, `negate(word)`; any other escape of
an ASCII character `x` gives `atom x` (so `\n` is the letter `n` and `\(` a left parenthesis);
a non-empty token that is not `.` and does not start with a backslash gives the atom of the
token.  For an escaped character outside ASCII the byte after the backslash is converted as
if it were a code point: `\é` gives the atom of `Ã`, which does not match `é`. -/
theorem splitSingular_table :
    splitSingular (str ".") = Run.ok any ∧
    splitSingular (str "\\d") = Run.ok digit ∧
    splitSingular (str "\\\\") = Run.ok backslash ∧
    splitSingular (str "\\s") = Run.ok space ∧
    splitSingular (str "\\t") = Run.ok tab ∧
    splitSingular (str "\\D") = Run.ok (negate digit) ∧
    splitSingular (str "\\T") = Run.ok (negate tab) ∧
    splitSingular (str "\\S") = Run.ok (negate space) ∧
    splitSingular (str "\\w") = Run.ok word ∧
    splitSingular (str "\\W") = Run.ok (negate word) ∧
    (∀ x : Nat, x < 128 → x ∉ [100, 92, 115, 116, 68, 84, 83, 119, 87] →
      splitSingular (str "\\" ++ encodeRune x) = Run.ok (atom [x])) ∧
    splitSingular (str "\\n") = Run.ok (atom (str "n")) ∧
    splitSingular (str "\\(") = Run.ok (atom (str "(")) ∧
    (∀ (t : Bytes) (b0 : Nat) (rest : Bytes), t = b0 :: rest → t ≠ str "." → b0 ≠ 92 →
      splitSingular t = Run.ok (atom t)) ∧
    splitSingular (str "\\é") = Run.ok (atom (str "Ã")) ∧
    rootOn (str "\\é") (str "é") = Run.ok failure ∧
    atom (str "é") (str "é") = Run.ok (result true [] (str "é")) := by
  refine ⟨rfl, rfl, rfl, rfl, rfl, rfl, rfl, rfl, rfl, rfl, ?_, rfl, rfl,
    splitSingular_literal, rfl, by decide, by decide⟩
  intro x hx hnot
  have he : encodeRune x = [x] := by simp [encodeRune, hx]
  have := splitSingular_escape x [] hnot
  rw [he] at this ⊢
  exact this

/-- C12, at a concrete input: the escape of the letter `n` and the literal token `ab`. -/
theorem splitSingular_table_witness :
    splitSingular (str "\\" ++ encodeRune 110) = Run.ok (atom [110]) ∧
    splitSingular (str "ab") = Run.ok (atom (str "ab")) :=
  ⟨splitSingular_table.2.2.2.2.2.2.2.2.2.2.1 110 (by decide) (by decide),
    splitSingular_table.2.2.2.2.2.2.2.2.2.2.2.2.2.1 (str "ab") 97 [98] rfl (by decide)
      (by decide)⟩

/-! ## UTF-8: decoding what was encoded -/

theorem encodeRune_ne_nil (r : Nat) : encodeRune r ≠ [] := by
  unfold encodeRune
  split_ifs <;> simp

theorem decodeRune_encodeRune (r : Nat) (h : validRune r) (rest : Bytes) :
    decodeRune (encodeRune r ++ rest) = (r, (encodeRune r).length) := by
  obtain ⟨h1, h2⟩ := h
  by_cases c1 : r < 128
  · have he : encodeRune r = [r] := by simp [encodeRune, c1]
    rw [he]
    simp [decodeRune, c1]
  · by_cases c2 : r < 2048
    · have he : encodeRune r = [192 + r / 64, 128 + r % 64] := by simp [encodeRune, c1, c2]
      have hb0 : ¬ (192 + r / 64 < 128) := by omega
      have hb1 : 192 ≤ 192 + r / 64 ∧ 192 + r / 64 < 224 := by omega
      have hc : isCont (128 + r % 64) = true := by
        simp [isCont]; omega
      have hm0 : (192 + r / 64) % 32 = r / 64 := by omega
      have hm1 : (128 + r % 64) % 64 = r % 64 := by omega
      have hr : r / 64 * 64 + r % 64 = r := by omega
      have hv : 127 < r := by omega
      rw [he]
      simp [decodeRune, hb0, hb1, hc, hm0, hm1, hr, hv]
    · have c3 : ¬ (1114111 < r ∨ (55296 ≤ r ∧ r ≤ 57343)) := by omega
      by_cases c4 : r < 65536
      · have he : encodeRune r = [224 + r / 4096, 128 + r / 64 % 64, 128 + r % 64] := by
          simp only [encodeRune, c1, c2, c3, c4, if_true, if_false]
        have hb0 : ¬ (224 + r / 4096 < 128) := by omega
        have hb1 : ¬ (192 ≤ 224 + r / 4096 ∧ 224 + r / 4096 < 224) := by omega
        have hb2 : 224 ≤ 224 + r / 4096 ∧ 224 + r / 4096 < 240 := by omega
        have hc1 : isCont (128 + r / 64 % 64) = true := by
          simp [isCont]; omega
        have hc2 : isCont (128 + r % 64) = true := by
          simp [isCont]; omega
        have hm0 : (224 + r / 4096) % 16 = r / 4096 := by omega
        have hm1 : (128 + r / 64 % 64) % 64 = r / 64 % 64 := by omega
        have hm2 : (128 + r % 64) % 64 = r % 64 := by omega
        have hr : r / 4096 * 4096 + r / 64 % 64 * 64 + r % 64 = r := by omega
        have hv : 2047 < r ∧ ¬ (55296 ≤ r ∧ r ≤ 57343) := by omega
        rw [he]
        simp only [List.cons_append, List.nil_append, decodeRune, hb0, hb1, hb2, hc1, hc2,
          Bool.and_self, hm0, hm1, hm2, hr, hv, if_true, if_false, List.length_cons,
          List.length_nil]
        simp
      · have he : encodeRune r =
            [240 + r / 262144, 128 + r / 4096 % 64, 128 + r / 64 % 64, 128 + r % 64] := by
          simp only [encodeRune, c1, c2, c3, c4, if_true, if_false]
        have hb0 : ¬ (240 + r / 262144 < 128) := by omega
        have hb1 : ¬ (192 ≤ 240 + r / 262144 ∧ 240 + r / 262144 < 224) := by omega
        have hb2 : ¬ (224 ≤ 240 + r / 262144 ∧ 240 + r / 262144 < 240) := by omega
        have hb3 : 240 ≤ 240 + r / 262144 ∧ 240 + r / 262144 < 248 := by omega
        have hc1 : isCont (128 + r / 4096 % 64) = true := by
          simp [isCont]; omega
        have hc2 : isCont (128 + r / 64 % 64) = true := by
          simp [isCont]; omega
        have hc3 : isCont (128 + r % 64) = true := by
          simp [isCont]; omega
        have hm0 : (240 + r / 262144) % 8 = r / 262144 := by omega
        have hm1 : (128 + r / 4096 % 64) % 64 = r / 4096 % 64 := by omega
        have hm2 : (128 + r / 64 % 64) % 64 = r / 64 % 64 := by omega
        have hm3 : (128 + r % 64) % 64 = r % 64 := by omega
        have hr : r / 262144 * 262144 + r / 4096 % 64 * 4096 + r / 64 % 64 * 64 + r % 64 =
            r := by omega
        have hv : 65535 < r ∧ r ≤ 1114111 := by omega
        rw [he]
        simp only [List.cons_append, List.nil_append, decodeRune, hb0, hb1, hb2, hb3, hc1, hc2,
          hc3, Bool.and_self, hm0, hm1, hm2, hm3, hr, hv, if_true, if_false, List.length_cons,
          List.length_nil]
        simp

theorem decodeRune_width (b : Nat) (rest : Bytes) :
    1 ≤ (decodeRune (b :: rest)).2 ∧ (decodeRune (b :: rest)).2 ≤ (b :: rest).length := by
  unfold decodeRune
  rcases rest with _ | ⟨b1, _ | ⟨b2, _ | ⟨b3, rest⟩⟩⟩ <;>
    (simp only []; split_ifs <;> simp)

theorem decodeRune_valid (s : Bytes) : validRune (decodeRune s).1 := by
  unfold validRune
  cases s with
  | nil => simp [decodeRune]
  | cons b rest =>
    unfold decodeRune
    rcases rest with _ | ⟨b1, _ | ⟨b2, _ | ⟨b3, rest⟩⟩⟩ <;>
      (simp only []; split_ifs <;> simp <;> omega)

theorem decodeRune_append_backslash (b : Nat) (rest : Bytes) :
    decodeRune (b :: rest ++ [92]) = decodeRune (b :: rest) := by
  rcases rest with _ | ⟨b1, _ | ⟨b2, _ | ⟨b3, rest⟩⟩⟩ <;>
    simp [decodeRune, isCont]

/-! ## The runes of a string -/

theorem runesFrom_fuel :
    ∀ (n : Nat) (s : Bytes) (i fuel1 fuel2 : Nat), s.length ≤ n → s.length ≤ fuel1 →
      s.length ≤ fuel2 → runesFrom fuel1 i s = runesFrom fuel2 i s := by
  intro n
  induction n with
  | zero =>
    intro s i fuel1 fuel2 h _ _
    have : s = [] := List.length_eq_zero.mp (Nat.le_zero.mp h)
    subst this
    cases fuel1 <;> cases fuel2 <;> rfl
  | succ n ih =>
    intro s i fuel1 fuel2 h h1 h2
    cases s with
    | nil => cases fuel1 <;> cases fuel2 <;> rfl
    | cons b rest =>
      obtain ⟨f1, rfl⟩ : ∃ f, fuel1 = f + 1 := ⟨fuel1 - 1, by simp at h1; omega⟩
      obtain ⟨f2, rfl⟩ : ∃ f, fuel2 = f + 1 := ⟨fuel2 - 1, by simp at h2; omega⟩
      have hw := decodeRune_width b rest
      simp only [runesFrom]
      congr 1
      simp only [List.length_cons] at h h1 h2 hw
      refine ih _ _ _ _ ?_ ?_ ?_ <;> (simp only [List.length_drop, List.length_cons]; omega)

theorem runesFrom_offset :
    ∀ (fuel : Nat) (s : Bytes) (i j : Nat),
      (runesFrom fuel i s).map Prod.snd = (runesFrom fuel j s).map Prod.snd := by
  intro fuel
  induction fuel with
  | zero => intro s i j; rfl
  | succ fuel ih =>
    intro s i j
    cases s with
    | nil => rfl
    | cons b rest =>
      simp only [runesFrom, List.map_cons]
      congr 1
      exact ih _ _ _

theorem runes_nil : runes [] = [] := rfl

theorem runes_cons (b : Nat) (rest : Bytes) :
    runes (b :: rest) =
      (decodeRune (b :: rest)).1 :: runes ((b :: rest).drop (decodeRune (b :: rest)).2) := by
  have hw := decodeRune_width b rest
  simp only [List.length_cons] at hw
  unfold runes
  simp only [List.length_cons, runesFrom, List.map_cons]
  congr 1
  rw [runesFrom_offset _ _ _ 0]
  congr 1
  refine runesFrom_fuel (rest.length + 1) _ _ _ _ ?_ ?_ ?_ <;>
    (simp only [List.length_drop, List.length_cons]; omega)

theorem runes_valid (s : Bytes) : ∀ c ∈ runes s, validRune c := by
  have key : ∀ (n : Nat) (s : Bytes), s.length ≤ n → ∀ c ∈ runes s, validRune c := by
    intro n
    induction n with
    | zero =>
      intro s h c hc
      have : s = [] := List.length_eq_zero.mp (Nat.le_zero.mp h)
      subst this
      simp [runes_nil] at hc
    | succ n ih =>
      intro s h c hc
      cases s with
      | nil => simp [runes_nil] at hc
      | cons b rest =>
        have hw := decodeRune_width b rest
        simp only [List.length_cons] at hw h
        rw [runes_cons] at hc
        rcases List.mem_cons.mp hc with rfl | hc
        · exact decodeRune_valid _
        · exact ih _ (by simp only [List.length_drop, List.length_cons]; omega) c hc
  exact key s.length s (Nat.le_refl _)

theorem runes_encodeAll_append (rest : Bytes) :
    ∀ cs : List Nat, (∀ c ∈ cs, validRune c) →
      runes (encodeAll cs ++ rest) = cs ++ runes rest := by
  intro cs
  induction cs with
  | nil => intro _; rfl
  | cons c cs ih =>
    intro h
    have hc := h c (List.mem_cons_self _ _)
    have hd := decodeRune_encodeRune c hc (encodeAll cs ++ rest)
    have he : encodeAll (c :: cs) ++ rest = encodeRune c ++ (encodeAll cs ++ rest) := by
      simp [encodeAll]
    rw [he]
    obtain ⟨b, tail, hbt⟩ : ∃ b tail, encodeRune c = b :: tail := by
      cases hx : encodeRune c with
      | nil => exact absurd hx (encodeRune_ne_nil c)
      | cons b tail => exact ⟨b, tail, rfl⟩
    rw [hbt] at hd ⊢
    rw [List.cons_append, runes_cons]
    rw [List.cons_append] at hd
    rw [hd]
    simp only [List.cons_append]
    congr 1
    have : List.drop (b :: tail).length (b :: (tail ++ (encodeAll cs ++ rest))) =
        encodeAll cs ++ rest := by
      rw [← List.cons_append]
      exact List.drop_left _ _
    rw [this]
    exact ih (fun x hx => h x (List.mem_cons_of_mem _ hx))

theorem runes_encodeAll (cs : List Nat) (h : ∀ c ∈ cs, validRune c) :
    runes (encodeAll cs) = cs := by
  have := runes_encodeAll_append [] cs h
  simpa [runes_nil] using this

theorem validUTF8_encodeAll (cs : List Nat) (h : ∀ c ∈ cs, validRune c) :
    ValidUTF8 (encodeAll cs) := by
  unfold ValidUTF8
  rw [runes_encodeAll cs h]

theorem runes_append_backslash (s : Bytes) : runes (s ++ [92]) = runes s ++ [92] := by
  have key : ∀ (n : Nat) (s : Bytes), s.length ≤ n →
      runes (s ++ [92]) = runes s ++ [92] := by
    intro n
    induction n with
    | zero =>
      intro s h
      have : s = [] := List.length_eq_zero.mp (Nat.le_zero.mp h)
      subst this
      decide
    | succ n ih =>
      intro s h
      cases s with
      | nil => decide
      | cons b rest =>
        have hw := decodeRune_width b rest
        simp only [List.length_cons] at hw h
        rw [List.cons_append, runes_cons, runes_cons b rest, ← List.cons_append,
          decodeRune_append_backslash]
        simp only [List.cons_append]
        congr 1
        rw [← List.cons_append, List.drop_append_of_le_length (by simp; omega)]
        exact ih _ (by simp only [List.length_drop, List.length_cons]; omega)
  exact key s.length s (Nat.le_refl _)

/-! ## The lexer: the invariant of its loop -/

theorem str_backslash : str "\\" = [92] := by decide

theorem runes_structural :
    runes (str "()[]\x7b\x7d|.+*?") = [40, 41, 91, 93, 123, 125, 124, 46, 43, 42, 63] := by
  decide

theorem strcontains_structural (c : Nat) :
    strcontains (str "()[]\x7b\x7d|.+*?") c = true ↔ structural c := by
  unfold strcontains structural
  rw [runes_structural]
  simp only [List.any_eq_true, beq_iff_eq]
  constructor
  · rintro ⟨a, ha, rfl⟩
    exact ha
  · intro h
    exact ⟨c, h, rfl⟩

theorem structural_lt (c : Nat) (h : structural c) : c < 128 ∧ c ≠ 92 := by
  unfold structural at h
  simp only [List.mem_cons, List.mem_singleton, List.not_mem_nil, or_false] at h
  omega

theorem encodeRune_structural (c : Nat) (h : structural c) : encodeRune c = [c] := by
  have := (structural_lt c h).1
  simp [encodeRune, this]

theorem encodeAll_append (p q : List Nat) : encodeAll (p ++ q) = encodeAll p ++ encodeAll q := by
  simp [encodeAll]

theorem encodeAll_singleton (c : Nat) : encodeAll [c] = encodeRune c := by
  simp [encodeAll]

theorem encodeAll_cons (c : Nat) (cs : List Nat) :
    encodeAll (c :: cs) = encodeRune c ++ encodeAll cs := by
  simp [encodeAll]

theorem encodeRune_head (c : Nat) :
    ∃ b tail, encodeRune c = b :: tail ∧ ((c < 128 ∧ b = c ∧ tail = []) ∨ 192 ≤ b) := by
  unfold encodeRune
  by_cases h1 : c < 128
  · exact ⟨c, [], by simp [h1], Or.inl ⟨h1, rfl, rfl⟩⟩
  · by_cases h2 : c < 2048
    · exact ⟨192 + c / 64, [128 + c % 64], by simp only [if_neg h1, if_pos h2],
        Or.inr (by omega)⟩
    · by_cases h3 : 1114111 < c ∨ (55296 ≤ c ∧ c ≤ 57343)
      · exact ⟨239, [191, 189], by simp only [if_neg h1, if_neg h2, if_pos h3],
          Or.inr (by omega)⟩
      · by_cases h4 : c < 65536
        · exact ⟨224 + c / 4096, [128 + (c / 64) % 64, 128 + c % 64],
            by simp only [if_neg h1, if_neg h2, if_neg h3, if_pos h4], Or.inr (by omega)⟩
        · exact ⟨240 + c / 262144, [128 + (c / 4096) % 64, 128 + (c / 64) % 64, 128 + c % 64],
            by simp only [if_neg h1, if_neg h2, if_neg h3, if_neg h4], Or.inr (by omega)⟩

theorem literalRun_head (t : Bytes) (h : IsLiteralRun t) :
    ∃ b tail, t = b :: tail ∧ b ≠ 92 ∧ ¬ structural b := by
  obtain ⟨cs, hne, hp, rfl⟩ := h
  cases cs with
  | nil => exact absurd rfl hne
  | cons c cs =>
    obtain ⟨b, tail, hb, hcase⟩ := encodeRune_head c
    refine ⟨b, tail ++ encodeAll cs, by rw [encodeAll_cons, hb]; rfl, ?_⟩
    have hpc := hp c (List.mem_cons_self _ _)
    rcases hcase with ⟨_, rfl, _⟩ | hge
    · exact ⟨hpc.2.1, hpc.2.2⟩
    · refine ⟨by omega, fun hs => ?_⟩
      have := (structural_lt b hs).1
      omega

theorem literalRun_ne_nil (t : Bytes) (h : IsLiteralRun t) : t ≠ [] := by
  obtain ⟨b, tail, rfl, _⟩ := literalRun_head t h
  exact List.cons_ne_nil _ _

theorem literalRun_not_structural (t : Bytes) (h : IsLiteralRun t) : ¬ IsStructuralToken t := by
  obtain ⟨b, tail, rfl, _, hs⟩ := literalRun_head t h
  rintro ⟨c, hc, heq⟩
  injection heq with h1 h2
  subst h1
  exact hs hc

theorem literalRun_not_escape (t : Bytes) (h : IsLiteralRun t) : ¬ IsEscapeToken t := by
  obtain ⟨b, tail, rfl, hb, _⟩ := literalRun_head t h
  rintro ⟨c, _, heq⟩
  injection heq with h1 h2
  exact hb h1

theorem literalRun_snoc (b : Bytes) (c : Nat) (hb : b = [] ∨ IsLiteralRun b) (hc : plain c) :
    IsLiteralRun (b ++ encodeRune c) := by
  rcases hb with rfl | ⟨cs, _, hp, rfl⟩
  · exact ⟨[c], by simp, by simpa using hc, by simp [encodeAll]⟩
  · refine ⟨cs ++ [c], by simp, ?_, by simp [encodeAll]⟩
    intro x hx
    rcases List.mem_append.mp hx with hx | hx
    · exact hp x hx
    · rw [List.mem_singleton.mp hx]
      exact hc

theorem endsInEscape_nil : ¬ EndsInEscape [] := by decide

theorem endsInEscape_append_backslash (p : List Nat) :
    EndsInEscape (p ++ [92]) ↔ ¬ EndsInEscape p := by
  unfold EndsInEscape
  simp only [List.reverse_append, List.reverse_cons, List.reverse_nil, List.nil_append,
    List.singleton_append]
  rw [List.takeWhile_cons_of_pos (by decide)]
  simp only [List.length_cons]
  omega

theorem endsInEscape_append_other (p : List Nat) (c : Nat) (h : c ≠ 92) :
    ¬ EndsInEscape (p ++ [c]) := by
  unfold EndsInEscape
  simp only [List.reverse_append, List.reverse_cons, List.reverse_nil, List.nil_append,
    List.singleton_append]
  rw [List.takeWhile_cons_of_neg (by simpa using h)]
  decide

theorem tokInv_init : TokInv [] { buffer := [], isEscaping := false, tokens := [] } := by
  refine ⟨rfl, ?_, Or.inl rfl, fun _ => rfl, List.chain'_nil, ?_, ?_⟩
  · intro t ht
    simp at ht
  · intro _ t ht
    simp at ht
  · simp [endsInEscape_nil]

theorem tokenizeStep_inv (p : List Nat) (st : TokState) (c : Nat) (hc : validRune c)
    (h : TokInv p st) : TokInv (p ++ [c]) (tokenizeStep st c) := by
  obtain ⟨h1, h2, h3, h4, h5, h6, h7⟩ := h
  have henc : encodeAll (p ++ [c]) = encodeAll p ++ encodeRune c := by
    rw [encodeAll_append, encodeAll_singleton]
  have hlast : ∀ (ts : List Bytes) (b : Bytes), ¬ IsLiteralRun b →
      ∀ t, (ts ++ [b]).getLast? = some t → ¬ IsLiteralRun t := by
    intro ts b hb t ht
    simp only [List.getLast?_append, List.getLast?_singleton, Option.or_some,
      Option.some.injEq] at ht
    rw [← ht]
    exact hb
  have hchain : ∀ (ts : List Bytes) (b : Bytes),
      List.Chain' (fun a b => ¬ (IsLiteralRun a ∧ IsLiteralRun b)) ts →
      (∀ t, ts.getLast? = some t → ¬ (IsLiteralRun t ∧ IsLiteralRun b)) →
      List.Chain' (fun a b => ¬ (IsLiteralRun a ∧ IsLiteralRun b)) (ts ++ [b]) := by
    intro ts b hts hb
    refine List.Chain'.append hts (List.chain'_singleton _) ?_
    intro x hx y hy
    simp only [List.head?_cons, Option.mem_def, Option.some.injEq] at hy
    subst hy
    exact hb x hx
  unfold tokenizeStep
  by_cases he : st.isEscaping = true
  · have hb := h4 he
    rw [if_pos he]
    rw [he, hb] at h1
    refine ⟨?_, ?_, Or.inl rfl, fun _ => rfl, ?_, ?_, ?_⟩
    · simp only [str_backslash, henc, ← h1]
      simp
    · intro t ht
      rcases List.mem_append.mp ht with ht | ht
      · exact h2 t ht
      · rw [List.mem_singleton.mp ht, str_backslash]
        exact Or.inr (Or.inl ⟨c, hc, rfl⟩)
    · refine hchain _ _ h5 ?_
      intro t _ hcon
      exact literalRun_not_escape _ hcon.2 ⟨c, hc, by rw [str_backslash]; rfl⟩
    · intro _
      refine hlast _ _ ?_
      intro hcon
      exact literalRun_not_escape _ hcon ⟨c, hc, by rw [str_backslash]; rfl⟩
    · have hp := h7.mp he
      constructor
      · intro hf
        simp at hf
      · intro hcon
        by_cases h92 : c = 92
        · subst h92
          exact absurd hp ((endsInEscape_append_backslash p).mp hcon)
        · exact absurd hcon (endsInEscape_append_other p c h92)
  · have hef : st.isEscaping = false := by simpa using he
    have hnp : ¬ EndsInEscape p := fun hp => he (h7.mpr hp)
    rw [if_neg he]
    rw [hef] at h1
    simp only [Bool.false_eq_true, if_false, List.append_nil] at h1
    by_cases h92 : c = 92
    · subst h92
      rw [if_pos rfl]
      have h92e : encodeRune 92 = [92] := by decide
      by_cases hbuf : st.buffer.length > 0
      · rw [if_pos hbuf]
        have hlit : IsLiteralRun st.buffer := by
          rcases h3 with h3 | h3
          · rw [h3] at hbuf
            exact absurd hbuf (by decide)
          · exact h3
        refine ⟨?_, ?_, Or.inl rfl, fun _ => rfl, ?_, ?_, ?_⟩
        · simp only [henc, ← h1, h92e]
          simp
        · intro t ht
          rcases List.mem_append.mp ht with ht | ht
          · exact h2 t ht
          · rw [List.mem_singleton.mp ht]
            exact Or.inr (Or.inr hlit)
        · refine hchain _ _ h5 ?_
          intro t ht hcon
          exact h6 hef t ht hcon.1
        · intro hf
          simp at hf
        · simp only [true_iff]
          exact (endsInEscape_append_backslash p).mpr hnp
      · rw [if_neg hbuf]
        have hnil : st.buffer = [] := by
          cases hx : st.buffer with
          | nil => rfl
          | cons a l =>
            rw [hx] at hbuf
            exact absurd (Nat.succ_pos _) hbuf
        refine ⟨?_, h2, h3, fun _ => hnil, h5, ?_, ?_⟩
        · simp only [henc, ← h1, h92e]
          simp
        · intro hf
          simp at hf
        · simp only [true_iff]
          exact (endsInEscape_append_backslash p).mpr hnp
    · rw [if_neg h92]
      have hno := endsInEscape_append_other p c h92
      by_cases hs : structural c
      · rw [if_pos ((strcontains_structural c).mpr hs), encodeRune_structural c hs]
        have hnl : ¬ IsLiteralRun [c] := fun hl =>
          literalRun_not_structural _ hl ⟨c, hs, rfl⟩
        by_cases hbuf : st.buffer.length > 0
        · rw [if_pos hbuf]
          have hlit : IsLiteralRun st.buffer := by
            rcases h3 with h3 | h3
            · rw [h3] at hbuf
              exact absurd hbuf (by decide)
            · exact h3
          refine ⟨?_, ?_, Or.inl rfl, fun _ => rfl, ?_, ?_, ?_⟩
          · simp only [henc, ← h1, encodeRune_structural c hs, hef]
            simp
          · intro t ht
            rcases List.mem_append.mp ht with ht | ht
            · rcases List.mem_append.mp ht with ht | ht
              · exact h2 t ht
              · rw [List.mem_singleton.mp ht]
                exact Or.inr (Or.inr hlit)
            · rw [List.mem_singleton.mp ht]
              exact Or.inl ⟨c, hs, rfl⟩
          · refine hchain _ _ (hchain _ _ h5 ?_) ?_
            · intro t ht hcon
              exact h6 hef t ht hcon.1
            · intro t _ hcon
              exact hnl hcon.2
          · intro _
            exact hlast _ _ hnl
          · simp only [hef, Bool.false_eq_true, false_iff]
            exact hno
        · rw [if_neg hbuf]
          have hnil : st.buffer = [] := by
            cases hx : st.buffer with
            | nil => rfl
            | cons a l =>
              rw [hx] at hbuf
              exact absurd (Nat.succ_pos _) hbuf
          refine ⟨?_, ?_, h3, h4, ?_, ?_, ?_⟩
          · simp only [henc, ← h1, encodeRune_structural c hs, hef, hnil]
            simp
          · intro t ht
            rcases List.mem_append.mp ht with ht | ht
            · exact h2 t ht
            · rw [List.mem_singleton.mp ht]
              exact Or.inl ⟨c, hs, rfl⟩
          · refine hchain _ _ h5 ?_
            intro t _ hcon
            exact hnl hcon.2
          · intro _
            exact hlast _ _ hnl
          · simp only [hef, Bool.false_eq_true, false_iff]
            exact hno
      · have hns : ¬ strcontains (str "()[]\x7b\x7d|.+*?") c = true := fun hx =>
          hs ((strcontains_structural c).mp hx)
        rw [if_neg hns]
        refine ⟨?_, h2, Or.inr (literalRun_snoc _ c h3 ⟨hc, h92, hs⟩), ?_, h5, h6, ?_⟩
        · simp only [henc, ← h1, hef]
          simp
        · intro hx
          exact absurd hx he
        · simp only [hef, Bool.false_eq_true, false_iff]
          exact hno

theorem tokenize_fold_inv :
    ∀ (cs : List Nat), (∀ c ∈ cs, validRune c) → ∀ (p : List Nat) (st : TokState),
      TokInv p st → TokInv (p ++ cs) (cs.foldl tokenizeStep st) := by
  intro cs
  induction cs with
  | nil =>
    intro _ p st h
    simpa using h
  | cons c cs ih =>
    intro hv p st h
    have := ih (fun x hx => hv x (List.mem_cons_of_mem _ hx)) (p ++ [c]) (tokenizeStep st c)
      (tokenizeStep_inv p st c (hv c (List.mem_cons_self _ _)) h)
    simpa using this

theorem tokenize_inv (pattern : Bytes) :
    TokInv (runes pattern)
      ((runes pattern).foldl tokenizeStep { buffer := [], isEscaping := false, tokens := [] }) := by
  have := tokenize_fold_inv (runes pattern) (runes_valid pattern) [] _ tokInv_init
  simpa using this

/-! ## The lexer: what the tokens cover, and a trailing backslash -/

theorem decodeRune_ascii (b : Nat) (rest : Bytes) (h : (decodeRune (b :: rest)).1 < 128) :
    decodeRune (b :: rest) = (b, 1) := by
  revert h
  unfold decodeRune
  rcases rest with _ | ⟨b1, _ | ⟨b2, _ | ⟨b3, rest⟩⟩⟩ <;>
    (simp only []; split_ifs <;> simp <;> omega)

theorem runes_eq_nil (s : Bytes) (h : runes s = []) : s = [] := by
  cases s with
  | nil => rfl
  | cons b rest =>
    rw [runes_cons] at h
    exact absurd h (List.cons_ne_nil _ _)

theorem endsInEscape_last (cs : List Nat) (h : EndsInEscape cs) : ∃ q, cs = q ++ [92] := by
  unfold EndsInEscape at h
  cases hr : cs.reverse with
  | nil =>
    rw [hr] at h
    simp at h
  | cons a l =>
    rw [hr] at h
    by_cases ha : a = 92
    · refine ⟨l.reverse, ?_⟩
      have := congrArg List.reverse hr
      rw [List.reverse_reverse] at this
      rw [this, ha]
      simp
    · rw [List.takeWhile_cons_of_neg (by simpa using ha)] at h
      simp at h

theorem runes_last_backslash (s : Bytes) (q : List Nat) (h : runes s = q ++ [92]) :
    ∃ p, s = p ++ [92] := by
  have key : ∀ (n : Nat) (s : Bytes) (q : List Nat), s.length ≤ n → runes s = q ++ [92] →
      ∃ p, s = p ++ [92] := by
    intro n
    induction n with
    | zero =>
      intro s q hn h
      have : s = [] := List.length_eq_zero.mp (Nat.le_zero.mp hn)
      subst this
      rw [runes_nil] at h
      exact absurd h.symm (by simp)
    | succ n ih =>
      intro s q hn h
      cases s with
      | nil =>
        rw [runes_nil] at h
        exact absurd h.symm (by simp)
      | cons b rest =>
        have hw := decodeRune_width b rest
        simp only [List.length_cons] at hw hn
        rw [runes_cons] at h
        cases q with
        | nil =>
          simp only [List.nil_append, List.cons.injEq] at h
          have hd := decodeRune_ascii b rest (by omega)
          rw [hd] at h
          simp only [List.drop_succ_cons, List.drop_zero] at h
          have hrest := runes_eq_nil rest h.2
          refine ⟨[], ?_⟩
          rw [hrest, h.1]
          rfl
        | cons q0 q1 =>
          simp only [List.cons_append, List.cons.injEq] at h
          obtain ⟨p1, hp1⟩ := ih _ q1
            (by simp only [List.length_drop, List.length_cons]; omega) h.2
          refine ⟨(b :: rest).take (decodeRune (b :: rest)).2 ++ p1, ?_⟩
          rw [List.append_assoc, ← hp1, List.take_append_drop]
  exact key s.length s q (Nat.le_refl _) h

theorem tokenize_append_backslash (p : Bytes) (h : ¬ EndsInEscape (runes p)) :
    tokenize (p ++ [92]) = tokenize p := by
  have hinv := tokenize_inv p
  obtain ⟨_, _, _, _, _, _, h7⟩ := hinv
  unfold tokenize
  rw [runes_append_backslash, List.foldl_append]
  simp only [List.foldl_cons, List.foldl_nil]
  generalize (runes p).foldl tokenizeStep { buffer := [], isEscaping := false, tokens := [] }
    = st at h7 ⊢
  have hef : st.isEscaping = false := by
    cases hx : st.isEscaping with
    | false => rfl
    | true => exact absurd (h7.mp hx) h
  unfold tokenizeStep
  simp only [hef, Bool.false_eq_true, if_false, if_true]
  by_cases hbuf : st.buffer.length > 0
  · simp [hbuf]
  · simp [hbuf]

/-- C18: the pattern made of the single byte 255, which is not valid UTF-8 and ends in no
escape, is tokenized into the three bytes of U+FFFD, so that the tokens do not spell the
pattern. -/
theorem tokenize_replaces_invalid_bytes :
    ¬ EndsInEscape (runes [255]) ∧ tokenize [255] = [[239, 191, 189]] ∧
    (tokenize [255]).flatten ≠ [255] := by
  decide

/-- C18, amended. For every pattern that does not end in an unterminated escape, the tokens
of `tokenize` concatenated in order spell the pattern with every byte that is not part of
valid UTF-8 replaced by U+FFFD, which is the pattern itself when it is valid UTF-8; every
token is non-empty and is one structural character, a backslash followed by one character, or
a run of plain characters; and no two literal runs are adjacent. -/
theorem tokenize_covers (pattern : Bytes) (h : ¬ EndsInEscape (runes pattern)) :
    (tokenize pattern).flatten = encodeAll (runes pattern) ∧
    (ValidUTF8 pattern → (tokenize pattern).flatten = pattern) ∧
    (∀ t ∈ tokenize pattern,
      t ≠ [] ∧ (IsStructuralToken t ∨ IsEscapeToken t ∨ IsLiteralRun t)) ∧
    List.Chain' (fun a b => ¬ (IsLiteralRun a ∧ IsLiteralRun b)) (tokenize pattern) := by
  have hinv := tokenize_inv pattern
  obtain ⟨h1, h2, h3, _, h5, h6, h7⟩ := hinv
  unfold tokenize
  generalize (runes pattern).foldl tokenizeStep
    { buffer := [], isEscaping := false, tokens := [] } = st at h1 h2 h3 h5 h6 h7 ⊢
  have hef : st.isEscaping = false := by
    cases hx : st.isEscaping with
    | false => rfl
    | true => exact absurd (h7.mp hx) h
  rw [hef] at h1
  simp only [Bool.false_eq_true, if_false, List.append_nil] at h1
  have hne : ∀ t, (IsStructuralToken t ∨ IsEscapeToken t ∨ IsLiteralRun t) → t ≠ [] := by
    rintro t (⟨c, _, rfl⟩ | ⟨c, _, rfl⟩ | hl)
    · exact List.cons_ne_nil _ _
    · exact List.cons_ne_nil _ _
    · exact literalRun_ne_nil t hl
  have hflat : (if st.buffer.length > 0 then st.tokens ++ [st.buffer] else st.tokens).flatten
      = encodeAll (runes pattern) := by
    by_cases hbuf : st.buffer.length > 0
    · rw [if_pos hbuf, ← h1]
      simp
    · rw [if_neg hbuf, ← h1]
      have hnil : st.buffer = [] := List.length_eq_zero.mp (by omega)
      rw [hnil]
      simp
  refine ⟨hflat, fun hv => hflat.trans hv, ?_, ?_⟩
  · by_cases hbuf : st.buffer.length > 0
    · rw [if_pos hbuf]
      have hlit : IsLiteralRun st.buffer := by
        rcases h3 with h3 | h3
        · rw [h3] at hbuf
          exact absurd hbuf (by decide)
        · exact h3
      intro t ht
      rcases List.mem_append.mp ht with ht | ht
      · exact ⟨hne t (h2 t ht), h2 t ht⟩
      · rw [List.mem_singleton.mp ht]
        exact ⟨literalRun_ne_nil _ hlit, Or.inr (Or.inr hlit)⟩
    · rw [if_neg hbuf]
      intro t ht
      exact ⟨hne t (h2 t ht), h2 t ht⟩
  · by_cases hbuf : st.buffer.length > 0
    · rw [if_pos hbuf]
      refine List.Chain'.append h5 (List.chain'_singleton _) ?_
      intro x hx y _ hcon
      exact h6 hef x hx hcon.1
    · rw [if_neg hbuf]
      exact h5

/-- C18, at a concrete pattern with literal runs, an escape, a group and a two-byte
character. -/
theorem tokenize_covers_witness :
    ¬ EndsInEscape (runes (str "ab\\d(cé|.)+")) ∧
    (tokenize (str "ab\\d(cé|.)+")).flatten = str "ab\\d(cé|.)+" :=
  ⟨by decide, (tokenize_covers (str "ab\\d(cé|.)+") (by decide)).2.1 (by decide)⟩

/-- C17: the pattern `a\` ends in an unterminated escape and is tokenized like `a`: the
backslash is dropped and nothing is reported. -/
theorem tokenize_drops_backslash_example :
    EndsInEscape (runes (str "a\\")) ∧ tokenize (str "a\\") = [str "a"] ∧
    tokenize (str "a\\") = tokenize (str "a") := by
  decide

/-- C17, amended. A pattern that ends in an unterminated escape is a pattern `p` followed by
a backslash; `tokenize` returns for it the tokens of `p`, the trailing backslash dropped, and
so the compilation gives what it gives for `p`: the same tree, a panic where `p` panics, and
never a failure of its own. -/
theorem tokenize_trailing_backslash (pattern : Bytes) (h : EndsInEscape (runes pattern)) :
    ∃ p, pattern = p ++ str "\\" ∧ ¬ EndsInEscape (runes p) ∧
      tokenize pattern = tokenize p ∧ cparse pattern = cparse p := by
  obtain ⟨q, hq⟩ := endsInEscape_last _ h
  obtain ⟨p, hp⟩ := runes_last_backslash pattern q hq
  have hrp : runes p = q := by
    rw [hp, runes_append_backslash] at hq
    exact List.append_cancel_right hq
  have hnp : ¬ EndsInEscape (runes p) := by
    rw [hq, endsInEscape_append_backslash] at h
    rw [hrp]
    exact h
  have ht : tokenize pattern = tokenize p := by
    rw [hp]
    exact tokenize_append_backslash p hnp
  refine ⟨p, by rw [hp, str_backslash], hnp, ht, ?_⟩
  unfold cparse
  rw [ht]

/-- C17, at the pattern `ab\`. -/
theorem tokenize_trailing_backslash_witness :
    ∃ p, str "ab\\" = p ++ str "\\" ∧ ¬ EndsInEscape (runes p) ∧
      tokenize (str "ab\\") = tokenize p ∧ cparse (str "ab\\") = cparse p :=
  tokenize_trailing_backslash (str "ab\\") (by decide)

/-! ## The parser on a literal run with a quantifier -/

theorem literalRun_ne_structural (t : Bytes) (h : IsLiteralRun t) (c : Nat)
    (hc : structural c) : t ≠ [c] := fun heq =>
  literalRun_not_structural t h ⟨c, hc, heq⟩

theorem str_lparen : str "(" = [40] := by decide
theorem str_rparen : str ")" = [41] := by decide
theorem str_lbracket : str "[" = [91] := by decide
theorem str_rbracket : str "]" = [93] := by decide
theorem str_lbrace : str "\x7b" = [123] := by decide
theorem str_rbrace : str "\x7d" = [125] := by decide
theorem str_pipe : str "|" = [124] := by decide
theorem str_dot : str "." = [46] := by decide
theorem str_plus : str "+" = [43] := by decide
theorem str_star : str "*" = [42] := by decide
theorem str_question : str "?" = [63] := by decide
theorem str_empty : str "" = [] := by decide

theorem splitSingular_literalRun (t : Bytes) (h : IsLiteralRun t) :
    splitSingular t = Run.ok (atom t) := by
  obtain ⟨b, tail, rfl, hb, _⟩ := literalRun_head t h
  exact splitSingular_literal _ b tail rfl
    (by rw [str_dot]; exact literalRun_ne_structural _ h 46 (by decide)) hb

theorem separens_counted (L B : Bytes) (hB : IsLiteralRun B) :
    separens [L, [123], B, [125]] [123] [125] = Run.ok ([L], [[123], B, [125]]) := by
  have hB1 := literalRun_ne_structural B hB 123 (by decide)
  have hB2 := literalRun_ne_structural B hB 125 (by decide)
  simp [separens, deparens, deparensLoop, index, slice, hB1, hB2]

theorem splitRegex_single (fuel : Nat) (L : Bytes) (hL : IsLiteralRun L) :
    splitRegex (fuel + 1) [L] = Run.ok ([], atom L) := by
  rw [splitRegex]
  simp [index, splitSingular_literalRun L hL]

theorem splitRegex_counted (fuel : Nat) (L B : Bytes) (hL : IsLiteralRun L)
    (hB : IsLiteralRun B) (hc : strcontains B 44 = false) :
    splitRegex (fuel + 2) [L, [123], B, [125]] = Run.ok ([], repeat_ (atom L) (Atoi B)) := by
  rw [splitRegex]
  have hidx : index [L, [123], B, [125]] ([L, [123], B, [125]].length - 1) = Run.ok [125] := rfl
  rw [hidx]
  simp only [ok_bind, str_rparen, str_rbrace, str_lbrace, separens_counted L B hB,
    splitRegex_single fuel L hL]
  simp [index, hc]

theorem tparse_counted (L B : Bytes) (hL : IsLiteralRun L) (hB : IsLiteralRun B)
    (hc : strcontains B 44 = false) :
    tparse [L, str "\x7b", B, str "\x7d"] = Run.ok (repeat_ (atom L) (Atoi B)) := by
  rw [str_lbrace, str_rbrace]
  show splitConcatenation (8 + 2) _ = _
  rw [splitConcatenation, if_neg (by simp)]
  rw [splitConcatenationLoop, if_pos (by simp), splitRegex_counted 6 L B hL hB hc]
  simp only [ok_bind]
  rw [splitConcatenationLoop, if_neg (by simp)]
  rfl

theorem strSplitLoop_ascii (up : Bytes) (splitter : Nat) :
    ∀ (lo pre : Bytes) (fuel : Nat) (buffer : Bytes),
      (∀ b ∈ lo, b < 128 ∧ b ≠ splitter) → splitter < 128 →
      (lo ++ splitter :: up).length ≤ fuel →
      strSplitLoop (pre ++ lo ++ splitter :: up) splitter
        (runesFrom fuel pre.length (lo ++ splitter :: up)) buffer = Run.ok (pre ++ lo, up) := by
  intro lo
  induction lo with
  | nil =>
    intro pre fuel buffer _ hs hf
    obtain ⟨f, rfl⟩ : ∃ f, fuel = f + 1 := ⟨fuel - 1, by simp at hf; omega⟩
    have hd : decodeRune (splitter :: up) = (splitter, 1) := by simp [decodeRune, hs]
    simp only [List.nil_append, runesFrom, hd, strSplitLoop, if_true, List.append_nil]
    rw [slice_of_le _ _ _ (Nat.zero_le _) (by simp),
      slice_to_end _ _ (by simp)]
    simp
  | cons b lo ih =>
    intro pre fuel buffer hlo hs hf
    obtain ⟨f, rfl⟩ : ∃ f, fuel = f + 1 := ⟨fuel - 1, by simp at hf; omega⟩
    have hb := hlo b (List.mem_cons_self _ _)
    have hd : decodeRune (b :: (lo ++ splitter :: up)) = (b, 1) := by simp [decodeRune, hb.1]
    simp only [List.cons_append]
    simp only [runesFrom, strSplitLoop]
    rw [hd]
    simp only [if_neg hb.2, List.drop_succ_cons, List.drop_zero]
    have := ih (pre ++ [b]) f (buffer ++ encodeRune b)
      (fun x hx => hlo x (List.mem_cons_of_mem _ hx)) hs
      (by simp only [List.length_cons, List.cons_append] at hf; omega)
    simpa using this

theorem strSplit_ascii (lo up : Bytes) (splitter : Nat)
    (hlo : ∀ b ∈ lo, b < 128 ∧ b ≠ splitter) (hs : splitter < 128) :
    strSplit (lo ++ splitter :: up) splitter = Run.ok (lo, up) := by
  have := strSplitLoop_ascii up splitter lo [] (lo ++ splitter :: up).length [] hlo hs
    (Nat.le_refl _)
  simpa [strSplit] using this

theorem splitRegex_ranged (fuel : Nat) (L lo up : Bytes) (hL : IsLiteralRun L)
    (hB : IsLiteralRun (lo ++ 44 :: up)) (hlo : ∀ b ∈ lo, b < 128 ∧ b ≠ 44)
    (hc : strcontains (lo ++ 44 :: up) 44 = true) :
    splitRegex (fuel + 2) [L, [123], lo ++ 44 :: up, [125]] =
      Run.ok ([], rangeRepeat (atom L) (Atoi lo) (if up = [] then -1 else Atoi up)) := by
  rw [splitRegex]
  have hidx : index [L, [123], lo ++ 44 :: up, [125]]
      ([L, [123], lo ++ 44 :: up, [125]].length - 1) = Run.ok [125] := rfl
  rw [hidx]
  simp only [ok_bind, str_rparen, str_rbrace, str_lbrace, separens_counted L _ hB,
    splitRegex_single fuel L hL]
  have hidx1 : index [[123], lo ++ 44 :: up, [125]] 1 = Run.ok (lo ++ 44 :: up) := rfl
  simp [hidx1, hc, strSplit_ascii lo up 44 hlo (by decide), str_empty]

theorem tparse_ranged (L lo up : Bytes) (hL : IsLiteralRun L)
    (hB : IsLiteralRun (lo ++ 44 :: up)) (hlo : ∀ b ∈ lo, b < 128 ∧ b ≠ 44)
    (hc : strcontains (lo ++ 44 :: up) 44 = true) :
    tparse [L, str "\x7b", lo ++ 44 :: up, str "\x7d"] =
      Run.ok (rangeRepeat (atom L) (Atoi lo) (if up = [] then -1 else Atoi up)) := by
  rw [str_lbrace, str_rbrace]
  show splitConcatenation (8 + 2) _ = _
  rw [splitConcatenation, if_neg (by simp)]
  rw [splitConcatenationLoop, if_pos (by simp), splitRegex_ranged 6 L lo up hL hB hlo hc]
  simp only [ok_bind]
  rw [splitConcatenationLoop, if_neg (by simp)]
  rfl

/-! ## Decimal numerals and Atoi -/

theorem decimalAux_spec :
    ∀ (fuel n : Nat) (acc : Bytes), n < fuel →
      ∃ pre : Bytes, decimalAux fuel n acc = pre ++ acc ∧ pre ≠ [] ∧
        (∀ b ∈ pre, 48 ≤ b ∧ b ≤ 57) ∧
        pre.foldl (fun n ch => n * 10 + (ch - 48)) 0 = n := by
  intro fuel
  induction fuel with
  | zero => intro n acc h; omega
  | succ fuel ih =>
    intro n acc h
    unfold decimalAux
    by_cases h10 : n < 10
    · rw [if_pos h10]
      refine ⟨[48 + n], rfl, by simp, ?_, ?_⟩
      · intro b hb
        rw [List.mem_singleton.mp hb]
        omega
      · simp
    · rw [if_neg h10]
      obtain ⟨pre, hpre, _, hdig, hval⟩ := ih (n / 10) ((48 + n % 10) :: acc) (by omega)
      refine ⟨pre ++ [48 + n % 10], by rw [hpre]; simp, by simp, ?_, ?_⟩
      · intro b hb
        rcases List.mem_append.mp hb with hb | hb
        · exact hdig b hb
        · rw [List.mem_singleton.mp hb]
          omega
      · rw [List.foldl_append, hval]
        simp only [List.foldl_cons, List.foldl_nil]
        omega

theorem decimal_spec (n : Nat) :
    decimal n ≠ [] ∧ (∀ b ∈ decimal n, 48 ≤ b ∧ b ≤ 57) ∧
      (decimal n).foldl (fun n ch => n * 10 + (ch - 48)) 0 = n := by
  obtain ⟨pre, hpre, hne, hdig, hval⟩ := decimalAux_spec (n + 1) n [] (Nat.lt_succ_self n)
  have : decimal n = pre := by
    unfold decimal
    rw [hpre, List.append_nil]
  rw [this]
  exact ⟨hne, hdig, hval⟩

theorem foldl_digits_ge : ∀ (ds : Bytes) (n : Nat),
    n ≤ ds.foldl (fun n ch => n * 10 + (ch - 48)) n := by
  intro ds
  induction ds with
  | nil => intro n; exact Nat.le_refl _
  | cons c ds ih =>
    intro n
    rw [List.foldl_cons]
    have := ih (n * 10 + (c - 48))
    omega

theorem ParseUintLoop_digits (tail : Bytes) :
    ∀ (ds : Bytes) (n : Nat), (∀ b ∈ ds, 48 ≤ b ∧ b ≤ 57) → n < 2 ^ 64 →
      ParseUintLoop (ds ++ tail) n =
        if ds.foldl (fun n ch => n * 10 + (ch - 48)) n < 2 ^ 64
        then ParseUintLoop tail (ds.foldl (fun n ch => n * 10 + (ch - 48)) n)
        else some (2 ^ 64 - 1) := by
  intro ds
  induction ds with
  | nil =>
    intro n _ hn
    simp only [List.nil_append, List.foldl_nil, if_pos hn]
  | cons c ds ih =>
    intro n hdig hn
    have hc := hdig c (List.mem_cons_self _ _)
    have hge := foldl_digits_ge ds (n * 10 + (c - 48))
    rw [List.cons_append, ParseUintLoop, if_pos hc, List.foldl_cons]
    by_cases h1 : n ≥ 1844674407370955162
    · rw [if_pos h1, if_neg (by omega)]
    · rw [if_neg h1]
      by_cases h2 : n * 10 + (c - 48) > 2 ^ 64 - 1
      · rw [if_pos h2, if_neg (by omega)]
      · rw [if_neg h2]
        exact ih _ (fun b hb => hdig b (List.mem_cons_of_mem _ hb)) (by omega)

theorem Atoi_digits (ds : Bytes) (hne : ds ≠ []) (hdig : ∀ b ∈ ds, 48 ≤ b ∧ b ≤ 57) :
    Atoi ds =
      if ds.foldl (fun n ch => n * 10 + (ch - 48)) 0 ≥ 2 ^ 63 then (2 ^ 63 - 1 : Int)
      else ((ds.foldl (fun n ch => n * 10 + (ch - 48)) 0 : Nat) : Int) := by
  have hloop := ParseUintLoop_digits [] ds 0 hdig (by decide)
  rw [List.append_nil] at hloop
  cases ds with
  | nil => exact absurd rfl hne
  | cons d ds =>
    have hd := hdig d (List.mem_cons_self _ _)
    have h45 : ¬ (d = 45) := by omega
    have h43 : ¬ (d = 43) := by omega
    unfold Atoi ParseUint
    simp only [List.head?_cons, Option.some.injEq, h45, h43, or_self, if_false,
      decide_False, Bool.false_eq_true, if_neg (List.cons_ne_nil d ds), hloop]
    by_cases hv : (d :: ds).foldl (fun n ch => n * 10 + (ch - 48)) 0 < 2 ^ 64
    · rw [if_pos hv]
      simp only [ParseUintLoop]
    · rw [if_neg hv]
      simp only []
      rw [if_pos (by omega), if_pos (by omega)]

theorem Atoi_decimal (n : Nat) :
    Atoi (decimal n) = if n ≥ 2 ^ 63 then (2 ^ 63 - 1 : Int) else (n : Int) := by
  obtain ⟨hne, hdig, hval⟩ := decimal_spec n
  rw [Atoi_digits _ hne hdig, hval]

theorem Atoi_decimal_small (n : Nat) (h : n < 2 ^ 63) : Atoi (decimal n) = (n : Int) := by
  rw [Atoi_decimal, if_neg (by omega)]

theorem encodeAll_ascii : ∀ (t : Bytes), (∀ b ∈ t, b < 128) → encodeAll t = t := by
  intro t
  induction t with
  | nil => intro _; rfl
  | cons b t ih =>
    intro h
    have hb := h b (List.mem_cons_self _ _)
    rw [encodeAll_cons, ih (fun x hx => h x (List.mem_cons_of_mem _ hx))]
    simp [encodeRune, hb]

theorem literalRun_ascii (t : Bytes) (hne : t ≠ [])
    (h : ∀ b ∈ t, b < 128 ∧ b ≠ 92 ∧ ¬ structural b) : IsLiteralRun t := by
  refine ⟨t, hne, ?_, (encodeAll_ascii t (fun b hb => (h b hb).1)).symm⟩
  intro c hc
  have := h c hc
  exact ⟨⟨by omega, by omega⟩, this.2.1, this.2.2⟩

theorem runes_ascii (t : Bytes) (h : ∀ b ∈ t, b < 128) : runes t = t := by
  have hv : ∀ c ∈ t, validRune c := by
    intro c hc
    have := h c hc
    exact ⟨by omega, by omega⟩
  have := runes_encodeAll t hv
  rwa [encodeAll_ascii t h] at this

theorem strcontains_ascii (t : Bytes) (e : Nat) (h : ∀ b ∈ t, b < 128) (he : e ∉ t) :
    strcontains t e = false := by
  unfold strcontains
  rw [runes_ascii t h]
  rw [Bool.eq_false_iff]
  intro hany
  rw [List.any_eq_true] at hany
  obtain ⟨x, hx, hxe⟩ := hany
  rw [beq_iff_eq] at hxe
  exact he (hxe ▸ hx)

theorem digit_plain (b : Nat) (h : 48 ≤ b ∧ b ≤ 57) : b < 128 ∧ b ≠ 92 ∧ ¬ structural b := by
  refine ⟨by omega, by omega, ?_⟩
  unfold structural
  simp only [List.mem_cons, List.mem_singleton, List.not_mem_nil, or_false]
  omega

theorem literalRun_decimal (n : Nat) : IsLiteralRun (decimal n) := by
  obtain ⟨hne, hdig, _⟩ := decimal_spec n
  exact literalRun_ascii _ hne (fun b hb => digit_plain b (hdig b hb))

theorem strcontains_decimal (n : Nat) : strcontains (decimal n) 44 = false := by
  obtain ⟨_, hdig, _⟩ := decimal_spec n
  refine strcontains_ascii _ _ (fun b hb => (digit_plain b (hdig b hb)).1) ?_
  intro h44
  have := hdig 44 h44
  omega

theorem literalRun_bounds (lo up : Bytes) (hlo : ∀ b ∈ lo, 48 ≤ b ∧ b ≤ 57)
    (hup : ∀ b ∈ up, 48 ≤ b ∧ b ≤ 57) :
    IsLiteralRun (lo ++ 44 :: up) ∧ strcontains (lo ++ 44 :: up) 44 = true := by
  have hplain : ∀ b ∈ lo ++ 44 :: up, b < 128 ∧ b ≠ 92 ∧ ¬ structural b := by
    intro b hb
    rcases List.mem_append.mp hb with hb | hb
    · exact digit_plain b (hlo b hb)
    · rcases List.mem_cons.mp hb with hb | hb
      · rw [hb]
        decide
      · exact digit_plain b (hup b hb)
  refine ⟨literalRun_ascii _ (by simp) hplain, ?_⟩
  unfold strcontains
  rw [runes_ascii _ (fun b hb => (hplain b hb).1), List.any_eq_true]
  exact ⟨44, by simp, by simp⟩

/-! ## The lexer on literal runs and structural characters -/

theorem tokenize_fold_plain :
    ∀ (cs : List Nat), (∀ c ∈ cs, plain c) → ∀ (buf : Bytes) (ts : List Bytes),
      cs.foldl tokenizeStep { buffer := buf, isEscaping := false, tokens := ts } =
        { buffer := buf ++ encodeAll cs, isEscaping := false, tokens := ts } := by
  intro cs
  induction cs with
  | nil =>
    intro _ buf ts
    simp [encodeAll]
  | cons c cs ih =>
    intro h buf ts
    have hc := h c (List.mem_cons_self _ _)
    have hns : ¬ strcontains (str "()[]\x7b\x7d|.+*?") c = true := fun hx =>
      hc.2.2 ((strcontains_structural c).mp hx)
    have hstep : tokenizeStep { buffer := buf, isEscaping := false, tokens := ts } c =
        { buffer := buf ++ encodeRune c, isEscaping := false, tokens := ts } := by
      unfold tokenizeStep
      simp only [Bool.false_eq_true, if_false, if_neg hc.2.1, if_neg hns]
    rw [List.foldl_cons, hstep, ih (fun x hx => h x (List.mem_cons_of_mem _ hx)),
      encodeAll_cons, List.append_assoc]

theorem tokenizeStep_structural (buf : Bytes) (ts : List Bytes) (c : Nat) (hc : structural c) :
    tokenizeStep { buffer := buf, isEscaping := false, tokens := ts } c =
      { buffer := [], isEscaping := false,
        tokens := if buf = [] then ts ++ [[c]] else ts ++ [buf] ++ [[c]] } := by
  have h92 := (structural_lt c hc).2
  unfold tokenizeStep
  simp only [Bool.false_eq_true, if_false, if_neg h92,
    if_pos ((strcontains_structural c).mpr hc), encodeRune_structural c hc]
  cases buf with
  | nil => simp
  | cons b buf => simp

theorem literalRun_runes (L : Bytes) (h : IsLiteralRun L) :
    ∃ cs : List Nat, cs ≠ [] ∧ (∀ c ∈ cs, plain c) ∧ L = encodeAll cs ∧
      ∀ rest, runes (L ++ rest) = cs ++ runes rest := by
  obtain ⟨cs, hne, hp, rfl⟩ := h
  exact ⟨cs, hne, hp, rfl, fun rest =>
    runes_encodeAll_append rest cs (fun c hc => (hp c hc).1)⟩

theorem runes_structural_cons (c : Nat) (hc : structural c) (rest : Bytes) :
    runes (c :: rest) = c :: runes rest := by
  have hlt := (structural_lt c hc).1
  have := runes_encodeAll_append rest [c] (by
    intro x hx
    rw [List.mem_singleton.mp hx]
    exact ⟨by omega, by omega⟩)
  rwa [encodeAll_singleton, encodeRune_structural c hc] at this

theorem tokenize_counted (L B : Bytes) (hL : IsLiteralRun L) (hB : IsLiteralRun B) :
    tokenize (L ++ str "\x7b" ++ B ++ str "\x7d") = [L, str "\x7b", B, str "\x7d"] := by
  obtain ⟨cs, _, hcs, hLe, hLr⟩ := literalRun_runes L hL
  obtain ⟨bs, _, hbs, hBe, hBr⟩ := literalRun_runes B hB
  have hLn := literalRun_ne_nil L hL
  have hBn := literalRun_ne_nil B hB
  rw [str_lbrace, str_rbrace]
  have hr : runes (L ++ [123] ++ B ++ [125]) = cs ++ 123 :: (bs ++ [125]) := by
    rw [List.append_assoc, List.append_assoc, hLr, List.singleton_append,
      runes_structural_cons 123 (by decide), hBr, List.singleton_append.symm,
      runes_structural_cons 125 (by decide), runes_nil]
    rfl
  unfold tokenize
  rw [hr, List.foldl_append, tokenize_fold_plain cs hcs, List.foldl_cons,
    tokenizeStep_structural _ _ 123 (by decide), List.foldl_append,
    tokenize_fold_plain bs hbs, List.foldl_cons, tokenizeStep_structural _ _ 125 (by decide)]
  simp only [List.nil_append, ← hLe, ← hBe, if_neg hLn, if_neg hBn, List.foldl_nil]
  simp

theorem tokenize_empty_bound (L : Bytes) (hL : IsLiteralRun L) :
    tokenize (L ++ str "\x7b\x7d") = [L, str "\x7b", str "\x7d"] := by
  obtain ⟨cs, _, hcs, hLe, hLr⟩ := literalRun_runes L hL
  have hLn := literalRun_ne_nil L hL
  have hs : str "\x7b\x7d" = [123, 125] := by decide
  rw [str_lbrace, str_rbrace, hs]
  have hr : runes (L ++ [123, 125]) = cs ++ [123, 125] := by
    rw [hLr, runes_structural_cons 123 (by decide), runes_structural_cons 125 (by decide),
      runes_nil]
  unfold tokenize
  rw [hr, List.foldl_append, tokenize_fold_plain cs hcs, List.foldl_cons,
    tokenizeStep_structural _ _ 123 (by decide), List.foldl_cons,
    tokenizeStep_structural _ _ 125 (by decide)]
  simp only [List.nil_append, ← hLe, if_neg hLn, List.foldl_nil]
  simp

theorem tokenize_closer (L : Bytes) (hL : IsLiteralRun L) :
    tokenize (L ++ str ")") = [L, str ")"] := by
  obtain ⟨cs, _, hcs, hLe, hLr⟩ := literalRun_runes L hL
  have hLn := literalRun_ne_nil L hL
  rw [str_rparen]
  have hr : runes (L ++ [41]) = cs ++ [41] := by
    rw [hLr, runes_structural_cons 41 (by decide), runes_nil]
  unfold tokenize
  rw [hr, List.foldl_append, tokenize_fold_plain cs hcs, List.foldl_cons,
    tokenizeStep_structural _ _ 41 (by decide)]
  simp only [List.nil_append, ← hLe, if_neg hLn, List.foldl_nil]
  simp

theorem tokenize_opener (L : Bytes) (hL : IsLiteralRun L) :
    tokenize (str "(" ++ L) = [str "(", L] := by
  obtain ⟨cs, _, hcs, hLe, hLr⟩ := literalRun_runes L hL
  have hLn := literalRun_ne_nil L hL
  rw [str_lparen]
  have hr : runes ([40] ++ L) = 40 :: cs := by
    have := hLr []
    rw [List.append_nil, runes_nil, List.append_nil] at this
    rw [List.singleton_append, runes_structural_cons 40 (by decide), this]
  unfold tokenize
  rw [hr, List.foldl_cons, tokenizeStep_structural _ _ 40 (by decide), if_pos rfl,
    tokenize_fold_plain cs hcs]
  simp only [List.nil_append, ← hLe]
  have : L.length > 0 := List.length_pos.mpr hLn
  simp [this]

/-! ## Repetitions of an atom -/

theorem repeated_zero (L : Bytes) : repeated L 0 = [] := rfl

theorem repeated_succ (L : Bytes) (n : Nat) : repeated L (n + 1) = L ++ repeated L n := by
  simp [repeated, List.replicate_succ]

theorem slice_rest (cov rest : Bytes) :
    slice (cov ++ rest) cov.length (cov ++ rest).length = Run.ok rest := by
  rw [slice_to_end _ _ (by simp), List.drop_left]

theorem repeatLoop_atom (L : Bytes) :
    ∀ (k : Nat) (cov rest : Bytes),
      repeatLoop (atom L) (cov ++ rest) k cov [] =
        Run.ok (if repeated L k <+: rest then result true [] (cov ++ repeated L k)
          else failure) := by
  intro k
  induction k with
  | zero =>
    intro cov rest
    simp [repeatLoop, repeated_zero]
  | succ k ih =>
    intro cov rest
    rw [repeatLoop, slice_rest, ok_bind, atom_eq, ok_bind]
    by_cases hp : L <+: rest
    · obtain ⟨rest1, rfl⟩ := hp
      rw [if_pos (List.prefix_append _ _)]
      have hin : cov ++ (L ++ rest1) = (cov ++ L) ++ rest1 := by simp
      simp only [result, Bool.not_true, Bool.false_eq_true, if_false, List.append_nil]
      rw [hin, ih (cov ++ L) rest1, repeated_succ]
      simp [result, List.prefix_append_right_inj]
    · rw [if_neg hp]
      have hnp : ¬ repeated L (k + 1) <+: rest := by
        intro h
        rw [repeated_succ] at h
        exact hp ((List.prefix_append _ _).trans h)
      rw [if_neg hnp]
      rfl

theorem repeat_atom (L : Bytes) (n : Nat) (input : Bytes) :
    repeat_ (atom L) (n : Int) input = Run.ok (specFixedRepeat L n input) := by
  have := repeatLoop_atom L n [] input
  simpa [repeat_, specFixedRepeat] using this

theorem greedyCount_le (L : Bytes) : ∀ (a : Nat) (input : Bytes), greedyCount L a input ≤ a := by
  intro a
  induction a with
  | zero => intro input; simp [greedyCount]
  | succ a ih =>
    intro input
    unfold greedyCount
    split_ifs
    · have := ih (input.drop L.length)
      omega
    · omega

theorem greedyCount_letters : ∀ (a k : Nat),
    greedyCount [97] a (List.replicate k 97) = min a k := by
  intro a
  induction a with
  | zero => intro k; simp [greedyCount]
  | succ a ih =>
    intro k
    unfold greedyCount
    cases k with
    | zero => simp
    | succ k =>
      have hp : [97] <+: List.replicate (k + 1) 97 := by
        rw [List.replicate_succ]
        exact ⟨List.replicate k 97, rfl⟩
      rw [if_pos hp]
      simp only [List.replicate_succ, List.length_singleton, List.drop_succ_cons, List.drop_zero]
      rw [ih k]
      omega

theorem repeated_letters (k : Nat) : repeated [97] k = List.replicate k 97 := by
  induction k with
  | zero => rfl
  | succ k ih => rw [repeated_succ, ih, List.replicate_succ]; rfl

theorem rangeRepeatLoop_atom (L : Bytes) :
    ∀ (reps : Nat) (cov rest : Bytes) (done : Nat),
      rangeRepeatLoop (atom L) (cov ++ rest) reps cov [] done =
        Run.ok (cov ++ repeated L (greedyCount L reps rest), [],
          done + greedyCount L reps rest) := by
  intro reps
  induction reps with
  | zero =>
    intro cov rest done
    simp [rangeRepeatLoop, greedyCount, repeated_zero]
  | succ reps ih =>
    intro cov rest done
    rw [rangeRepeatLoop, slice_rest, ok_bind, atom_eq, ok_bind]
    by_cases hp : L <+: rest
    · have hg : greedyCount L (reps + 1) rest = greedyCount L reps (rest.drop L.length) + 1 := by
        rw [greedyCount, if_pos hp]
      obtain ⟨rest1, rfl⟩ := hp
      rw [if_pos (List.prefix_append _ _)]
      have hin : cov ++ (L ++ rest1) = (cov ++ L) ++ rest1 := by simp
      simp only [result, Bool.not_true, Bool.false_eq_true, if_false, List.append_nil]
      rw [hin, ih (cov ++ L) rest1, hg, List.drop_left, repeated_succ]
      simp only [List.append_assoc]
      congr 3
      omega
    · have hg : greedyCount L (reps + 1) rest = 0 := by
        rw [greedyCount, if_neg hp]
      rw [if_neg hp, hg]
      simp [failure, result, repeated_zero]

theorem rangeRepeat_atom (L : Bytes) (l u : Nat) (input : Bytes) :
    rangeRepeat (atom L) (l : Int) (u : Int) input =
      Run.ok (specBoundedRepeat L l (some u) input) := by
  have hloop := rangeRepeatLoop_atom L u [] input 0
  simp only [List.nil_append, Nat.zero_add] at hloop
  have hne : ¬ ((u : Int) = -1) := by omega
  have hle := greedyCount_le L u input
  simp only [rangeRepeat, hne, if_false, Int.toNat_ofNat, hloop, ok_bind, false_or,
    specBoundedRepeat, Option.getD_some]
  by_cases hl : l ≤ greedyCount L u input
  · have : ((greedyCount L u input : Nat) : Int) ≥ (l : Int) ∧
        ((greedyCount L u input : Nat) : Int) ≤ (u : Int) := by omega
    rw [if_pos this, if_pos hl]
    rfl
  · have : ¬ (((greedyCount L u input : Nat) : Int) ≥ (l : Int) ∧
        ((greedyCount L u input : Nat) : Int) ≤ (u : Int)) := by omega
    rw [if_neg this, if_neg hl]
    rfl

theorem rangeRepeat_atom_unbounded (L : Bytes) (l : Nat) (input : Bytes) :
    rangeRepeat (atom L) (l : Int) (-1) input =
      Run.ok (specBoundedRepeat L l none input) := by
  have hloop := rangeRepeatLoop_atom L input.length [] input 0
  simp only [List.nil_append, Nat.zero_add] at hloop
  simp only [rangeRepeat, if_true, Int.toNat_ofNat, hloop, ok_bind, true_or, and_true,
    specBoundedRepeat, Option.getD_none]
  by_cases hl : l ≤ greedyCount L input.length input
  · have : ((greedyCount L input.length input : Nat) : Int) ≥ (l : Int) := by omega
    rw [if_pos this, if_pos hl]
    rfl
  · have : ¬ (((greedyCount L input.length input : Nat) : Int) ≥ (l : Int)) := by omega
    rw [if_neg this, if_neg hl]
    rfl

/-! ## Compiling quantifiers and unbalanced groups -/

theorem rootOn_of_cparse (pattern text : Bytes) (c : consumer)
    (h : cparse pattern = Run.ok c) : rootOn pattern text = c text := by
  unfold rootOn Parse
  rw [h]
  rfl

theorem cparse_counted (L B : Bytes) (hL : IsLiteralRun L) (hB : IsLiteralRun B)
    (hc : strcontains B 44 = false) :
    cparse (L ++ str "\x7b" ++ B ++ str "\x7d") = Run.ok (repeat_ (atom L) (Atoi B)) := by
  unfold cparse
  rw [tokenize_counted L B hL hB, tparse_counted L B hL hB hc]

theorem cparse_ranged (L lo up : Bytes) (hL : IsLiteralRun L)
    (hlo : ∀ b ∈ lo, 48 ≤ b ∧ b ≤ 57) (hup : ∀ b ∈ up, 48 ≤ b ∧ b ≤ 57) :
    cparse (L ++ str "\x7b" ++ (lo ++ 44 :: up) ++ str "\x7d") =
      Run.ok (rangeRepeat (atom L) (Atoi lo) (if up = [] then -1 else Atoi up)) := by
  obtain ⟨hB, hc⟩ := literalRun_bounds lo up hlo hup
  unfold cparse
  rw [tokenize_counted L _ hL hB, tparse_ranged L lo up hL hB
    (fun b hb => by have := hlo b hb; omega) hc]

theorem tparse_closer (L : Bytes) (hL : IsLiteralRun L) :
    tparse [L, str ")"] = Run.ok (capture (atom (str ""))) := by
  have hL1 := literalRun_ne_structural L hL 40 (by decide)
  have hL2 := literalRun_ne_structural L hL 41 (by decide)
  rw [str_rparen]
  show splitConcatenation (4 + 2) _ = _
  rw [splitConcatenation, if_neg (by simp), splitConcatenationLoop, if_pos (by simp), splitRegex]
  have hidx : index [L, [41]] ([L, [41]].length - 1) = Run.ok [41] := rfl
  have hsep : separens [L, [41]] [40] [41] = Run.ok ([], [L, [41]]) := by
    simp [separens, deparens, deparensLoop, index, slice, hL1, hL2]
  have hpc : parencontains [L, [41]] (str "|") = false := by
    simp [parencontains, parencontainsLoop, str_lparen, str_rparen, hL1, hL2]
  rw [hidx]
  simp only [ok_bind, str_rparen, str_lparen, hsep, hpc]
  simp [slice, splitConcatenation, splitConcatenationLoop, index]

theorem tparse_opener (L : Bytes) (hL : IsLiteralRun L) :
    tparse [str "(", L] = Run.ok (concat [atom (str "("), atom L]) := by
  have hs : ∀ c, structural c → L ≠ [c] := fun c hc => literalRun_ne_structural L hL c hc
  have hsL := splitSingular_literalRun L hL
  have hsP : splitSingular [40] = Run.ok (atom [40]) := rfl
  rw [str_lparen]
  show splitConcatenation (4 + 2) _ = _
  rw [splitConcatenation, if_neg (by simp), splitConcatenationLoop, if_pos (by simp), splitRegex]
  have hidx : index [[40], L] ([[40], L].length - 1) = Run.ok L := rfl
  rw [hidx]
  simp only [ok_bind, str_rparen, str_rbrace, str_rbracket, str_star, str_plus, str_question,
    hs 41 (by decide), hs 125 (by decide), hs 93 (by decide), hs 42 (by decide),
    hs 43 (by decide), hs 63 (by decide), if_false, hsL]
  simp [slice, splitConcatenationLoop, splitRegex, index, hsP]

theorem tparse_empty_bound (L : Bytes) (hL : IsLiteralRun L) :
    tparse [L, str "\x7b", str "\x7d"] = Run.ok (repeat_ (atom L) 0) := by
  rw [str_lbrace, str_rbrace]
  show splitConcatenation (6 + 2) _ = _
  rw [splitConcatenation, if_neg (by simp), splitConcatenationLoop, if_pos (by simp), splitRegex]
  have hidx : index [L, [123], [125]] ([L, [123], [125]].length - 1) = Run.ok [125] := rfl
  have hsep : separens [L, [123], [125]] [123] [125] = Run.ok ([L], [[123], [125]]) := by
    simp [separens, deparens, deparensLoop, index, slice]
  have hsc : strcontains [125] 44 = false := by decide
  have hat : Atoi [125] = 0 := by decide
  rw [hidx]
  simp only [ok_bind, str_rparen, str_rbrace, str_lbrace, hsep, splitRegex_single 4 L hL]
  simp [index, hsc, hat, splitConcatenationLoop]

theorem Atoi_not_number (ds : Bytes) (x : Nat) (rest : Bytes)
    (hdig : ∀ b ∈ ds, 48 ≤ b ∧ b ≤ 57) (hx : ¬ (48 ≤ x ∧ x ≤ 57))
    (hsign : ds = [] → x ≠ 43 ∧ x ≠ 45) :
    Atoi (ds ++ x :: rest) =
      if ds.foldl (fun n ch => n * 10 + (ch - 48)) 0 < 2 ^ 64 then 0 else 2 ^ 63 - 1 := by
  have hloop := ParseUintLoop_digits (x :: rest) ds 0 hdig (by decide)
  have h45 : (ds ++ x :: rest).head? ≠ some 45 := by
    cases ds with
    | nil => simpa using (hsign rfl).2
    | cons d ds =>
      have := hdig d (List.mem_cons_self _ _)
      simp only [List.cons_append, List.head?_cons, ne_eq, Option.some.injEq]
      omega
  have h43 : (ds ++ x :: rest).head? ≠ some 43 := by
    cases ds with
    | nil => simpa using (hsign rfl).1
    | cons d ds =>
      have := hdig d (List.mem_cons_self _ _)
      simp only [List.cons_append, List.head?_cons, ne_eq, Option.some.injEq]
      omega
  have hne : ds ++ x :: rest ≠ [] := by simp
  unfold Atoi ParseUint
  simp only [h45, h43, or_self, if_false, decide_False, Bool.false_eq_true, if_neg hne, hloop]
  by_cases hv : ds.foldl (fun n ch => n * 10 + (ch - 48)) 0 < 2 ^ 64
  · rw [if_pos hv, if_pos hv, ParseUintLoop, if_neg hx]
  · rw [if_neg hv, if_neg hv]
    simp only []
    rw [if_pos (by omega)]

theorem repeat_zero (cons : consumer) (text : Bytes) :
    repeat_ cons 0 text = Run.ok (result true [] []) := rfl

theorem rangeRepeat_no_attempt (cons : consumer) (l : Nat) (hl : 0 < l) (text : Bytes) :
    rangeRepeat cons (l : Int) 0 text = Run.ok failure := by
  have h1 : ¬ ((0 : Int) = -1) := by decide
  simp only [rangeRepeat, h1, if_false, Int.toNat_zero, rangeRepeatLoop, pure_eq_ok, ok_bind]
  rw [if_neg]
  intro h
  have := h.1
  simp only [Nat.cast_zero] at this
  omega

/-! ## Counts beyond the length of the text -/

theorem repeated_length (L : Bytes) (n : Nat) : (repeated L n).length = n * L.length := by
  induction n with
  | zero => simp [repeated_zero]
  | succ n ih => rw [repeated_succ, List.length_append, ih, Nat.succ_mul, Nat.add_comm]

theorem specFixedRepeat_long (L : Bytes) (n : Nat) (input : Bytes) (hL : L ≠ [])
    (h : input.length < n) : specFixedRepeat L n input = failure := by
  unfold specFixedRepeat
  rw [if_neg]
  intro hp
  have h1 := hp.length_le
  rw [repeated_length] at h1
  have h2 : 0 < L.length := List.length_pos.mpr hL
  have h3 : n ≤ n * L.length := Nat.le_mul_of_pos_right n h2
  omega

theorem greedyCount_le_length (L : Bytes) (hL : L ≠ []) :
    ∀ (a : Nat) (input : Bytes), greedyCount L a input ≤ input.length := by
  intro a
  induction a with
  | zero => intro input; simp [greedyCount]
  | succ a ih =>
    intro input
    unfold greedyCount
    split_ifs with hp
    · have h1 := ih (input.drop L.length)
      have h2 := hp.length_le
      have h3 : 0 < L.length := List.length_pos.mpr hL
      rw [List.length_drop] at h1
      omega
    · omega

theorem greedyCount_nil (L : Bytes) (hL : L ≠ []) (a : Nat) : greedyCount L a [] = 0 := by
  cases a with
  | zero => rfl
  | succ a => simp [greedyCount, hL]

theorem greedyCount_saturates (L : Bytes) (hL : L ≠ []) :
    ∀ (a b : Nat) (input : Bytes), input.length ≤ a → input.length ≤ b →
      greedyCount L a input = greedyCount L b input := by
  intro a
  induction a with
  | zero =>
    intro b input ha hb
    have : input = [] := List.length_eq_zero.mp (Nat.le_zero.mp ha)
    subst this
    rw [greedyCount_nil L hL, greedyCount_nil L hL]
  | succ a ih =>
    intro b input ha hb
    cases b with
    | zero =>
      have : input = [] := List.length_eq_zero.mp (Nat.le_zero.mp hb)
      subst this
      rw [greedyCount_nil L hL, greedyCount_nil L hL]
    | succ b =>
      have h3 : 0 < L.length := List.length_pos.mpr hL
      by_cases hp : L <+: input
      · have h2 := hp.length_le
        have hd : (input.drop L.length).length ≤ a := by
          rw [List.length_drop]
          omega
        have hd2 : (input.drop L.length).length ≤ b := by
          rw [List.length_drop]
          omega
        simp only [greedyCount, if_pos hp]
        rw [ih b (input.drop L.length) hd hd2]
      · simp only [greedyCount, if_neg hp]

theorem specFixedRepeat_clamp (L : Bytes) (hL : L ≠ []) (n : Nat) (input : Bytes)
    (h : n < 2 ^ 63 ∨ input.length < 2 ^ 63 - 1) :
    specFixedRepeat L (min n (2 ^ 63 - 1)) input = specFixedRepeat L n input := by
  by_cases hn : n < 2 ^ 63
  · rw [Nat.min_eq_left (by omega)]
  · have hlen : input.length < 2 ^ 63 - 1 := by
      rcases h with h | h
      · exact absurd h hn
      · exact h
    rw [specFixedRepeat_long L _ input hL (by omega),
      specFixedRepeat_long L n input hL (by omega)]

theorem specBoundedRepeat_clamp (L : Bytes) (hL : L ≠ []) (l u : Nat) (input : Bytes)
    (h : (l < 2 ^ 63 ∧ u < 2 ^ 63) ∨ input.length < 2 ^ 63 - 1) :
    specBoundedRepeat L (min l (2 ^ 63 - 1)) (some (min u (2 ^ 63 - 1))) input =
      specBoundedRepeat L l (some u) input := by
  rcases h with ⟨hl, hu⟩ | hlen
  · rw [Nat.min_eq_left (by omega), Nat.min_eq_left (by omega)]
  · have hk := greedyCount_le_length L hL u input
    have heq : greedyCount L (min u (2 ^ 63 - 1)) input = greedyCount L u input := by
      by_cases hu : u ≤ 2 ^ 63 - 1
      · rw [Nat.min_eq_left hu]
      · exact greedyCount_saturates L hL _ _ input (by omega) (by omega)
    simp only [specBoundedRepeat, Option.getD_some, heq]
    by_cases hle : l ≤ greedyCount L u input
    · rw [if_pos hle, if_pos (by omega)]
    · rw [if_neg hle, if_neg (by omega)]

theorem specBoundedRepeat_clamp_unbounded (L : Bytes) (hL : L ≠ []) (l : Nat) (input : Bytes)
    (h : l < 2 ^ 63 ∨ input.length < 2 ^ 63 - 1) :
    specBoundedRepeat L (min l (2 ^ 63 - 1)) none input = specBoundedRepeat L l none input := by
  rcases h with hl | hlen
  · rw [Nat.min_eq_left (by omega)]
  · have hk := greedyCount_le_length L hL input.length input
    simp only [specBoundedRepeat, Option.getD_none]
    by_cases hle : l ≤ greedyCount L input.length input
    · rw [if_pos hle, if_pos (by omega)]
    · rw [if_neg hle, if_neg (by omega)]

theorem Atoi_decimal_min (n : Nat) :
    Atoi (decimal n) = ((min n (2 ^ 63 - 1) : Nat) : Int) := by
  rw [Atoi_decimal]
  split_ifs with h
  · rw [Nat.min_eq_right (by omega)]
    norm_num
  · rw [Nat.min_eq_left (by omega)]

theorem Atoi_bad_text (B : Bytes) (h : ∃ b ∈ B, ¬ (48 ≤ b ∧ b ≤ 57))
    (h45 : B.head? ≠ some 45) (h43 : B.head? ≠ some 43) :
    Atoi B =
      if (B.takeWhile (fun b => decide (48 ≤ b ∧ b ≤ 57))).foldl
          (fun n ch => n * 10 + (ch - 48)) 0 < 2 ^ 64 then 0 else 2 ^ 63 - 1 := by
  have hsplit := List.takeWhile_append_dropWhile (fun b => decide (48 ≤ b ∧ b ≤ 57)) B
  have hdig : ∀ b ∈ B.takeWhile (fun b => decide (48 ≤ b ∧ b ≤ 57)), 48 ≤ b ∧ b ≤ 57 := by
    intro b hb
    simpa using List.mem_takeWhile_imp hb
  cases hd : B.dropWhile (fun b => decide (48 ≤ b ∧ b ≤ 57)) with
  | nil =>
    rw [List.dropWhile_eq_nil_iff] at hd
    obtain ⟨b, hb, hnb⟩ := h
    exact absurd (by simpa using hd b hb) hnb
  | cons x rest =>
    have hx : ¬ (48 ≤ x ∧ x ≤ 57) := by
      have := List.head?_dropWhile_not (fun b => decide (48 ≤ b ∧ b ≤ 57)) B
      rw [hd] at this
      simpa using this
    rw [hd] at hsplit
    have hsign : B.takeWhile (fun b => decide (48 ≤ b ∧ b ≤ 57)) = [] → x ≠ 43 ∧ x ≠ 45 := by
      intro hnil
      rw [hnil, List.nil_append] at hsplit
      rw [← hsplit] at h45 h43
      simp only [List.head?_cons, ne_eq, Option.some.injEq] at h45 h43
      exact ⟨h43, h45⟩
    have := Atoi_not_number _ x rest hdig hx hsign
    rw [hsplit] at this
    exact this

/-! ## Malformed patterns -/

/-- C15: the patterns `a)` and `(a`, whose parentheses are unbalanced, compile to matchers:
the first to one that succeeds on `b` with an empty capture, the second to one that matches
the text `(a` literally. -/
theorem unbalanced_parens_example :
    (∃ regex, Parse (str "a)") = Run.ok regex ∧
      regex.exprTree (str "b") = Run.ok (result true [[]] [])) ∧
    (∃ regex, Parse (str "(a") = Run.ok regex ∧
      regex.exprTree (str "(ab") = Run.ok (result true [] (str "(a"))) :=
  ⟨⟨_, rfl, by decide⟩, ⟨_, rfl, by decide⟩⟩

/-- C15, amended. The compilation has no failure to report: `Parse` returns a `Regex` unless
it panics.  A pattern with unbalanced parentheses compiles to a matcher: for every literal run
`L`, the pattern `L)` compiles to `capture(atom(""))`, which succeeds on every text covering
nothing and capturing the empty string, and the pattern `(L` compiles to
`concat(atom("("), atom(L))`, which matches the text `(L` literally. -/
theorem unbalanced_parens_compile :
    (∀ pattern, (∃ regex, Parse pattern = Run.ok regex) ∨ Parse pattern = Run.panic) ∧
    (∀ L, IsLiteralRun L →
      cparse (L ++ str ")") = Run.ok (capture (atom (str ""))) ∧
      ∀ text, rootOn (L ++ str ")") text = Run.ok (result true [[]] [])) ∧
    (∀ L, IsLiteralRun L →
      cparse (str "(" ++ L) = Run.ok (concat [atom (str "("), atom L]) ∧
      (∀ rest, rootOn (str "(" ++ L) (str "(" ++ L ++ rest) =
        Run.ok (result true [] (str "(" ++ L))) ∧
      rootOn (str "(" ++ L) L = Run.ok failure) ∧
    rootOn (str "a)") (str "xyz") = Run.ok (result true [[]] []) ∧
    rootOn (str "(a") (str "(ab") = Run.ok (result true [] (str "(a")) ∧
    rootOn (str "(a") (str "a") = Run.ok failure := by
  refine ⟨?_, ?_, ?_, by decide, by decide, by decide⟩
  · intro pattern
    cases h : Parse pattern with
    | ok regex => exact Or.inl ⟨regex, rfl⟩
    | panic => exact Or.inr rfl
    | diverge => exact absurd h (Parse_ne_diverge pattern)
  · intro L hL
    have hc : cparse (L ++ str ")") = Run.ok (capture (atom (str ""))) := by
      unfold cparse
      rw [tokenize_closer L hL, tparse_closer L hL]
    refine ⟨hc, fun text => ?_⟩
    rw [rootOn_of_cparse _ _ _ hc]
    simp [capture, atom_eq, str_empty, result]
  · intro L hL
    have hc : cparse (str "(" ++ L) = Run.ok (concat [atom (str "("), atom L]) := by
      unfold cparse
      rw [tokenize_opener L hL, tparse_opener L hL]
    refine ⟨hc, fun rest => ?_, ?_⟩
    · rw [rootOn_of_cparse _ _ _ hc, concat_atoms, atom_eq, if_pos (List.prefix_append _ _)]
    · rw [rootOn_of_cparse _ _ _ hc, concat_atoms, atom_eq, if_neg]
      intro h
      have := h.length_le
      simp [str_lparen] at this

/-- C15, at the literal run `ab`: the pattern `ab)` succeeds on the text `zz`, covering
nothing. -/
theorem unbalanced_parens_compile_witness :
    IsLiteralRun (str "ab") ∧ rootOn (str "ab)") (str "zz") = Run.ok (result true [[]] []) :=
  ⟨⟨[97, 98], by decide, by decide, by decide⟩,
    (unbalanced_parens_compile.2.1 (str "ab") ⟨[97, 98], by decide, by decide, by decide⟩).2
      (str "zz")⟩

/-- C16: the patterns `a{x}`, `a{}` and `a{2,y}`, whose bounds are not numbers, compile to
matchers: the first two succeed on `b` covering nothing, the third fails on `aa`. -/
theorem bad_bound_example :
    (∃ regex, Parse (str "a\x7bx\x7d") = Run.ok regex ∧
      regex.exprTree (str "b") = Run.ok (result true [] [])) ∧
    (∃ regex, Parse (str "a\x7b\x7d") = Run.ok regex ∧
      regex.exprTree (str "b") = Run.ok (result true [] [])) ∧
    (∃ regex, Parse (str "a\x7b2,y\x7d") = Run.ok regex ∧
      regex.exprTree (str "aa") = Run.ok failure) :=
  ⟨⟨_, rfl, by decide⟩, ⟨_, rfl, by decide⟩, ⟨_, rfl, by decide⟩⟩

/-- C16, amended. The compilation reports no failure for a bound that is not a number: the
error of `strconv.Atoi` is discarded, and the bound counts as what `Atoi` returns.  For a text
with a byte that is no digit, and no sign in front, that is 0 when the digits before the
first such byte fit 64 bits (a syntax error), and 2^63 - 1 when they do not (a range error,
raised at the digit that overflows, before the rest is read).  For every literal run `L` and
every bound text `B` of plain characters without a comma, `L{B}` compiles to
`repeat(atom(L), Atoi(B))`, and `L{}` compiles to `repeat(atom(L), 0)`; so `a{x}` and `a{}`
succeed on every text, covering nothing, `a{2,y}`, which compiles to
`rangeRepeat(atom("a"), 2, 0)`, fails on every text, and `a{99999999999999999999x}`, which
compiles to `repeat(atom("a"), 2^63 - 1)`, fails on every text shorter than 2^63 - 1 bytes. -/
theorem bad_bound_compiles :
    (∀ L B, IsLiteralRun L → IsLiteralRun B → strcontains B 44 = false →
      cparse (L ++ str "\x7b" ++ B ++ str "\x7d") = Run.ok (repeat_ (atom L) (Atoi B))) ∧
    (∀ B : Bytes, (∃ b ∈ B, ¬ (48 ≤ b ∧ b ≤ 57)) → B.head? ≠ some 45 → B.head? ≠ some 43 →
      Atoi B =
        if (B.takeWhile (fun b => decide (48 ≤ b ∧ b ≤ 57))).foldl
            (fun n ch => n * 10 + (ch - 48)) 0 < 2 ^ 64 then 0 else 2 ^ 63 - 1) ∧
    (∀ L, IsLiteralRun L → cparse (L ++ str "\x7b\x7d") = Run.ok (repeat_ (atom L) 0)) ∧
    (∀ text, rootOn (str "a\x7bx\x7d") text = Run.ok (result true [] [])) ∧
    (∀ text, rootOn (str "a\x7b\x7d") text = Run.ok (result true [] [])) ∧
    (∀ text, rootOn (str "a\x7b2,y\x7d") text = Run.ok failure) ∧
    Atoi (str "x") = 0 ∧ Atoi (str "") = 0 ∧ Atoi (str "y") = 0 ∧ Atoi (str "12x") = 0 ∧
    Atoi (str "99999999999999999999x") = 9223372036854775807 ∧
    cparse (str "a\x7b99999999999999999999x\x7d") =
      Run.ok (repeat_ (atom (str "a")) 9223372036854775807) ∧
    (∀ text : Bytes, text.length < 2 ^ 63 - 1 →
      rootOn (str "a\x7b99999999999999999999x\x7d") text = Run.ok failure) := by
  refine ⟨fun L B hL hB hc => cparse_counted L B hL hB hc,
    fun B h h45 h43 => Atoi_bad_text B h h45 h43, ?_, ?_, ?_, ?_, by decide, by decide,
    by decide, by decide, by decide, rfl, ?_⟩
  rotate_left 4
  · intro text hlen
    have hc : cparse (str "a\x7b99999999999999999999x\x7d") =
        Run.ok (repeat_ (atom (str "a")) ((9223372036854775807 : Nat) : Int)) := rfl
    rw [rootOn_of_cparse _ _ _ hc, repeat_atom,
      specFixedRepeat_long _ _ _ (by decide) (by omega)]
  · intro L hL
    unfold cparse
    rw [tokenize_empty_bound L hL, tparse_empty_bound L hL]
  · intro text
    have hc : cparse (str "a\x7bx\x7d") = Run.ok (repeat_ (atom (str "a")) 0) := rfl
    rw [rootOn_of_cparse _ _ _ hc, repeat_zero]
  · intro text
    have hc : cparse (str "a\x7b\x7d") = Run.ok (repeat_ (atom (str "a")) 0) := rfl
    rw [rootOn_of_cparse _ _ _ hc, repeat_zero]
  · intro text
    have hc : cparse (str "a\x7b2,y\x7d") =
        Run.ok (rangeRepeat (atom (str "a")) ((2 : Nat) : Int) 0) := rfl
    rw [rootOn_of_cparse _ _ _ hc, rangeRepeat_no_attempt _ 2 (by decide)]

/-- C16, at the literal run `ab` and the bound text `x1`: the pattern `ab{x1}` compiles to
`repeat(atom("ab"), 0)`. -/
theorem bad_bound_compiles_witness :
    cparse (str "ab\x7bx1\x7d") = Run.ok (repeat_ (atom (str "ab")) 0) :=
  bad_bound_compiles.1 (str "ab") (str "x1") ⟨[97, 98], by decide, by decide, by decide⟩
    ⟨[120, 49], by decide, by decide, by decide⟩ (by decide)

/-! ## Counted repetition -/

theorem specFixedRepeat_letters_self (k : Nat) :
    specFixedRepeat [97] k (List.replicate k 97) = result true [] (List.replicate k 97) := by
  unfold specFixedRepeat
  rw [repeated_letters, if_pos (List.prefix_refl _)]

theorem specFixedRepeat_letters_short (k : Nat) :
    specFixedRepeat [97] (k + 1) (List.replicate k 97) = failure := by
  unfold specFixedRepeat
  rw [repeated_letters, if_neg]
  intro h
  have := h.length_le
  simp only [List.length_replicate] at this
  omega

theorem specBoundedRepeat_letters (l k : Nat) :
    specBoundedRepeat [97] l none (List.replicate k 97) =
      if l ≤ k then result true [] (List.replicate k 97) else failure := by
  unfold specBoundedRepeat
  simp only [Option.getD_none, List.length_replicate, greedyCount_letters, Nat.min_self,
    repeated_letters]

/-- The count 9223372036854775808 is 2^63, which `strconv.Atoi` turns into 2^63 - 1, its
error discarded; so the pattern `a{9223372036854775808}` compiles to
`repeat(atom("a"), 2^63 - 1)`, which differs from `FixedRepeat(atom a, 2^63)` on a text of
2^63 - 1 letters `a` and on no shorter text. -/
theorem count_clamped :
    rootOn (str "a\x7b9223372036854775808\x7d") (List.replicate 9223372036854775807 97) =
      Run.ok (result true [] (List.replicate 9223372036854775807 97)) ∧
    specFixedRepeat (str "a") 9223372036854775808 (List.replicate 9223372036854775807 97) =
      failure ∧
    decimal 9223372036854775808 = str "9223372036854775808" := by
  have hc : cparse (str "a\x7b9223372036854775808\x7d") =
      Run.ok (repeat_ (atom [97]) ((9223372036854775807 : Nat) : Int)) := rfl
  refine ⟨?_, specFixedRepeat_letters_short 9223372036854775807, by decide⟩
  rw [rootOn_of_cparse _ _ _ hc, repeat_atom, specFixedRepeat_letters_self]

/-- C13. For every non-empty run `L` of plain characters and all natural numbers `n`, `l`,
`u` written in base 10, on every input shorter than 2^63 - 1 bytes (the length of a Go string
is an `int`, and no text is that long), and on every input at all when the numbers are below
2^63: `L{n}` behaves like `FixedRepeat(atom L, n)`, succeeding iff `L` repeated `n` times is a
prefix of the input and then covering exactly that; `L{l,u}` behaves like
`BoundedRepeat(atom L, l, u)` and `L{l,}` like `BoundedRepeat` with no upper bound.  The
pattern `L{n}` compiles to `repeat(atom(L), min(n, 2^63 - 1))`, the value `strconv.Atoi`
gives for the digits of `n`, and `L{l,u}` to `rangeRepeat` with both bounds read so.  So
`a{2,}` succeeds on `k` letters `a` iff `k >= 2`, `a{2,5}` matches `aa`, `aaaaa` and `aaaaaa`
but not `a`, and `repeat(atom("asdf"), 3)` succeeds on `asdfasdfasdfas` but not on
`asdfasdfas`; `a{99999999999999999999}` fails on `aaa`, as `FixedRepeat(atom a, 10^20 - 1)`
does. -/
theorem counted_repeat_refines :
    (∀ (L : Bytes) (n : Nat) (input : Bytes), IsLiteralRun L →
      n < 2 ^ 63 ∨ input.length < 2 ^ 63 - 1 →
      rootOn (L ++ str "\x7b" ++ decimal n ++ str "\x7d") input =
        Run.ok (specFixedRepeat L n input)) ∧
    (∀ (L : Bytes) (l u : Nat) (input : Bytes), IsLiteralRun L →
      (l < 2 ^ 63 ∧ u < 2 ^ 63) ∨ input.length < 2 ^ 63 - 1 →
      rootOn (L ++ str "\x7b" ++ decimal l ++ str "," ++ decimal u ++ str "\x7d") input =
        Run.ok (specBoundedRepeat L l (some u) input)) ∧
    (∀ (L : Bytes) (l : Nat) (input : Bytes), IsLiteralRun L →
      l < 2 ^ 63 ∨ input.length < 2 ^ 63 - 1 →
      rootOn (L ++ str "\x7b" ++ decimal l ++ str ",\x7d") input =
        Run.ok (specBoundedRepeat L l none input)) ∧
    (∀ (L : Bytes) (n : Nat), IsLiteralRun L →
      cparse (L ++ str "\x7b" ++ decimal n ++ str "\x7d") =
        Run.ok (repeat_ (atom L) ((min n (2 ^ 63 - 1) : Nat) : Int))) ∧
    (∀ (L : Bytes) (l u : Nat), IsLiteralRun L →
      cparse (L ++ str "\x7b" ++ decimal l ++ str "," ++ decimal u ++ str "\x7d") =
        Run.ok (rangeRepeat (atom L) ((min l (2 ^ 63 - 1) : Nat) : Int)
          ((min u (2 ^ 63 - 1) : Nat) : Int))) ∧
    (∀ (L : Bytes) (l : Nat), IsLiteralRun L →
      cparse (L ++ str "\x7b" ++ decimal l ++ str ",\x7d") =
        Run.ok (rangeRepeat (atom L) ((min l (2 ^ 63 - 1) : Nat) : Int) (-1))) ∧
    (∀ k : Nat, rootOn (str "a\x7b2,\x7d") (List.replicate k 97) =
      Run.ok (if 2 ≤ k then result true [] (List.replicate k 97) else failure)) ∧
    (Parse (str "a\x7b2,5\x7d")).bind (fun r => Matches r (str "aa")) = Run.ok true ∧
    (Parse (str "a\x7b2,5\x7d")).bind (fun r => Matches r (str "aaaaa")) = Run.ok true ∧
    (Parse (str "a\x7b2,5\x7d")).bind (fun r => Matches r (str "aaaaaa")) = Run.ok true ∧
    (Parse (str "a\x7b2,5\x7d")).bind (fun r => Matches r (str "a")) = Run.ok false ∧
    repeat_ (atom (str "asdf")) 3 (str "asdfasdfasdfas") =
      Run.ok (result true [] (str "asdfasdfasdf")) ∧
    repeat_ (atom (str "asdf")) 3 (str "asdfasdfas") = Run.ok failure ∧
    decimal 99999999999999999999 = str "99999999999999999999" ∧
    rootOn (str "a\x7b99999999999999999999\x7d") (str "aaa") = Run.ok failure ∧
    specFixedRepeat (str "a") 99999999999999999999 (str "aaa") = failure := by
  have hcomma : str "," = [44] := by decide
  have hcb : str ",\x7d" = [44, 125] := by decide
  have h1 : ∀ (L : Bytes) (n : Nat), IsLiteralRun L →
      cparse (L ++ str "\x7b" ++ decimal n ++ str "\x7d") =
        Run.ok (repeat_ (atom L) ((min n (2 ^ 63 - 1) : Nat) : Int)) := by
    intro L n hL
    rw [cparse_counted L _ hL (literalRun_decimal n) (strcontains_decimal n),
      Atoi_decimal_min n]
  have h2 : ∀ (L : Bytes) (l u : Nat), IsLiteralRun L →
      cparse (L ++ str "\x7b" ++ decimal l ++ str "," ++ decimal u ++ str "\x7d") =
        Run.ok (rangeRepeat (atom L) ((min l (2 ^ 63 - 1) : Nat) : Int)
          ((min u (2 ^ 63 - 1) : Nat) : Int)) := by
    intro L l u hL
    have hp : L ++ str "\x7b" ++ decimal l ++ str "," ++ decimal u ++ str "\x7d" =
        L ++ str "\x7b" ++ (decimal l ++ 44 :: decimal u) ++ str "\x7d" := by
      rw [hcomma]
      simp
    have hc := cparse_ranged L (decimal l) (decimal u) hL (decimal_spec l).2.1
      (decimal_spec u).2.1
    rw [if_neg (decimal_spec u).1, Atoi_decimal_min l, Atoi_decimal_min u] at hc
    rw [hp, hc]
  have h3 : ∀ (L : Bytes) (l : Nat), IsLiteralRun L →
      cparse (L ++ str "\x7b" ++ decimal l ++ str ",\x7d") =
        Run.ok (rangeRepeat (atom L) ((min l (2 ^ 63 - 1) : Nat) : Int) (-1)) := by
    intro L l hL
    have hp : L ++ str "\x7b" ++ decimal l ++ str ",\x7d" =
        L ++ str "\x7b" ++ (decimal l ++ 44 :: []) ++ str "\x7d" := by
      rw [hcb, str_rbrace]
      simp
    have hc := cparse_ranged L (decimal l) [] hL (decimal_spec l).2.1 (by simp)
    rw [if_pos rfl, Atoi_decimal_min l] at hc
    rw [hp, hc]
  have h6 : ∀ (L : Bytes) (l : Nat) (input : Bytes), IsLiteralRun L →
      l < 2 ^ 63 ∨ input.length < 2 ^ 63 - 1 →
      rootOn (L ++ str "\x7b" ++ decimal l ++ str ",\x7d") input =
        Run.ok (specBoundedRepeat L l none input) := by
    intro L l input hL h
    rw [rootOn_of_cparse _ _ _ (h3 L l hL), rangeRepeat_atom_unbounded,
      specBoundedRepeat_clamp_unbounded L (literalRun_ne_nil L hL) l input h]
  refine ⟨?_, ?_, h6, h1, h2, h3, ?_, by decide, by decide, by decide, by decide, by decide,
    by decide, by decide, ?_, ?_⟩
  · intro L n input hL h
    rw [rootOn_of_cparse _ _ _ (h1 L n hL), repeat_atom,
      specFixedRepeat_clamp L (literalRun_ne_nil L hL) n input h]
  · intro L l u input hL h
    rw [rootOn_of_cparse _ _ _ (h2 L l u hL), rangeRepeat_atom,
      specBoundedRepeat_clamp L (literalRun_ne_nil L hL) l u input h]
  · intro k
    have := h6 [97] 2 (List.replicate k 97) ⟨[97], by decide, by decide, by decide⟩
      (Or.inl (by decide))
    rw [specBoundedRepeat_letters] at this
    exact this
  · have hc : cparse (str "a\x7b99999999999999999999\x7d") =
        Run.ok (repeat_ (atom (str "a")) ((9223372036854775807 : Nat) : Int)) := rfl
    rw [rootOn_of_cparse _ _ _ hc, repeat_atom,
      specFixedRepeat_long _ _ _ (by decide) (by decide)]
  · exact specFixedRepeat_long _ _ _ (by decide) (by decide)

/-- C13, at the literal run `ab` and the count 2: the pattern `ab{2}` on the text `ababab`,
which is shorter than 2^63 - 1 bytes, behaves like `FixedRepeat(atom ab, 2)`, and `abab` is a
prefix of that text. -/
theorem counted_repeat_refines_witness :
    rootOn (str "ab\x7b2\x7d") (str "ababab") =
      Run.ok (specFixedRepeat (str "ab") 2 (str "ababab")) ∧
    repeated (str "ab") 2 = str "abab" :=
  ⟨counted_repeat_refines.1 (str "ab") 2 (str "ababab")
      ⟨[97, 98], by decide, by decide, by decide⟩ (Or.inr (by decide)), by decide⟩

/-! ## A quantifier after a literal run -/

theorem tokenize_run_structural (L : Bytes) (hL : IsLiteralRun L) (c : Nat)
    (hc : structural c) : tokenize (L ++ [c]) = [L, [c]] := by
  obtain ⟨cs, _, hcs, hLe, hLr⟩ := literalRun_runes L hL
  have hLn := literalRun_ne_nil L hL
  have hr : runes (L ++ [c]) = cs ++ [c] := by
    rw [hLr, runes_structural_cons c hc, runes_nil]
  unfold tokenize
  rw [hr, List.foldl_append, tokenize_fold_plain cs hcs, List.foldl_cons,
    tokenizeStep_structural _ _ c hc]
  simp only [List.nil_append, ← hLe, if_neg hLn, List.foldl_nil]
  simp

theorem splitRegex_quantified (fuel : Nat) (L : Bytes) (hL : IsLiteralRun L) :
    splitRegex (fuel + 2) [L, [42]] = Run.ok ([], star (atom L)) ∧
    splitRegex (fuel + 2) [L, [43]] = Run.ok ([], plus (atom L)) ∧
    splitRegex (fuel + 2) [L, [63]] = Run.ok ([], option (atom L)) := by
  have h1 : index [L, [42]] ([L, [42]].length - 1) = Run.ok [42] := rfl
  have h2 : index [L, [43]] ([L, [43]].length - 1) = Run.ok [43] := rfl
  have h3 : index [L, [63]] ([L, [63]].length - 1) = Run.ok [63] := rfl
  refine ⟨?_, ?_, ?_⟩
  · rw [splitRegex, h1]
    simp [str_rparen, str_rbrace, str_rbracket, str_star, slice, splitRegex_single fuel L hL]
  · rw [splitRegex, h2]
    simp [str_rparen, str_rbrace, str_rbracket, str_star, str_plus, slice,
      splitRegex_single fuel L hL]
  · rw [splitRegex, h3]
    simp [str_rparen, str_rbrace, str_rbracket, str_star, str_plus, str_question, slice,
      splitRegex_single fuel L hL]

theorem tparse_single (toks : List Bytes) (c : consumer) (h2 : toks.length = 2)
    (h : splitRegex (2 + 2) toks = Run.ok ([], c)) : tparse toks = Run.ok c := by
  unfold tparse
  rw [h2]
  show splitConcatenation (4 + 2) _ = _
  rw [splitConcatenation, if_neg (by omega), splitConcatenationLoop, if_pos (by omega), h]
  simp only [ok_bind]
  rw [splitConcatenationLoop, if_neg (by simp)]
  rfl

theorem cparse_quantified (L : Bytes) (hL : IsLiteralRun L) :
    cparse (L ++ str "*") = Run.ok (star (atom L)) ∧
    cparse (L ++ str "+") = Run.ok (plus (atom L)) ∧
    cparse (L ++ str "?") = Run.ok (option (atom L)) := by
  obtain ⟨h1, h2, h3⟩ := splitRegex_quantified 2 L hL
  unfold cparse
  rw [str_star, str_plus, str_question, tokenize_run_structural L hL 42 (by decide),
    tokenize_run_structural L hL 43 (by decide), tokenize_run_structural L hL 63 (by decide)]
  exact ⟨tparse_single _ _ rfl h1, tparse_single _ _ rfl h2, tparse_single _ _ rfl h3⟩

/-- C22. For every non-empty run `L` of plain characters the patterns `L*`, `L+` and `L?`
compile to `star(atom(L))`, `plus(atom(L))` and `option(atom(L))`, so that they behave like
these on every input: the quantifier wraps the whole literal token.  The pattern `a+` agrees
with `plus(atom("a"))` on every input, and the matcher of `ab*` covers `ab` on `abb`. -/
theorem quantifier_wraps_literal_run :
    (∀ L : Bytes, IsLiteralRun L →
      cparse (L ++ str "*") = Run.ok (star (atom L)) ∧
      cparse (L ++ str "+") = Run.ok (plus (atom L)) ∧
      cparse (L ++ str "?") = Run.ok (option (atom L))) ∧
    (∀ L input : Bytes, IsLiteralRun L →
      rootOn (L ++ str "*") input = star (atom L) input ∧
      rootOn (L ++ str "+") input = plus (atom L) input ∧
      rootOn (L ++ str "?") input = option (atom L) input) ∧
    (∀ input : Bytes, rootOn (str "a+") input = plus (atom (str "a")) input) ∧
    rootOn (str "ab*") (str "abb") = Run.ok (result true [] (str "ab")) ∧
    star (atom (str "ab")) (str "abb") = Run.ok (result true [] (str "ab")) := by
  refine ⟨cparse_quantified, ?_, ?_, by decide, by decide⟩
  · intro L input hL
    obtain ⟨h1, h2, h3⟩ := cparse_quantified L hL
    exact ⟨rootOn_of_cparse _ _ _ h1, rootOn_of_cparse _ _ _ h2, rootOn_of_cparse _ _ _ h3⟩
  · intro input
    have hc : cparse (str "a+") = Run.ok (plus (atom (str "a"))) := rfl
    exact rootOn_of_cparse _ _ _ hc

/-- C22, at the literal run `abc`: the pattern `abc+` on the text `abcabcab` behaves like
`plus(atom("abc"))`, which covers `abcabc`. -/
theorem quantifier_wraps_literal_run_witness :
    IsLiteralRun (str "abc") ∧
    rootOn (str "abc+") (str "abcabcab") = plus (atom (str "abc")) (str "abcabcab") ∧
    plus (atom (str "abc")) (str "abcabcab") = Run.ok (result true [] (str "abcabc")) :=
  ⟨⟨[97, 98, 99], by decide, by decide, by decide⟩,
    (quantifier_wraps_literal_run.2.1 (str "abc") (str "abcabcab")
      ⟨[97, 98, 99], by decide, by decide, by decide⟩).2.1, by decide⟩

/-! ## Termination of star and plus -/

theorem starLoop_terminates (child : consumer) (input : Bytes) (hterm : Terminates child)
    (hprog : Progresses child) :
    ∀ (fuel off : Nat) (coverage : Bytes), input.length - off < fuel →
      starLoop child input fuel off coverage ≠ Run.diverge := by
  intro fuel
  induction fuel with
  | zero => intro off coverage h; omega
  | succ fuel ih =>
    intro off coverage h
    by_cases hi : off < input.length
    · have hne : input.drop off ≠ [] := by
        intro h0
        have := congrArg List.length h0
        simp at this
        omega
      simp only [starLoop, hi, if_true, slice_to_end _ _ (Nat.le_of_lt hi), ok_bind]
      cases hr : child (input.drop off) with
      | ok r =>
        by_cases hs : r.Success = true
        · have hc := hprog _ r hne hr hs
          have hpos : 0 < r.Coverage.length := List.length_pos.mpr hc
          simp only [ok_bind, hs, if_true]
          exact ih _ _ (by omega)
        · simp only [ok_bind, hs, Bool.false_eq_true, if_false]
          exact pure_ne_diverge _
      | panic => exact panic_ne_diverge
      | diverge => exact absurd hr (hterm _)
    · simp only [starLoop, hi, if_false]
      exact pure_ne_diverge _

theorem plusLoop_terminates (child : consumer) (input : Bytes) (hterm : Terminates child)
    (hprog : Progresses child) :
    ∀ (fuel instances off : Nat) (coverage : Bytes) (captures : List Bytes),
      input.length - off < fuel →
      plusLoop child input fuel instances off coverage captures ≠ Run.diverge := by
  intro fuel
  induction fuel with
  | zero => intro instances off coverage captures h; omega
  | succ fuel ih =>
    intro instances off coverage captures h
    by_cases hi : off < input.length
    · have hne : input.drop off ≠ [] := by
        intro h0
        have := congrArg List.length h0
        simp at this
        omega
      simp only [plusLoop, hi, if_true, slice_to_end _ _ (Nat.le_of_lt hi), ok_bind]
      cases hr : child (input.drop off) with
      | ok r =>
        by_cases hs : r.Success = true
        · have hc := hprog _ r hne hr hs
          have hpos : 0 < r.Coverage.length := List.length_pos.mpr hc
          simp only [ok_bind, hs, if_true]
          exact ih _ _ _ _ (by omega)
        · simp only [ok_bind, hs, Bool.false_eq_true, if_false]
          exact pure_ne_diverge _
      | panic => exact panic_ne_diverge
      | diverge => exact absurd hr (hterm _)
    · simp only [plusLoop, hi, if_false]
      exact pure_ne_diverge _

theorem star_terminates (child : consumer) (hterm : Terminates child)
    (hprog : Progresses child) : Terminates (star child) := fun input =>
  starLoop_terminates child input hterm hprog _ _ _ (by omega)

theorem plus_terminates (child : consumer) (hterm : Terminates child)
    (hprog : Progresses child) : Terminates (plus child) := by
  intro input
  unfold plus
  refine bind_ne_diverge _ _ (plusLoop_terminates child input hterm hprog _ _ _ _ _ (by omega)) ?_
  rintro ⟨instances, coverage, captures⟩
  exact ite_ne_diverge _ _ (pure_ne_diverge _) (pure_ne_diverge _)

theorem greedyRun_progress (child : consumer) (input : Bytes) (hprog : Progresses child) :
    ∀ (rs : List RegResult) (off : Nat), GreedyRun child input off rs →
      ∀ r ∈ rs, r.Coverage ≠ [] := by
  intro rs
  induction rs with
  | nil => intro off _ r hr; simp at hr
  | cons q rs ih =>
    intro off h r hr
    obtain ⟨hoff, hq, hs, hrest⟩ := h
    have hne : input.drop off ≠ [] := by
      intro h0
      have := congrArg List.length h0
      simp at this
      omega
    rcases List.mem_cons.mp hr with rfl | hr
    · exact hprog _ _ hne hq hs
    · exact ih _ hrest r hr

/-- C26. For a child that terminates on every input and consumes at least one byte whenever
it succeeds on a non-empty input, `star(child)` and `plus(child)` terminate on every input.
When the child returns an outcome on every non-empty input, their loop makes the maximal run
of successful applications, at most `len(input)` of them, each with a non-empty coverage, so
that the offset strictly increases, and the run ends at the end of the input or at the first
failed application.  An iteration at an offset inside the input where the child succeeds moves
the offset on by the length of the coverage, and the loop exits at an offset that has reached
`len(input)`. -/
theorem star_plus_terminate :
    (∀ (child : consumer) (input : Bytes), Terminates child → Progresses child →
      star child input ≠ Run.diverge ∧ plus child input ≠ Run.diverge) ∧
    (∀ (child : consumer) (input : Bytes), (∀ s, s ≠ [] → ∃ r, child s = Run.ok r) →
      Progresses child →
      ∃ rs, GreedyRun child input 0 rs ∧ rs.length ≤ input.length ∧
        (∀ r ∈ rs, 0 < r.Coverage.length) ∧
        star child input = Run.ok (result true [] (coverages rs)) ∧
        plus child input =
          Run.ok (if rs = [] then failure else result true (capturesOf rs) (coverages rs))) ∧
    (∀ (child : consumer) (input : Bytes) (fuel off : Nat) (coverage : Bytes) (r : RegResult),
      off < input.length → child (input.drop off) = Run.ok r → r.Success = true →
      starLoop child input (fuel + 1) off coverage =
        starLoop child input fuel (off + r.Coverage.length) (coverage ++ r.Coverage)) ∧
    (∀ (child : consumer) (input : Bytes) (fuel off : Nat) (coverage : Bytes),
      input.length ≤ off →
      starLoop child input (fuel + 1) off coverage = Run.ok (result true [] coverage)) ∧
    star (atom (str "ab")) (str "ababa") = Run.ok (result true [] (str "abab")) ∧
    plus (atom (str "ab")) (str "ababa") = Run.ok (result true [] (str "abab")) := by
  refine ⟨?_, ?_, ?_, ?_, by decide, by decide⟩
  · intro child input hterm hprog
    exact ⟨star_terminates child hterm hprog input, plus_terminates child hterm hprog input⟩
  · intro child input hret hprog
    obtain ⟨rs, hrs⟩ := greedyRun_exists child input hret hprog _ 0 (Nat.le_refl _)
    have hlen := greedyRun_length child input hprog rs 0 hrs
    refine ⟨rs, hrs, by omega, ?_, star_of_greedyRun child input rs hprog hrs,
      plus_of_greedyRun child input rs hprog hrs⟩
    intro r hr
    exact List.length_pos.mpr (greedyRun_progress child input hprog rs 0 hrs r hr)
  · intro child input fuel off coverage r hi hr hs
    simp [starLoop, hi, slice_to_end _ _ (Nat.le_of_lt hi), hr, hs]
  · intro child input fuel off coverage hi
    have : ¬ off < input.length := by omega
    simp [starLoop, this]

/-- C26, at the child `atom ab`, which returns an outcome on every input and consumes two
bytes when it succeeds: `star` and `plus` of it terminate on `ababa`. -/
theorem star_plus_terminate_witness :
    star (atom (str "ab")) (str "ababa") ≠ Run.diverge ∧
    plus (atom (str "ab")) (str "ababa") ≠ Run.diverge :=
  star_plus_terminate.1 (atom (str "ab")) (str "ababa")
    (fun s => by rw [atom_eq]; exact ok_ne_diverge _) (atom_progress _ (by decide))

/-! ## No backtracking -/

theorem greedyRun_end (child : consumer) (input : Bytes) (hin : Within child) :
    ∀ (rs : List RegResult) (off : Nat), off ≤ input.length → GreedyRun child input off rs →
      off + endOffset rs ≤ input.length ∧
        (off + endOffset rs = input.length ∨ FailsAt child input (off + endOffset rs)) := by
  intro rs
  induction rs with
  | nil =>
    intro off hoff h
    simp only [endOffset_nil, Nat.add_zero]
    refine ⟨hoff, ?_⟩
    rcases h with h | h
    · exact Or.inl (by omega)
    · exact Or.inr h
  | cons r rs ih =>
    intro off hoff h
    obtain ⟨hlt, hr, _, hrest⟩ := h
    have hlen := hin _ r hr
    simp only [List.length_drop] at hlen
    have := ih (off + r.Coverage.length) (by omega) hrest
    simp only [endOffset_cons]
    rw [← Nat.add_assoc]
    exact this

theorem concat_star_fails (child : consumer) (input : Bytes) (rs : List RegResult)
    (hprog : Progresses child) (hin : Within child)
    (hempty : ∃ r, child [] = Run.ok r ∧ r.Success = false)
    (hrun : GreedyRun child input 0 rs) :
    concat [star child, child] input = Run.ok failure := by
  have hstar := star_of_greedyRun child input rs hprog hrun
  obtain ⟨hle, hend⟩ := greedyRun_end child input hin rs 0 (Nat.zero_le _) hrun
  simp only [Nat.zero_add] at hle hend
  have hfail : ∃ r, child (input.drop (endOffset rs)) = Run.ok r ∧ r.Success = false := by
    rcases hend with h | h
    · rw [h, List.drop_length]
      exact hempty
    · exact h
  obtain ⟨rf, hrf, hrfs⟩ := hfail
  have hturn : InTurn [star child] input [result true [] (coverages rs)] :=
    ⟨hstar, rfl, by simp only [result, length_coverages]; exact hle, trivial⟩
  have hoffs : endOffset [result true [] (coverages rs)] = endOffset rs := by
    simp [result, length_coverages]
  have hlen := hin _ rf hrf
  simp only [List.length_drop] at hlen
  have := concatLoop_fail child [] rf hrfs [star child] input
    [result true [] (coverages rs)] [] [] hturn (by rw [hoffs]; exact hrf)
    (by rw [hoffs]; exact hlen)
  simpa [concat] using this

theorem atom_within (m : Bytes) : Within (atom m) := by
  intro s r h
  rw [atom_eq] at h
  by_cases hp : m <+: s
  · simp [hp] at h
    rw [← h]
    exact hp.length_le
  · simp [hp] at h
    rw [← h]
    simp [failure, result]

/-- C23. No backtracking: for a child matcher, whose coverage lies within its input, that
fails on the empty input and consumes at least one byte whenever it succeeds,
`concat(star(child), child)` fails on every input on which `star` has made its greedy run of
applications of the child, which is every input when the child returns an outcome on every
input: after the run the child is applied where the run stopped, where it fails.  The matcher
of the pattern `a*a`, which is `concat(star(atom("a")), atom("a"))`, fails on `aaa` and on
every other input.  A child that panics makes the concatenation panic instead of failing: the
pattern `(a\t)*(a\t)` compiles to `concat(star(c), c)` with `c` the group `a\t`, which fails
on the empty input and consumes two bytes whenever it succeeds, and its evaluation on `a`
panics in `tab`, which reads `input[0]` of the empty rest of the input. -/
theorem no_backtracking :
    (∀ (child : consumer) (input : Bytes) (rs : List RegResult),
      Progresses child → Within child → (∃ r, child [] = Run.ok r ∧ r.Success = false) →
      GreedyRun child input 0 rs →
      concat [star child, child] input = Run.ok failure) ∧
    (∀ (child : consumer) (input : Bytes),
      Progresses child → Within child → (∃ r, child [] = Run.ok r ∧ r.Success = false) →
      (∀ s, s ≠ [] → ∃ r, child s = Run.ok r) →
      concat [star child, child] input = Run.ok failure) ∧
    cparse (str "a*a") = Run.ok (concat [star (atom (str "a")), atom (str "a")]) ∧
    (∀ input : Bytes, rootOn (str "a*a") input = Run.ok failure) ∧
    rootOn (str "a*a") (str "aaa") = Run.ok failure ∧
    star (atom (str "a")) (str "aaa") = Run.ok (result true [] (str "aaa")) ∧
    cparse (str "(a\\t)*(a\\t)") =
      Run.ok (concat [star (capture (concat [atom (str "a"), tab])),
        capture (concat [atom (str "a"), tab])]) ∧
    Progresses (capture (concat [atom (str "a"), tab])) ∧
    Within (capture (concat [atom (str "a"), tab])) ∧
    capture (concat [atom (str "a"), tab]) [] = Run.ok failure ∧
    rootOn (str "(a\\t)*(a\\t)") (str "a") = Run.panic := by
  have h2 : ∀ (child : consumer) (input : Bytes),
      Progresses child → Within child → (∃ r, child [] = Run.ok r ∧ r.Success = false) →
      (∀ s, s ≠ [] → ∃ r, child s = Run.ok r) →
      concat [star child, child] input = Run.ok failure := by
    intro child input hprog hin hempty hret
    obtain ⟨rs, hrs⟩ := greedyRun_exists child input hret hprog _ 0 (Nat.le_refl _)
    exact concat_star_fails child input rs hprog hin hempty hrs
  refine ⟨fun child input rs hprog hin hempty hrun =>
    concat_star_fails child input rs hprog hin hempty hrun, h2, rfl, ?_, by decide, by decide,
    rfl, capture_atom_tab_progresses, capture_atom_tab_within, by decide, by decide⟩
  intro input
  have hc : cparse (str "a*a") = Run.ok (concat [star (atom (str "a")), atom (str "a")]) := rfl
  rw [rootOn_of_cparse _ _ _ hc]
  exact h2 (atom (str "a")) input (atom_progress _ (by decide)) (atom_within _)
    ⟨failure, by decide, rfl⟩ (fun s _ => ⟨_, atom_eq _ s⟩)

/-- C23, at the child `atom ab` on the text `ababa`: the greedy run of `star` has two
applications and stops at the last `a`, where the child fails. -/
theorem no_backtracking_witness :
    concat [star (atom (str "ab")), atom (str "ab")] (str "ababa") = Run.ok failure :=
  no_backtracking.1 (atom (str "ab")) (str "ababa")
    [result true [] (str "ab"), result true [] (str "ab")]
    (atom_progress _ (by decide)) (atom_within _) ⟨failure, by decide, rfl⟩
    ⟨by decide, by decide, rfl, by decide, by decide, rfl, Or.inr ⟨failure, by decide, rfl⟩⟩

/-! ## The set-content lexer -/

theorem encodeRune_ascii (c : Nat) (h : c < 128) : encodeRune c = [c] := by
  simp [encodeRune, h]

theorem setTokenizeStep_empty (toks : List Bytes) (c : Nat) (hc : c < 128) :
    setTokenizeStep ([], toks) c = ([c], toks) := by
  simp [setTokenizeStep, encodeRune_ascii c hc]

theorem setTokenizeStep_escape (toks : List Bytes) (c : Nat) (hc : c < 128) :
    setTokenizeStep ([92], toks) c = ([], toks ++ [[92, c]]) := by
  simp [setTokenizeStep, encodeRune_ascii c hc]

theorem setTokenizeStep_dash (toks : List Bytes) (b : Nat) (hb : b ≠ 92) :
    setTokenizeStep ([b], toks) 45 = ([b, 45], toks) := by
  have : encodeRune 45 = [45] := by decide
  simp [setTokenizeStep, hb, this]

theorem setTokenizeStep_single (toks : List Bytes) (b c : Nat) (hb : b ≠ 92) (hc : c ≠ 45)
    (hc1 : c < 128) : setTokenizeStep ([b], toks) c = ([c], toks ++ [[b]]) := by
  simp [setTokenizeStep, hb, hc, encodeRune_ascii c hc1]

theorem setTokenizeStep_range (toks : List Bytes) (b0 b1 c : Nat) (hc : c < 128) :
    setTokenizeStep ([b0, b1], toks) c = ([], toks ++ [[b0, b1, c]]) := by
  simp [setTokenizeStep, encodeRune_ascii c hc]

theorem setFold_buffered :
    ∀ (n : Nat) (rest : Bytes) (b : Nat) (toks : List Bytes), rest.length ≤ n →
      (∀ x ∈ rest, x < 128) →
      (let st := rest.foldl setTokenizeStep ([b], toks)
       if st.1.length > 0 then st.2 ++ [st.1] else st.2) = toks ++ specSetBody (b :: rest) := by
  intro n
  induction n using Nat.strong_induction_on with
  | _ n ih =>
    intro rest b toks hn hascii
    cases rest with
    | nil => simp [specSetBody]
    | cons c r =>
      have hc : c < 128 := hascii c (List.mem_cons_self _ _)
      have hr : ∀ x ∈ r, x < 128 := fun x hx => hascii x (List.mem_cons_of_mem _ hx)
      simp only [List.length_cons] at hn
      by_cases hb : b = 92
      · subst hb
        rw [List.foldl_cons, setTokenizeStep_escape toks c hc]
        cases r with
        | nil => simp [specSetBody]
        | cons d r1 =>
          have hd : d < 128 := hr d (List.mem_cons_self _ _)
          have hr1 : ∀ x ∈ r1, x < 128 := fun x hx => hr x (List.mem_cons_of_mem _ hx)
          simp only [List.length_cons] at hn
          rw [List.foldl_cons, setTokenizeStep_empty _ d hd,
            ih (n - 2) (by omega) r1 d _ (by omega) hr1]
          simp [specSetBody]
      · by_cases hc45 : c = 45
        · subst hc45
          rw [List.foldl_cons, setTokenizeStep_dash toks b hb]
          cases r with
          | nil => simp [specSetBody, hb]
          | cons d r1 =>
            have hd : d < 128 := hr d (List.mem_cons_self _ _)
            have hr1 : ∀ x ∈ r1, x < 128 := fun x hx => hr x (List.mem_cons_of_mem _ hx)
            simp only [List.length_cons] at hn
            rw [List.foldl_cons, setTokenizeStep_range toks b 45 d hd]
            cases r1 with
            | nil => simp [specSetBody, hb]
            | cons e r2 =>
              have he : e < 128 := hr1 e (List.mem_cons_self _ _)
              have hr2 : ∀ x ∈ r2, x < 128 := fun x hx => hr1 x (List.mem_cons_of_mem _ hx)
              simp only [List.length_cons] at hn
              rw [List.foldl_cons, setTokenizeStep_empty _ e he,
                ih (n - 3) (by omega) r2 e _ (by omega) hr2]
              simp [specSetBody, hb]
        · rw [List.foldl_cons, setTokenizeStep_single toks b c hb hc45 hc,
            ih (n - 1) (by omega) r c _ (by omega) hr]
          cases r with
          | nil => simp [specSetBody, hb, hc45]
          | cons d r1 => simp [specSetBody, hb, hc45]

theorem setFold_spec (s : Bytes) (toks : List Bytes) (hascii : ∀ x ∈ s, x < 128) :
    (let st := s.foldl setTokenizeStep ([], toks)
     if st.1.length > 0 then st.2 ++ [st.1] else st.2) = toks ++ specSetBody s := by
  cases s with
  | nil => simp [specSetBody]
  | cons d r =>
    have hd : d < 128 := hascii d (List.mem_cons_self _ _)
    rw [List.foldl_cons, setTokenizeStep_empty _ d hd]
    exact setFold_buffered r.length r d toks (Nat.le_refl _)
      (fun x hx => hascii x (List.mem_cons_of_mem _ hx))

theorem specSetBody_flatten :
    ∀ (n : Nat) (s : Bytes), s.length ≤ n → (specSetBody s).flatten = s := by
  intro n
  induction n using Nat.strong_induction_on with
  | _ n ih =>
    intro s hn
    match s, hn with
    | [], _ => rfl
    | [a], _ => rfl
    | [a, b], _ =>
      unfold specSetBody
      split_ifs <;> rfl
    | a :: b :: c :: rest, hn =>
      simp only [List.length_cons] at hn
      unfold specSetBody
      split_ifs
      · rw [List.flatten_cons, ih (n - 2) (by omega) (c :: rest) (by simp; omega)]
        rfl
      · rw [List.flatten_cons, ih (n - 3) (by omega) rest (by omega)]
        rfl
      · rw [List.flatten_cons, ih (n - 1) (by omega) (b :: c :: rest) (by simp; omega)]
        rfl

theorem setTokenize_spec (s : Bytes) (hne : s ≠ []) (hascii : ∀ x ∈ s, x < 128) :
    setTokenize s = Run.ok (specSetTokens s) ∧ (specSetTokens s).flatten = s := by
  cases s with
  | nil => exact absurd rfl hne
  | cons a r =>
    have hr : ∀ x ∈ r, x < 128 := fun x hx => hascii x (List.mem_cons_of_mem _ hx)
    have hidx : index (a :: r) 0 = Run.ok a := by simp [index]
    have hcaret : str "^" = [94] := by decide
    by_cases ha : a = 94
    · subst ha
      have hsl : slice (94 :: r) 1 (94 :: r).length = Run.ok r := by
        rw [slice_to_end _ _ (by simp)]
        rfl
      have hfold := setFold_spec r [[94]] hr
      refine ⟨?_, ?_⟩
      · unfold setTokenize
        rw [hidx]
        simp only [ok_bind, if_true, hsl, hcaret, runes_ascii r hr, specSetTokens,
          List.head?_cons, List.tail_cons]
        simp only at hfold
        split_ifs at hfold ⊢ with h1
        · rw [hfold]
          rfl
        · rw [hfold]
          rfl
      · simp only [specSetTokens, List.head?_cons, if_true, List.tail_cons, List.flatten_cons,
          specSetBody_flatten r.length r (Nat.le_refl _)]
        rfl
    · have hfold := setFold_spec (a :: r) [] hascii
      have hh : ¬ ((a :: r).head? = some 94) := by simpa using ha
      refine ⟨?_, ?_⟩
      · unfold setTokenize
        rw [hidx]
        simp only [ok_bind, if_neg ha, pure_eq_ok, runes_ascii (a :: r) hascii, specSetTokens,
          if_neg hh]
        simp only [List.nil_append] at hfold
        split_ifs at hfold ⊢ with h1
        · rw [hfold]
        · rw [hfold]
      · simp only [specSetTokens, if_neg hh]
        exact specSetBody_flatten _ _ (Nat.le_refl _)

/-- C24. For every non-empty ASCII set content `s`, `setTokenize(s)` returns the tokens that
the specification describes, and they concatenate in order to `s`: a leading `^` is its own
first token; then, from left to right, a backslash pairs with the next character into a
two-character escape token, any other character followed by `-` and one further character
forms a three-character range token, any other character is a one-character token, and what
is left in the buffer at the end is a token as it is.  On `a-z-A-Z\\asA-zdf\d.\.-` the tokens
are `a-z`, `-`, `A-Z`, `\\`, `a`, `s`, `A-z`, `d`, `f`, `\d`, `.`, `\.`, `-`.  The tokens
being formed from left to right, a backslash that is the third character of a range token
belongs to that token: `a-\d` gives `a-\` and `d`. -/
theorem setTokenize_tokens :
    (∀ s : Bytes, s ≠ [] → (∀ b ∈ s, b < 128) →
      setTokenize s = Run.ok (specSetTokens s) ∧ (specSetTokens s).flatten = s) ∧
    setTokenize (str "a-z-A-Z\\\\asA-zdf\\d.\\.-") =
      Run.ok [str "a-z", str "-", str "A-Z", str "\\\\", str "a", str "s", str "A-z", str "d",
        str "f", str "\\d", str ".", str "\\.", str "-"] ∧
    setTokenize (str "^a-c") = Run.ok [str "^", str "a-c"] ∧
    setTokenize (str "x-") = Run.ok [str "x-"] ∧
    setTokenize (str "a-\\d") = Run.ok [str "a-\\", str "d"] :=
  ⟨setTokenize_spec, by decide, by decide, by decide, by decide⟩

/-- C24, at the content `^\d-x-zq`: a negation marker, an escape, a single character, a range
and a last single character. -/
theorem setTokenize_tokens_witness :
    setTokenize (str "^\\d-x-zq") =
      Run.ok [str "^", str "\\d", str "-", str "x-z", str "q"] ∧
    [str "^", str "\\d", str "-", str "x-z", str "q"].flatten = str "^\\d-x-zq" :=
  setTokenize_tokens.1 (str "^\\d-x-zq") (by decide) (by decide)

/-! ## Every compiled matcher is built from the node constructors -/

theorem built_pure (c : consumer) (hc : Built AnyChild c) :
    ∀ c1, (pure c : Run consumer) = Run.ok c1 → Built AnyChild c1 := by
  intro c1 h
  cases h
  exact hc

theorem built_bind {α : Type} (x : Run α) (g : α → Run consumer)
    (hg : ∀ a, ∀ c1, g a = Run.ok c1 → Built AnyChild c1) :
    ∀ c1, (x >>= g) = Run.ok c1 → Built AnyChild c1 := by
  intro c1 h
  obtain ⟨a, _, ha⟩ := bind_ok_elim h
  exact hg a c1 ha

theorem built_ite {p : Prop} [Decidable p] (a b : Run consumer)
    (ha : ∀ c1, a = Run.ok c1 → Built AnyChild c1)
    (hb : ∀ c1, b = Run.ok c1 → Built AnyChild c1) :
    ∀ c1, (if p then a else b) = Run.ok c1 → Built AnyChild c1 := by
  split <;> assumption

theorem splitSingular_built (regex : Bytes) :
    ∀ c1, splitSingular regex = Run.ok c1 → Built AnyChild c1 := by
  unfold splitSingular
  repeat' (first
    | exact built_pure _ Built.any
    | exact built_pure _ Built.digit
    | exact built_pure _ Built.backslash
    | exact built_pure _ Built.space
    | exact built_pure _ Built.tab
    | exact built_pure _ Built.word
    | exact built_pure _ (Built.negate _ Built.digit)
    | exact built_pure _ (Built.negate _ Built.tab)
    | exact built_pure _ (Built.negate _ Built.space)
    | exact built_pure _ (Built.negate _ Built.word)
    | exact built_pure _ (Built.atom _)
    | refine built_ite _ _ ?_ ?_
    | refine built_bind _ _ ?_
    | intro _)

theorem splitSetLoop_built :
    ∀ (tokens : List Bytes) (cons cs : List consumer),
      splitSetLoop tokens cons = Run.ok cs → (∀ c ∈ cons, Built AnyChild c) →
      ∀ c ∈ cs, Built AnyChild c := by
  intro tokens
  induction tokens with
  | nil =>
    intro cons cs h hcons
    cases h
    exact hcons
  | cons token rest ih =>
    intro cons cs h hcons
    rw [splitSetLoop] at h
    have key : ∀ con, Built AnyChild con → splitSetLoop rest (cons ++ [con]) = Run.ok cs →
        ∀ c ∈ cs, Built AnyChild c := by
      intro con hcon h2
      refine ih _ _ h2 ?_
      intro c hc
      rcases List.mem_append.mp hc with hc | hc
      · exact hcons c hc
      · rw [List.mem_singleton.mp hc]
        exact hcon
    split_ifs at h
    · exact key _ (Built.atom _) h
    · obtain ⟨con, h1, h2⟩ := bind_ok_elim h
      exact key con (splitSingular_built _ _ h1) h2
    · obtain ⟨lo, _, h⟩ := bind_ok_elim h
      obtain ⟨up, _, h⟩ := bind_ok_elim h
      exact key _ (Built.inRange _ _) h

theorem splitSet_built (regex : List Bytes) (cs : List consumer)
    (h : splitSet regex = Run.ok cs) : ∀ c ∈ cs, Built AnyChild c :=
  splitSetLoop_built regex [] cs h (by simp)

theorem splitUnionLoop_built (sc : List Bytes → Run consumer)
    (hsc : ∀ buf c, sc buf = Run.ok c → Built AnyChild c) :
    ∀ (tokens tokBuffer : List Bytes) (consumers : List consumer) (level : Int)
      (r : List Bytes × List consumer),
      splitUnionLoop sc tokens tokBuffer consumers level = Run.ok r →
      (∀ c ∈ consumers, Built AnyChild c) → ∀ c ∈ r.2, Built AnyChild c := by
  intro tokens
  induction tokens with
  | nil =>
    intro tokBuffer consumers level r h hcons
    cases h
    exact hcons
  | cons token rest ih =>
    intro tokBuffer consumers level r h hcons
    rw [splitUnionLoop] at h
    have key : ∀ level1 : Int,
        (if level1 = 0 ∧ token = str "|" then do
            let c ← sc tokBuffer
            splitUnionLoop sc rest [] (consumers ++ [c]) level1
          else splitUnionLoop sc rest (tokBuffer ++ [token]) consumers level1) = Run.ok r →
        ∀ c ∈ r.2, Built AnyChild c := by
      intro level1 h
      by_cases hc : level1 = 0 ∧ token = str "|"
      · rw [if_pos hc] at h
        obtain ⟨c, h1, h2⟩ := bind_ok_elim h
        refine ih _ _ _ _ h2 ?_
        intro x hx
        rcases List.mem_append.mp hx with hx | hx
        · exact hcons x hx
        · rw [List.mem_singleton.mp hx]
          exact hsc _ _ h1
      · rw [if_neg hc] at h
        exact ih _ _ _ _ h hcons
    exact key _ h

theorem builtR_pure (b : List Bytes) (c : consumer) (hc : Built AnyChild c) :
    ∀ b1 c1, (pure (b, c) : Run (List Bytes × consumer)) = Run.ok (b1, c1) →
      Built AnyChild c1 := by
  intro b1 c1 h
  cases h
  exact hc

theorem builtR_ite {p : Prop} [Decidable p] (a b : Run (List Bytes × consumer))
    (ha : ∀ b1 c1, a = Run.ok (b1, c1) → Built AnyChild c1)
    (hb : ∀ b1 c1, b = Run.ok (b1, c1) → Built AnyChild c1) :
    ∀ b1 c1, (if p then a else b) = Run.ok (b1, c1) → Built AnyChild c1 := by
  split <;> assumption

theorem builtR_bind {α : Type} (x : Run α) (g : α → Run (List Bytes × consumer))
    (hg : ∀ a, ∀ b1 c1, g a = Run.ok (b1, c1) → Built AnyChild c1) :
    ∀ b1 c1, (x >>= g) = Run.ok (b1, c1) → Built AnyChild c1 := by
  intro b1 c1 h
  obtain ⟨a, _, ha⟩ := bind_ok_elim h
  exact hg a b1 c1 ha

theorem builtR_bind_of {α : Type} (Q : α → Prop) (x : Run α) (hx : ∀ a, x = Run.ok a → Q a)
    (g : α → Run (List Bytes × consumer))
    (hg : ∀ a, Q a → ∀ b1 c1, g a = Run.ok (b1, c1) → Built AnyChild c1) :
    ∀ b1 c1, (x >>= g) = Run.ok (b1, c1) → Built AnyChild c1 := by
  intro b1 c1 h
  obtain ⟨a, ha1, ha⟩ := bind_ok_elim h
  exact hg a (hx a ha1) b1 c1 ha

theorem splitRegex_built_step (fuel : Nat)
    (ihR : ∀ regex b c, splitRegex fuel regex = Run.ok (b, c) → Built AnyChild c)
    (ihC : ∀ regex c, splitConcatenation fuel regex = Run.ok c → Built AnyChild c)
    (ihU : ∀ regex cs, splitUnion fuel regex = Run.ok cs → ∀ c ∈ cs, Built AnyChild c) :
    ∀ regex b1 c1, splitRegex (fuel + 1) regex = Run.ok (b1, c1) → Built AnyChild c1 := by
  intro regex
  rw [splitRegex]
  repeat' (first
    | exact builtR_pure _ _ (Built.union _ (by assumption))
    | exact builtR_pure _ _ (Built.capture _ (by assumption))
    | exact builtR_pure _ _ (Built.rangeRepeat _ _ _ (by assumption))
    | exact builtR_pure _ _ (Built.repeat_ _ _ (by assumption))
    | exact builtR_pure _ _ (Built.negate _ (Built.set _ (by assumption)))
    | exact builtR_pure _ _ (Built.set _ (by assumption))
    | exact builtR_pure _ _ (Built.star _ (by assumption) trivial)
    | exact builtR_pure _ _ (Built.plus _ (by assumption) trivial)
    | exact builtR_pure _ _ (Built.option _ (by assumption))
    | exact builtR_pure _ _ (by assumption)
    | refine builtR_ite _ _ ?_ ?_
    | refine builtR_bind_of (fun p => Built AnyChild p.2) (splitRegex fuel _)
        (fun p hp => ihR _ p.1 p.2 hp) _ ?_
    | refine builtR_bind_of (fun c => Built AnyChild c) (splitConcatenation fuel _)
        (fun c hc => ihC _ c hc) _ ?_
    | refine builtR_bind_of (fun cs => ∀ c ∈ cs, Built AnyChild c) (splitUnion fuel _)
        (fun cs h => ihU _ cs h) _ ?_
    | refine builtR_bind_of (fun cs => ∀ c ∈ cs, Built AnyChild c) (splitSet _)
        (fun cs h => splitSet_built _ cs h) _ ?_
    | refine builtR_bind_of (fun c => Built AnyChild c) (splitSingular _)
        (fun c h => splitSingular_built _ c h) _ ?_
    | refine builtR_bind _ _ ?_
    | refine Prod.forall.mpr ?_
    | intro _)

theorem parser_built : ∀ fuel : Nat,
    (∀ regex b c, splitRegex fuel regex = Run.ok (b, c) → Built AnyChild c) ∧
    (∀ (str0 : List Bytes) (parts parts1 : List consumer),
      splitConcatenationLoop fuel str0 parts = Run.ok parts1 →
      (∀ c ∈ parts, Built AnyChild c) → ∀ c ∈ parts1, Built AnyChild c) ∧
    (∀ regex c, splitConcatenation fuel regex = Run.ok c → Built AnyChild c) ∧
    (∀ regex cs, splitUnion fuel regex = Run.ok cs → ∀ c ∈ cs, Built AnyChild c) := by
  intro fuel
  induction fuel with
  | zero =>
    exact ⟨fun _ _ _ h => (by cases h), fun _ _ _ h => (by cases h),
      fun _ _ h => (by cases h), fun _ _ h => (by cases h)⟩
  | succ fuel ih =>
    obtain ⟨ihR, ihL, ihC, ihU⟩ := ih
    refine ⟨splitRegex_built_step fuel ihR ihC ihU, ?_, ?_, ?_⟩
    · intro str0 parts parts1 h hparts
      rw [splitConcatenationLoop] at h
      by_cases hpos : str0.length > 0
      · rw [if_pos hpos] at h
        obtain ⟨⟨str1, cons⟩, h1, h2⟩ := bind_ok_elim h
        refine ihL str1 ([cons] ++ parts) parts1 h2 ?_
        intro c hc
        rcases List.mem_append.mp hc with hc | hc
        · rw [List.mem_singleton.mp hc]
          exact ihR _ _ _ h1
        · exact hparts c hc
      · rw [if_neg hpos] at h
        cases h
        exact hparts
    · intro regex c h
      rw [splitConcatenation] at h
      by_cases h0 : regex.length = 0
      · rw [if_pos h0] at h
        cases h
        exact Built.atom _
      · rw [if_neg h0] at h
        obtain ⟨parts, h1, h2⟩ := bind_ok_elim h
        have hparts := ihL regex [] parts h1 (by simp)
        by_cases hl : parts.length = 1
        · rw [if_pos hl] at h2
          unfold index at h2
          cases hg : parts[0]? with
          | none => rw [hg] at h2; cases h2
          | some a =>
            rw [hg] at h2
            cases h2
            exact hparts c (List.getElem?_mem hg)
        · rw [if_neg hl] at h2
          cases h2
          exact Built.concat _ hparts
    · intro regex cs h
      rw [splitUnion] at h
      obtain ⟨inner, _, h⟩ := bind_ok_elim h
      obtain ⟨⟨tokBuffer, consumers⟩, h1, h⟩ := bind_ok_elim h
      obtain ⟨c, h2, h⟩ := bind_ok_elim h
      cases h
      have hcons := splitUnionLoop_built (splitConcatenation fuel) ihC inner [] [] 0
        (tokBuffer, consumers) h1 (by simp)
      intro x hx
      rcases List.mem_append.mp hx with hx | hx
      · exact hcons x hx
      · rw [List.mem_singleton.mp hx]
        exact ihC _ _ h2

theorem Parse_built (pattern : Bytes) (regex : Regex) (h : Parse pattern = Run.ok regex) :
    Built AnyChild regex.exprTree := by
  unfold Parse at h
  obtain ⟨tree, h1, h2⟩ := bind_ok_elim h
  cases h2
  exact (parser_built _).2.2.1 _ tree h1

/-! ## The coverage of a success is a prefix of the input -/

theorem po_failure (input : Bytes) : PrefixOutcome input (pure failure) := by
  intro r h hs
  cases h
  simp [failure, result] at hs

theorem po_empty (input : Bytes) (captures : List Bytes) :
    PrefixOutcome input (pure (result true captures [])) := by
  intro r h _
  cases h
  exact List.nil_prefix

theorem po_first (input : Bytes) :
    PrefixOutcome input (do
      let cov ← slice input 0 1
      pure (result true [] cov)) := by
  intro r h _
  obtain ⟨cov, h1, h2⟩ := bind_ok_elim h
  cases h2
  unfold slice at h1
  split at h1
  · cases h1
    exact List.take_prefix 1 input
  · cases h1

theorem po_bind {α : Type} (input : Bytes) (x : Run α) (g : α → Run RegResult)
    (hg : ∀ a, PrefixOutcome input (g a)) : PrefixOutcome input (x >>= g) := by
  intro r h hs
  obtain ⟨a, _, ha⟩ := bind_ok_elim h
  exact hg a r ha hs

theorem po_ite {c : Prop} [Decidable c] (input : Bytes) (a b : Run RegResult)
    (ha : PrefixOutcome input a) (hb : PrefixOutcome input b) :
    PrefixOutcome input (if c then a else b) := by
  split <;> assumption

theorem coversPrefix_atom (m : Bytes) : CoversPrefix (atom m) := by
  intro s r h hs
  rw [atom_eq] at h
  by_cases hp : m <+: s
  · simp [hp] at h
    rw [← h]
    exact hp
  · simp [hp] at h
    rw [← h] at hs
    simp [failure, result] at hs

theorem coversPrefix_word : CoversPrefix word := by
  intro s
  unfold word
  repeat' (first
    | exact po_failure _
    | exact po_first _
    | refine po_ite _ _ _ ?_ ?_
    | refine po_bind _ _ _ ?_
    | intro _)

theorem coversPrefix_digit : CoversPrefix digit := by
  intro s
  unfold digit
  repeat' (first
    | exact po_failure _
    | exact po_first _
    | refine po_ite _ _ _ ?_ ?_
    | refine po_bind _ _ _ ?_
    | intro _)

theorem coversPrefix_any : CoversPrefix any := by
  intro s
  unfold any
  exact po_ite _ _ _ (po_first _) (po_failure _)

theorem coversPrefix_backslash : CoversPrefix backslash := by
  intro s
  unfold backslash
  repeat' (first
    | exact po_failure _
    | exact po_first _
    | refine po_ite _ _ _ ?_ ?_
    | refine po_bind _ _ _ ?_
    | intro _)

theorem coversPrefix_space : CoversPrefix space := by
  intro s
  unfold space
  repeat' (first
    | exact po_failure _
    | exact po_first _
    | refine po_ite _ _ _ ?_ ?_
    | refine po_bind _ _ _ ?_
    | intro _)

theorem coversPrefix_tab : CoversPrefix tab := by
  intro s
  unfold tab
  repeat' (first
    | exact po_failure _
    | exact po_first _
    | refine po_ite _ _ _ ?_ ?_
    | refine po_bind _ _ _ ?_
    | intro _)

theorem coversPrefix_inRange (lower upper : Nat) : CoversPrefix (inRange lower upper) := by
  intro s
  unfold inRange
  repeat' (first
    | exact po_failure _
    | exact po_first _
    | refine po_ite _ _ _ ?_ ?_
    | refine po_bind _ _ _ ?_
    | intro _)

theorem coversPrefix_negate (c : consumer) : CoversPrefix (negate c) := by
  intro s
  unfold negate
  repeat' (first
    | exact po_failure _
    | exact po_first _
    | refine po_ite _ _ _ ?_ ?_
    | refine po_bind _ _ _ ?_
    | intro _)

theorem po_setLoop (input : Bytes) :
    ∀ cs : List consumer, PrefixOutcome input (setLoop cs input) := by
  intro cs
  induction cs with
  | nil => exact po_failure _
  | cons c cs ih =>
    rw [setLoop]
    repeat' (first
      | exact po_first _
      | exact ih
      | refine po_ite _ _ _ ?_ ?_
      | refine po_bind _ _ _ ?_
      | intro _)

theorem coversPrefix_set (cs : List consumer) : CoversPrefix (set cs) := by
  intro s
  unfold set
  exact po_ite _ _ _ (po_failure _) (po_setLoop s cs)


theorem coversPrefix_option (c : consumer) (hc : CoversPrefix c) : CoversPrefix (option c) := by
  intro s r h hs
  unfold option at h
  obtain ⟨res, h1, h2⟩ := bind_ok_elim h
  by_cases hsucc : res.Success = true
  · simp only [hsucc, Bool.not_true, Bool.false_eq_true, if_false] at h2
    cases h2
    exact hc s res h1 hsucc
  · simp only [hsucc, Bool.not_false, if_true] at h2
    cases h2
    exact List.nil_prefix

theorem coversPrefix_capture (c : consumer) (hc : CoversPrefix c) :
    CoversPrefix (capture c) := by
  intro s r h hs
  unfold capture at h
  obtain ⟨res, h1, h2⟩ := bind_ok_elim h
  by_cases hsucc : res.Success = true
  · simp only [hsucc, Bool.not_true, Bool.false_eq_true, if_false] at h2
    cases h2
    exact hc s res h1 hsucc
  · simp only [hsucc, Bool.not_false, if_true] at h2
    cases h2
    simp [failure, result] at hs

theorem po_unionLoop (input : Bytes) :
    ∀ cs : List consumer, (∀ c ∈ cs, CoversPrefix c) →
      PrefixOutcome input (unionLoop cs input) := by
  intro cs
  induction cs with
  | nil => intro _; exact po_failure _
  | cons c cs ih =>
    intro hcs r h hs
    rw [unionLoop] at h
    obtain ⟨res, h1, h2⟩ := bind_ok_elim h
    by_cases hsucc : res.Success = true
    · simp only [hsucc, if_true] at h2
      cases h2
      exact hcs c (List.mem_cons_self _ _) input res h1 hsucc
    · simp only [hsucc, Bool.false_eq_true, if_false] at h2
      exact ih (fun x hx => hcs x (List.mem_cons_of_mem _ hx)) r h2 hs

theorem coversPrefix_union (cs : List consumer) (hcs : ∀ c ∈ cs, CoversPrefix c) :
    CoversPrefix (union cs) := fun s => po_unionLoop s cs hcs

theorem prefix_extend (cov x input : Bytes) (h : cov <+: input)
    (hx : x <+: input.drop cov.length) : cov ++ x <+: input := by
  obtain ⟨t, rfl⟩ := h
  rw [List.drop_left] at hx
  exact (List.prefix_append_right_inj cov).mpr hx

theorem po_repeatLoop (c : consumer) (hc : CoversPrefix c) (input : Bytes) :
    ∀ (reps : Nat) (coverage : Bytes) (captures : List Bytes), coverage <+: input →
      PrefixOutcome input (repeatLoop c input reps coverage captures) := by
  intro reps
  induction reps with
  | zero =>
    intro coverage captures hcov r h _
    cases h
    exact hcov
  | succ reps ih =>
    intro coverage captures hcov r h hs
    rw [repeatLoop] at h
    obtain ⟨rest, h1, h2⟩ := bind_ok_elim h
    obtain ⟨res, h3, h4⟩ := bind_ok_elim h2
    rw [slice_to_end _ _ hcov.length_le] at h1
    cases h1
    by_cases hsucc : res.Success = true
    · simp only [hsucc, Bool.not_true, Bool.false_eq_true, if_false] at h4
      exact ih _ _ (prefix_extend _ _ _ hcov (hc _ res h3 hsucc)) r h4 hs
    · simp only [hsucc, Bool.not_false, if_true] at h4
      cases h4
      simp [failure, result] at hs

theorem coversPrefix_repeat (c : consumer) (hc : CoversPrefix c) (n : Int) :
    CoversPrefix (repeat_ c n) := fun s =>
  po_repeatLoop c hc s _ [] [] List.nil_prefix

theorem rangeRepeatLoop_covers (c : consumer) (hc : CoversPrefix c) (input : Bytes) :
    ∀ (reps : Nat) (coverage : Bytes) (captures : List Bytes) (done : Nat)
      (out : Bytes × List Bytes × Nat), coverage <+: input →
      rangeRepeatLoop c input reps coverage captures done = Run.ok out → out.1 <+: input := by
  intro reps
  induction reps with
  | zero =>
    intro coverage captures done out hcov h
    cases h
    exact hcov
  | succ reps ih =>
    intro coverage captures done out hcov h
    rw [rangeRepeatLoop] at h
    obtain ⟨rest, h1, h2⟩ := bind_ok_elim h
    obtain ⟨res, h3, h4⟩ := bind_ok_elim h2
    rw [slice_to_end _ _ hcov.length_le] at h1
    cases h1
    by_cases hsucc : res.Success = true
    · simp only [hsucc, Bool.not_true, Bool.false_eq_true, if_false] at h4
      exact ih _ _ _ _ (prefix_extend _ _ _ hcov (hc _ res h3 hsucc)) h4
    · simp only [hsucc, Bool.not_false, if_true] at h4
      cases h4
      exact hcov

theorem coversPrefix_rangeRepeat (c : consumer) (hc : CoversPrefix c) (l u : Int) :
    CoversPrefix (rangeRepeat c l u) := by
  intro s r h hs
  unfold rangeRepeat at h
  obtain ⟨⟨coverage, captures, done⟩, h1, h2⟩ := bind_ok_elim h
  have hp := rangeRepeatLoop_covers c hc s _ [] [] 0 _ List.nil_prefix h1
  simp only at h2
  split_ifs at h2
  · cases h2
    exact hp
  · cases h2
    simp [failure, result] at hs

theorem po_starLoop (c : consumer) (hc : CoversPrefix c) (input : Bytes) :
    ∀ (fuel index : Nat) (coverage : Bytes), coverage <+: input → index = coverage.length →
      PrefixOutcome input (starLoop c input fuel index coverage) := by
  intro fuel
  induction fuel with
  | zero => intro _ _ _ _ r h; cases h
  | succ fuel ih =>
    intro index coverage hcov hidx r h hs
    rw [starLoop] at h
    by_cases hi : index < input.length
    · rw [if_pos hi, slice_to_end _ _ (Nat.le_of_lt hi), ok_bind] at h
      obtain ⟨res, h3, h4⟩ := bind_ok_elim h
      by_cases hsucc : res.Success = true
      · simp only [hsucc, if_true] at h4
        subst hidx
        exact ih _ _ (prefix_extend _ _ _ hcov (hc _ res h3 hsucc)) (by simp) r h4 hs
      · simp only [hsucc, Bool.false_eq_true, if_false] at h4
        cases h4
        exact hcov
    · rw [if_neg hi] at h
      cases h
      exact hcov

theorem coversPrefix_star (c : consumer) (hc : CoversPrefix c) : CoversPrefix (star c) :=
  fun s => po_starLoop c hc s _ 0 [] List.nil_prefix rfl

theorem plusLoop_covers (c : consumer) (hc : CoversPrefix c) (input : Bytes) :
    ∀ (fuel instances index : Nat) (coverage : Bytes) (captures : List Bytes)
      (out : Nat × Bytes × List Bytes), coverage <+: input → index = coverage.length →
      plusLoop c input fuel instances index coverage captures = Run.ok out →
      out.2.1 <+: input := by
  intro fuel
  induction fuel with
  | zero => intro _ _ _ _ _ _ _ h; cases h
  | succ fuel ih =>
    intro instances index coverage captures out hcov hidx h
    rw [plusLoop] at h
    by_cases hi : index < input.length
    · rw [if_pos hi, slice_to_end _ _ (Nat.le_of_lt hi), ok_bind] at h
      obtain ⟨res, h3, h4⟩ := bind_ok_elim h
      by_cases hsucc : res.Success = true
      · simp only [hsucc, if_true] at h4
        subst hidx
        exact ih _ _ _ _ _ (prefix_extend _ _ _ hcov (hc _ res h3 hsucc)) (by simp) h4
      · simp only [hsucc, Bool.false_eq_true, if_false] at h4
        cases h4
        exact hcov
    · rw [if_neg hi] at h
      cases h
      exact hcov

theorem coversPrefix_plus (c : consumer) (hc : CoversPrefix c) : CoversPrefix (plus c) := by
  intro s r h hs
  unfold plus at h
  obtain ⟨⟨instances, coverage, captures⟩, h1, h2⟩ := bind_ok_elim h
  have hp := plusLoop_covers c hc s _ 0 0 [] [] _ List.nil_prefix rfl h1
  simp only at h2
  split_ifs at h2
  · cases h2
    exact hp
  · cases h2
    simp [failure, result] at hs

theorem po_concatLoop :
    ∀ (cs : List consumer), (∀ c ∈ cs, CoversPrefix c) →
      ∀ (bigstr coverage : Bytes) (captures : List Bytes),
        PrefixOutcome (coverage ++ bigstr) (concatLoop cs bigstr coverage captures) := by
  intro cs
  induction cs with
  | nil =>
    intro _ bigstr coverage captures r h _
    cases h
    exact List.prefix_append _ _
  | cons c cs ih =>
    intro hcs bigstr coverage captures r h hs
    rw [concatLoop] at h
    obtain ⟨res, h1, h2⟩ := bind_ok_elim h
    obtain ⟨bigstr1, h3, h4⟩ := bind_ok_elim h2
    by_cases hsucc : res.Success = true
    · simp only [hsucc, Bool.not_true, Bool.false_eq_true, if_false] at h4
      have hp := hcs c (List.mem_cons_self _ _) bigstr res h1 hsucc
      obtain ⟨t, ht⟩ := hp
      rw [slice_to_end _ _ (by rw [← ht]; simp)] at h3
      cases h3
      have := ih (fun x hx => hcs x (List.mem_cons_of_mem _ hx)) _ _ _ r h4 hs
      rw [← ht, List.drop_left, List.append_assoc] at this
      rw [← ht]
      exact this
    · simp only [hsucc, Bool.not_false, if_true] at h4
      cases h4
      simp [failure, result] at hs

theorem coversPrefix_concat (cs : List consumer) (hcs : ∀ c ∈ cs, CoversPrefix c) :
    CoversPrefix (concat cs) := by
  intro s
  unfold concat
  refine po_ite _ _ _ (po_failure _) ?_
  have := po_concatLoop cs hcs s [] []
  simpa using this

theorem built_coversPrefix (childOk : consumer → Prop) (c : consumer)
    (h : Built childOk c) : CoversPrefix c := by
  induction h with
  | atom m => exact coversPrefix_atom m
  | word => exact coversPrefix_word
  | digit => exact coversPrefix_digit
  | any => exact coversPrefix_any
  | backslash => exact coversPrefix_backslash
  | space => exact coversPrefix_space
  | tab => exact coversPrefix_tab
  | negate c _ _ => exact coversPrefix_negate c
  | set cs _ _ => exact coversPrefix_set cs
  | inRange lo hi => exact coversPrefix_inRange lo hi
  | option c _ ih => exact coversPrefix_option c ih
  | repeat_ c n _ ih => exact coversPrefix_repeat c ih n
  | rangeRepeat c l u _ ih => exact coversPrefix_rangeRepeat c ih l u
  | star c _ _ ih => exact coversPrefix_star c ih
  | plus c _ _ ih => exact coversPrefix_plus c ih
  | concat cs _ ih => exact coversPrefix_concat cs ih
  | union cs _ ih => exact coversPrefix_union cs ih
  | capture c _ ih => exact coversPrefix_capture c ih

theorem built_failsClean (childOk : consumer → Prop) (c : consumer)
    (h : Built childOk c) : ∀ input, FailsClean (c input) := by
  cases h with
  | atom m => exact failsClean_atom m
  | word => exact failsClean_word
  | digit => exact failsClean_digit
  | any => exact failsClean_any
  | backslash => exact failsClean_backslash
  | space => exact failsClean_space
  | tab => exact failsClean_tab
  | negate c _ => exact failsClean_negate c
  | set cs _ => exact failsClean_set cs
  | inRange lo hi => exact failsClean_inRange lo hi
  | option c _ => exact failsClean_option c
  | repeat_ c n _ => exact failsClean_repeat c n
  | rangeRepeat c l u _ => exact failsClean_rangeRepeat c l u
  | star c _ _ => exact failsClean_star c
  | plus c _ _ => exact failsClean_plus c
  | concat cs _ => exact failsClean_concat cs
  | union cs _ => exact failsClean_union cs
  | capture c _ => exact failsClean_capture c

theorem within_of (c : consumer) (hp : CoversPrefix c) (hf : ∀ input, FailsClean (c input)) :
    Within c := by
  intro s r h
  by_cases hs : r.Success = true
  · exact (hp s r h hs).length_le
  · have := hf s r h (by simpa using hs)
    rw [this]
    simp [failure, result]

theorem built_within (childOk : consumer → Prop) (c : consumer) (h : Built childOk c) :
    Within c :=
  within_of c (built_coversPrefix childOk c h) (built_failsClean childOk c h)

/-! ## The slices of the repetitions and of concat are within bounds -/

theorem pure_ne_panic {α : Type} (a : α) : (pure a : Run α) ≠ Run.panic := by
  intro h; cases h

theorem diverge_ne_panic {α : Type} : (Run.diverge : Run α) ≠ Run.panic := by
  intro h; cases h

theorem ite_ne_panic {α : Type} {c : Prop} [Decidable c] (a b : Run α)
    (ha : a ≠ Run.panic) (hb : b ≠ Run.panic) : (if c then a else b) ≠ Run.panic := by
  split <;> assumption

theorem bind_ne_panic {α β : Type} (x : Run α) (g : α → Run β)
    (hx : x ≠ Run.panic) (hg : ∀ a, x = Run.ok a → g a ≠ Run.panic) :
    (x >>= g) ≠ Run.panic := by
  cases x with
  | ok a => exact hg a rfl
  | panic => exact absurd rfl hx
  | diverge => exact diverge_ne_panic

theorem repeatLoop_ne_panic (c : consumer) (hin : Within c) (hnp : ∀ s, c s ≠ Run.panic)
    (input : Bytes) :
    ∀ (reps : Nat) (coverage : Bytes) (captures : List Bytes),
      coverage.length ≤ input.length →
      repeatLoop c input reps coverage captures ≠ Run.panic := by
  intro reps
  induction reps with
  | zero => intro _ _ _; exact pure_ne_panic _
  | succ reps ih =>
    intro coverage captures hle
    rw [repeatLoop, slice_to_end _ _ hle, ok_bind]
    refine bind_ne_panic _ _ (hnp _) ?_
    intro res hres
    have hlen := hin _ res hres
    simp only [List.length_drop] at hlen
    refine ite_ne_panic _ _ (pure_ne_panic _) (ih _ _ ?_)
    simp only [List.length_append]
    omega

theorem rangeRepeatLoop_ne_panic (c : consumer) (hin : Within c)
    (hnp : ∀ s, c s ≠ Run.panic) (input : Bytes) :
    ∀ (reps : Nat) (coverage : Bytes) (captures : List Bytes) (done : Nat),
      coverage.length ≤ input.length →
      rangeRepeatLoop c input reps coverage captures done ≠ Run.panic := by
  intro reps
  induction reps with
  | zero => intro _ _ _ _; exact pure_ne_panic _
  | succ reps ih =>
    intro coverage captures done hle
    rw [rangeRepeatLoop, slice_to_end _ _ hle, ok_bind]
    refine bind_ne_panic _ _ (hnp _) ?_
    intro res hres
    have hlen := hin _ res hres
    simp only [List.length_drop] at hlen
    refine ite_ne_panic _ _ (pure_ne_panic _) (ih _ _ _ ?_)
    simp only [List.length_append]
    omega

theorem starLoop_ne_panic (c : consumer) (hnp : ∀ s, c s ≠ Run.panic) (input : Bytes) :
    ∀ (fuel index : Nat) (coverage : Bytes),
      starLoop c input fuel index coverage ≠ Run.panic := by
  intro fuel
  induction fuel with
  | zero => intro _ _; exact diverge_ne_panic
  | succ fuel ih =>
    intro index coverage
    rw [starLoop]
    by_cases hi : index < input.length
    · rw [if_pos hi, slice_to_end _ _ (Nat.le_of_lt hi), ok_bind]
      refine bind_ne_panic _ _ (hnp _) ?_
      intro res _
      exact ite_ne_panic _ _ (ih _ _) (pure_ne_panic _)
    · rw [if_neg hi]
      exact pure_ne_panic _

theorem plusLoop_ne_panic (c : consumer) (hnp : ∀ s, c s ≠ Run.panic) (input : Bytes) :
    ∀ (fuel instances index : Nat) (coverage : Bytes) (captures : List Bytes),
      plusLoop c input fuel instances index coverage captures ≠ Run.panic := by
  intro fuel
  induction fuel with
  | zero => intro _ _ _ _; exact diverge_ne_panic
  | succ fuel ih =>
    intro instances index coverage captures
    rw [plusLoop]
    by_cases hi : index < input.length
    · rw [if_pos hi, slice_to_end _ _ (Nat.le_of_lt hi), ok_bind]
      refine bind_ne_panic _ _ (hnp _) ?_
      intro res _
      exact ite_ne_panic _ _ (ih _ _ _ _) (pure_ne_panic _)
    · rw [if_neg hi]
      exact pure_ne_panic _

theorem concatLoop_ne_panic :
    ∀ (cs : List consumer), (∀ c ∈ cs, Within c ∧ ∀ s, c s ≠ Run.panic) →
      ∀ (bigstr coverage : Bytes) (captures : List Bytes),
        concatLoop cs bigstr coverage captures ≠ Run.panic := by
  intro cs
  induction cs with
  | nil => intro _ _ _ _; exact pure_ne_panic _
  | cons c cs ih =>
    intro hcs bigstr coverage captures
    obtain ⟨hin, hnp⟩ := hcs c (List.mem_cons_self _ _)
    rw [concatLoop]
    refine bind_ne_panic _ _ (hnp _) ?_
    intro res hres
    rw [slice_to_end _ _ (hin _ res hres), ok_bind]
    exact ite_ne_panic _ _ (pure_ne_panic _)
      (ih (fun x hx => hcs x (List.mem_cons_of_mem _ hx)) _ _ _)

theorem repetitions_ne_panic (child : consumer) (hin : Within child)
    (hnp : ∀ s, child s ≠ Run.panic) (input : Bytes) (n l u : Int) :
    repeat_ child n input ≠ Run.panic ∧ rangeRepeat child l u input ≠ Run.panic ∧
      star child input ≠ Run.panic ∧ plus child input ≠ Run.panic := by
  refine ⟨repeatLoop_ne_panic child hin hnp input _ _ _ (Nat.zero_le _), ?_,
    starLoop_ne_panic child hnp input _ _ _, ?_⟩
  · unfold rangeRepeat
    refine bind_ne_panic _ _
      (rangeRepeatLoop_ne_panic child hin hnp input _ _ _ _ (Nat.zero_le _)) ?_
    rintro ⟨coverage, captures, done⟩ _
    exact ite_ne_panic _ _ (pure_ne_panic _) (pure_ne_panic _)
  · unfold plus
    refine bind_ne_panic _ _ (plusLoop_ne_panic child hnp input _ _ _ _ _) ?_
    rintro ⟨instances, coverage, captures⟩ _
    exact ite_ne_panic _ _ (pure_ne_panic _) (pure_ne_panic _)

/-- C25. The coverage of every successful outcome of a matcher built from the node
constructors is a prefix of the input; every matcher that `Parse` returns is built from them,
so it holds for the tree of every compiled pattern.  The coverage of every outcome of such a
matcher, successful or not, is then no longer than the input, and for children of which this
holds the slices `input[len(coverage):]` of `repeat`, `rangeRepeat`, `star`, `plus` and
`concat` are within bounds: these matchers panic only where a child does. -/
theorem coverage_prefix_invariant :
    (∀ c, Built AnyChild c → CoversPrefix c) ∧
    (∀ pattern regex, Parse pattern = Run.ok regex → Built AnyChild regex.exprTree) ∧
    (∀ pattern regex input r, Parse pattern = Run.ok regex →
      regex.exprTree input = Run.ok r → r.Success = true → r.Coverage <+: input) ∧
    (∀ c, Built AnyChild c → Within c) ∧
    (∀ (child : consumer), Within child → (∀ s, child s ≠ Run.panic) →
      ∀ (input : Bytes) (n l u : Int),
        repeat_ child n input ≠ Run.panic ∧ rangeRepeat child l u input ≠ Run.panic ∧
        star child input ≠ Run.panic ∧ plus child input ≠ Run.panic) ∧
    (∀ (children : List consumer), (∀ c ∈ children, Within c ∧ ∀ s, c s ≠ Run.panic) →
      ∀ input, concat children input ≠ Run.panic) ∧
    rootOn (str "(ab|c)+d*") (str "abcdx") =
      Run.ok (result true [str "ab", str "c"] (str "abcd")) := by
  refine ⟨built_coversPrefix AnyChild, Parse_built, ?_, built_within AnyChild,
    repetitions_ne_panic, ?_, by decide⟩
  · intro pattern regex input r hp hr hs
    exact built_coversPrefix AnyChild _ (Parse_built pattern regex hp) input r hr hs
  · intro children hcs input
    unfold concat
    exact ite_ne_panic _ _ (pure_ne_panic _) (concatLoop_ne_panic children hcs _ _ _)

/-- C25, at the pattern `a+b` on the text `aabc`: the coverage `aab` of the success is a
prefix of the text. -/
theorem coverage_prefix_invariant_witness : str "aab" <+: str "aabc" :=
  coverage_prefix_invariant.2.2.1 (str "a+b")
    (Regex.mk (str "a+b") (concat [plus (atom (str "a")), atom (str "b")])) (str "aabc")
    (result true [] (str "aab")) rfl (by decide) rfl

/-! ## Termination of one evaluation -/

theorem terminates_atom (m : Bytes) : Terminates (atom m) := by
  intro s
  rw [atom_eq]
  exact ok_ne_diverge _

theorem terminates_word : Terminates word := by
  intro s
  unfold word
  repeat' (first
    | exact pure_ne_diverge _
    | exact index_ne_diverge _ _
    | exact slice_ne_diverge _ _ _
    | refine ite_ne_diverge _ _ ?_ ?_
    | refine bind_ne_diverge _ _ ?_ ?_
    | intro _)

theorem terminates_digit : Terminates digit := by
  intro s
  unfold digit
  repeat' (first
    | exact pure_ne_diverge _
    | exact index_ne_diverge _ _
    | exact slice_ne_diverge _ _ _
    | refine ite_ne_diverge _ _ ?_ ?_
    | refine bind_ne_diverge _ _ ?_ ?_
    | intro _)

theorem terminates_any : Terminates any := by
  intro s
  unfold any
  repeat' (first
    | exact pure_ne_diverge _
    | exact slice_ne_diverge _ _ _
    | refine ite_ne_diverge _ _ ?_ ?_
    | refine bind_ne_diverge _ _ ?_ ?_
    | intro _)

theorem terminates_backslash : Terminates backslash := by
  intro s
  unfold backslash
  repeat' (first
    | exact pure_ne_diverge _
    | exact index_ne_diverge _ _
    | exact slice_ne_diverge _ _ _
    | refine ite_ne_diverge _ _ ?_ ?_
    | refine bind_ne_diverge _ _ ?_ ?_
    | intro _)

theorem terminates_space : Terminates space := by
  intro s
  unfold space
  repeat' (first
    | exact pure_ne_diverge _
    | exact index_ne_diverge _ _
    | exact slice_ne_diverge _ _ _
    | refine ite_ne_diverge _ _ ?_ ?_
    | refine bind_ne_diverge _ _ ?_ ?_
    | intro _)

theorem terminates_tab : Terminates tab := by
  intro s
  unfold tab
  repeat' (first
    | exact pure_ne_diverge _
    | exact index_ne_diverge _ _
    | exact slice_ne_diverge _ _ _
    | refine ite_ne_diverge _ _ ?_ ?_
    | refine bind_ne_diverge _ _ ?_ ?_
    | intro _)

theorem terminates_inRange (lower upper : Nat) : Terminates (inRange lower upper) := by
  intro s
  unfold inRange
  repeat' (first
    | exact pure_ne_diverge _
    | exact index_ne_diverge _ _
    | exact slice_ne_diverge _ _ _
    | refine ite_ne_diverge _ _ ?_ ?_
    | refine bind_ne_diverge _ _ ?_ ?_
    | intro _)

theorem terminates_negate (c : consumer) (hc : Terminates c) : Terminates (negate c) := by
  intro s
  unfold negate
  repeat' (first
    | exact pure_ne_diverge _
    | exact hc _
    | exact slice_ne_diverge _ _ _
    | refine ite_ne_diverge _ _ ?_ ?_
    | refine bind_ne_diverge _ _ ?_ ?_
    | intro _)

theorem terminates_option (c : consumer) (hc : Terminates c) : Terminates (option c) := by
  intro s
  unfold option
  repeat' (first
    | exact pure_ne_diverge _
    | exact hc _
    | refine ite_ne_diverge _ _ ?_ ?_
    | refine bind_ne_diverge _ _ ?_ ?_
    | intro _)

theorem terminates_capture (c : consumer) (hc : Terminates c) : Terminates (capture c) := by
  intro s
  unfold capture
  repeat' (first
    | exact pure_ne_diverge _
    | exact hc _
    | refine ite_ne_diverge _ _ ?_ ?_
    | refine bind_ne_diverge _ _ ?_ ?_
    | intro _)

theorem setLoop_ne_diverge (input : Bytes) :
    ∀ cs : List consumer, (∀ c ∈ cs, Terminates c) → setLoop cs input ≠ Run.diverge := by
  intro cs
  induction cs with
  | nil => intro _; exact pure_ne_diverge _
  | cons c cs ih =>
    intro hcs
    have hc := hcs c (List.mem_cons_self _ _)
    have hrest := ih (fun x hx => hcs x (List.mem_cons_of_mem _ hx))
    rw [setLoop]
    repeat' (first
      | exact pure_ne_diverge _
      | exact hc _
      | exact hrest
      | exact slice_ne_diverge _ _ _
      | refine ite_ne_diverge _ _ ?_ ?_
      | refine bind_ne_diverge _ _ ?_ ?_
      | intro _)

theorem terminates_set (cs : List consumer) (hcs : ∀ c ∈ cs, Terminates c) :
    Terminates (set cs) := by
  intro s
  unfold set
  exact ite_ne_diverge _ _ (pure_ne_diverge _) (setLoop_ne_diverge s cs hcs)

theorem unionLoop_ne_diverge (input : Bytes) :
    ∀ cs : List consumer, (∀ c ∈ cs, Terminates c) → unionLoop cs input ≠ Run.diverge := by
  intro cs
  induction cs with
  | nil => intro _; exact pure_ne_diverge _
  | cons c cs ih =>
    intro hcs
    have hc := hcs c (List.mem_cons_self _ _)
    have hrest := ih (fun x hx => hcs x (List.mem_cons_of_mem _ hx))
    rw [unionLoop]
    repeat' (first
      | exact pure_ne_diverge _
      | exact hc _
      | exact hrest
      | refine ite_ne_diverge _ _ ?_ ?_
      | refine bind_ne_diverge _ _ ?_ ?_
      | intro _)

theorem terminates_union (cs : List consumer) (hcs : ∀ c ∈ cs, Terminates c) :
    Terminates (union cs) := fun s => unionLoop_ne_diverge s cs hcs

theorem concatLoop_ne_diverge :
    ∀ cs : List consumer, (∀ c ∈ cs, Terminates c) →
      ∀ (bigstr coverage : Bytes) (captures : List Bytes),
        concatLoop cs bigstr coverage captures ≠ Run.diverge := by
  intro cs
  induction cs with
  | nil => intro _ _ _ _; exact pure_ne_diverge _
  | cons c cs ih =>
    intro hcs bigstr coverage captures
    have hc := hcs c (List.mem_cons_self _ _)
    have hrest := ih (fun x hx => hcs x (List.mem_cons_of_mem _ hx))
    rw [concatLoop]
    repeat' (first
      | exact pure_ne_diverge _
      | exact hc _
      | exact hrest _ _ _
      | exact slice_ne_diverge _ _ _
      | refine ite_ne_diverge _ _ ?_ ?_
      | refine bind_ne_diverge _ _ ?_ ?_
      | intro _)

theorem terminates_concat (cs : List consumer) (hcs : ∀ c ∈ cs, Terminates c) :
    Terminates (concat cs) := by
  intro s
  unfold concat
  exact ite_ne_diverge _ _ (pure_ne_diverge _) (concatLoop_ne_diverge cs hcs _ _ _)

theorem repeatLoop_ne_diverge (c : consumer) (hc : Terminates c) (input : Bytes) :
    ∀ (reps : Nat) (coverage : Bytes) (captures : List Bytes),
      repeatLoop c input reps coverage captures ≠ Run.diverge := by
  intro reps
  induction reps with
  | zero => intro _ _; exact pure_ne_diverge _
  | succ reps ih =>
    intro coverage captures
    rw [repeatLoop]
    repeat' (first
      | exact pure_ne_diverge _
      | exact hc _
      | exact ih _ _
      | exact slice_ne_diverge _ _ _
      | refine ite_ne_diverge _ _ ?_ ?_
      | refine bind_ne_diverge _ _ ?_ ?_
      | intro _)

theorem terminates_repeat (c : consumer) (hc : Terminates c) (n : Int) :
    Terminates (repeat_ c n) := fun s => repeatLoop_ne_diverge c hc s _ _ _

theorem rangeRepeatLoop_ne_diverge (c : consumer) (hc : Terminates c) (input : Bytes) :
    ∀ (reps : Nat) (coverage : Bytes) (captures : List Bytes) (done : Nat),
      rangeRepeatLoop c input reps coverage captures done ≠ Run.diverge := by
  intro reps
  induction reps with
  | zero => intro _ _ _; exact pure_ne_diverge _
  | succ reps ih =>
    intro coverage captures done
    rw [rangeRepeatLoop]
    repeat' (first
      | exact pure_ne_diverge _
      | exact hc _
      | exact ih _ _ _
      | exact slice_ne_diverge _ _ _
      | refine ite_ne_diverge _ _ ?_ ?_
      | refine bind_ne_diverge _ _ ?_ ?_
      | intro _)

theorem terminates_rangeRepeat (c : consumer) (hc : Terminates c) (l u : Int) :
    Terminates (rangeRepeat c l u) := by
  intro s
  unfold rangeRepeat
  refine bind_ne_diverge _ _ (rangeRepeatLoop_ne_diverge c hc s _ _ _ _) ?_
  rintro ⟨coverage, captures, done⟩
  exact ite_ne_diverge _ _ (pure_ne_diverge _) (pure_ne_diverge _)

theorem built_terminates (c : consumer) (h : Built Progresses c) : Terminates c := by
  induction h with
  | atom m => exact terminates_atom m
  | word => exact terminates_word
  | digit => exact terminates_digit
  | any => exact terminates_any
  | backslash => exact terminates_backslash
  | space => exact terminates_space
  | tab => exact terminates_tab
  | negate c _ ih => exact terminates_negate c ih
  | set cs _ ih => exact terminates_set cs ih
  | inRange lo hi => exact terminates_inRange lo hi
  | option c _ ih => exact terminates_option c ih
  | repeat_ c n _ ih => exact terminates_repeat c ih n
  | rangeRepeat c l u _ ih => exact terminates_rangeRepeat c ih l u
  | star c _ hp ih => exact star_terminates c ih hp
  | plus c _ hp ih => exact plus_terminates c ih hp
  | concat cs _ ih => exact terminates_concat cs ih
  | union cs _ ih => exact terminates_union cs ih
  | capture c _ ih => exact terminates_capture c ih

/-- The patterns `a?*` and `(a*)*` compile to a `star` whose child succeeds on `b` with an
empty coverage; one evaluation of their matchers on `b` never ends, and so `Match` and
`Matches` do not terminate. -/
theorem star_of_empty_success_loops :
    cparse (str "a?*") = Run.ok (star (option (atom (str "a")))) ∧
    option (atom (str "a")) (str "b") = Run.ok (result true [] []) ∧
    rootOn (str "a?*") (str "b") = Run.diverge ∧
    rootOn (str "(a*)*") (str "b") = Run.diverge ∧
    (Parse (str "a?*")).bind (fun regex => Match regex (str "b")) = Run.diverge ∧
    (Parse (str "a?*")).bind (fun regex => Matches regex (str "b")) = Run.diverge :=
  ⟨rfl, by decide, by decide, by decide, by decide, by decide⟩

/-- C21. One evaluation of a matcher built from the node constructors terminates on every
input when the child of every `star` and of every `plus` in it consumes at least one byte
whenever it succeeds on a non-empty input, and then `Match` and `Matches` terminate.  Such a
`star` or `plus`, over a child that returns an outcome, applies the child successfully at
most `len(input)` times; an unbounded `rangeRepeat` applies its child at most `len(input)`
times whatever the child is.  The loop of `star` and of `plus` runs while
`index < len(input)` and has no other bound, so a child that succeeds with an empty coverage
is applied for ever: the pattern `a?*` compiles to `star(option(atom("a")))`, whose child
succeeds on `b` covering nothing, and its evaluation on `b`, like that of `(a*)*`, does not
terminate, nor do `Match` and `Matches`; the same child under an unbounded `rangeRepeat`, as
in `a?{0,}`, is applied once and the evaluation ends. -/
theorem evaluation_terminates :
    (∀ c, Built Progresses c → Terminates c) ∧
    (∀ (regex : Regex) (input : Bytes), Built Progresses regex.exprTree →
      Match regex input ≠ Run.diverge ∧ Matches regex input ≠ Run.diverge) ∧
    (∀ (child : consumer) (input : Bytes), (∀ s, s ≠ [] → ∃ r, child s = Run.ok r) →
      Progresses child →
      ∃ rs, GreedyRun child input 0 rs ∧ rs.length ≤ input.length ∧
        star child input = Run.ok (result true [] (coverages rs)) ∧
        plus child input =
          Run.ok (if rs = [] then failure else result true (capturesOf rs) (coverages rs))) ∧
    (∀ (child : consumer) (minReps : Int) (input : Bytes), (∀ s, ∃ r, child s = Run.ok r) →
      (∀ s r, child s = Run.ok r → r.Success = true → r.Coverage.length ≤ s.length) →
      ∃ rs, Applications child input 0 rs ∧ rs.length ≤ input.length ∧
        rangeRepeat child minReps (-1) input =
          Run.ok (if minReps ≤ (rs.length : Int)
            then result true (capturesOf rs) (coverages rs) else failure)) ∧
    rootOn (str "(ab|c)+d*") (str "abcdx") =
      Run.ok (result true [str "ab", str "c"] (str "abcd")) ∧
    cparse (str "a?*") = Run.ok (star (option (atom (str "a")))) ∧
    option (atom (str "a")) (str "b") = Run.ok (result true [] []) ∧
    rootOn (str "a?*") (str "b") = Run.diverge ∧
    rootOn (str "(a*)*") (str "b") = Run.diverge ∧
    rootOn (str "a?+") (str "b") = Run.diverge ∧
    (Parse (str "a?*")).bind (fun regex => Match regex (str "b")) = Run.diverge ∧
    (Parse (str "a?*")).bind (fun regex => Matches regex (str "b")) = Run.diverge ∧
    cparse (str "a?\x7b0,\x7d") = Run.ok (rangeRepeat (option (atom (str "a"))) 0 (-1)) ∧
    rootOn (str "a?\x7b0,\x7d") (str "b") = Run.ok (result true [] []) := by
  refine ⟨built_terminates, ?_, ?_, ?_, by decide, rfl, by decide, by decide, by decide,
    by decide, by decide, by decide, rfl, by decide⟩
  · intro regex input hb
    have ht := built_terminates _ hb input
    constructor
    · unfold Match
      exact bind_ne_diverge _ _ ht (fun _ => pure_ne_diverge _)
    · unfold Matches
      exact bind_ne_diverge _ _ ht (fun _ => pure_ne_diverge _)
  · intro child input hret hprog
    obtain ⟨rs, hrs⟩ := greedyRun_exists child input hret hprog _ 0 (Nat.le_refl _)
    have hlen := greedyRun_length child input hprog rs 0 hrs
    exact ⟨rs, hrs, by omega, star_of_greedyRun child input rs hprog hrs,
      plus_of_greedyRun child input rs hprog hrs⟩
  · intro child minReps input hret hcov
    obtain ⟨rs, happ, hlen, _, _, hloop⟩ :=
      rangeRepeatLoop_run child input hret hcov input.length [] [] 0 (Nat.zero_le _)
    refine ⟨rs, happ, hlen, ?_⟩
    simp only [List.nil_append, Nat.zero_add, List.length_nil] at hloop
    simp only [rangeRepeat, if_true, Int.toNat_ofNat, hloop, ok_bind, true_or, and_true]
    by_cases hm : minReps ≤ (rs.length : Int)
    · rw [if_pos hm, if_pos (by omega)]
      rfl
    · rw [if_neg hm, if_neg (by omega)]
      rfl

/-- C21, at the matcher `star(atom("ab"))`, whose child consumes two bytes when it succeeds:
its evaluation on `ababa` terminates. -/
theorem evaluation_terminates_witness :
    star (atom (str "ab")) (str "ababa") ≠ Run.diverge :=
  evaluation_terminates.1 (star (atom (str "ab")))
    (Built.star _ (Built.atom _) (atom_progress _ (by decide))) (str "ababa")

end Regox
